import Mathlib

/-!
# QtMultiSpinBox: split, validate and offset engine

A shallow embedding of `src/qtmultispinbox.cpp`.  A `QString` is a list of characters,
a `QStringRef` is a window (string, position, size) into a `QString`, the widget's
private data (`QtMultiSpinBoxPrivate`) is a record that is passed explicitly, and a
failed `Q_ASSERT` makes an operation return `none`.

The Qt library calls used by the source (`QString::indexOf`, `replace`, `insert`,
`remove`, `simplified`, `QStringRef::mid`, `QLineEdit::setText`, ...) are embedded
after their documented behaviour.
-/

/-- A UTF-16 code unit of a `QString`. -/
abbrev QChar := Char

/-- A Qt string: a finite sequence of characters. -/
abbrev QString := List QChar

namespace QString

/-- `QChar::isSpace`: the ASCII control whitespace 9..13, the space, NEL, the
no-break space and the Unicode separators. -/
def isSpace (c : QChar) : Bool :=
  let n := c.toNat
  n == 0x20 || (0x09 ≤ n && n ≤ 0x0d) || n == 0x85 || n == 0xa0 || n == 0x1680 ||
    (0x2000 ≤ n && n ≤ 0x200a) || n == 0x2028 || n == 0x2029 || n == 0x202f ||
    n == 0x205f || n == 0x3000

/-- `QString::startsWith(p, Qt::CaseSensitive)`. -/
def startsWith (s p : QString) : Bool := p.isPrefixOf s

/-- Offset of the first occurrence of `str` in `s`, searching left to right
(the search behind `indexOf(str, from, Qt::CaseSensitive)`). -/
def firstIndex (str : QString) : QString → Option Nat
  | [] => if str.isPrefixOf [] then some 0 else none
  | c :: s => if str.isPrefixOf (c :: s) then some 0 else (firstIndex str s).map Nat.succ

/-- `QString::indexOf(str, start, Qt::CaseSensitive)` for a start offset `start ≥ 0`:
the first index `≥ start` where `str` occurs, `-1` when there is none. -/
def indexOf (s str : QString) (start : Nat) : Int :=
  if start > s.length then -1
  else
    match firstIndex str (s.drop start) with
    | some i => ((start + i : Nat) : Int)
    | none => -1

/-- `QString::replace(position, n, after)`: replaces `n` characters beginning at
`position` with `after`; nothing happens when `position` is past the end. -/
def replace (s : QString) (position n : Nat) (after : QString) : QString :=
  if position > s.length then s
  else s.take position ++ after ++ s.drop (position + n)

/-- `QString::insert(i, str)` for `i ≥ 0`: inserts `str` at index `i`; when `i` is past
the end the string is first extended with spaces. -/
def insert (s : QString) (i : Nat) (str : QString) : QString :=
  if str = [] then s
  else s.take i ++ List.replicate (i - s.length) ' ' ++ str ++ s.drop i

/-- `QString::remove(position, n)` for `position ≥ 0`: removes `n` characters starting
at `position`; `n` is clamped to the end of the string and a non-positive `n`
removes nothing. -/
def remove (s : QString) (position : Nat) (n : Int) : QString :=
  if position ≥ s.length then s
  else if n ≥ ((s.length - position : Nat) : Int) then s.take position
  else if n > 0 then s.take position ++ s.drop (position + n.toNat)
  else s

/-- Helper of `simplified`: copies the words of `s`, writing one space before every
word but the first.  `started` tells whether a word has been written, `pending`
whether whitespace was seen since. -/
def simplifiedAux : QString → Bool → Bool → QString
  | [], _, _ => []
  | c :: s, started, pending =>
    if isSpace c then simplifiedAux s started started
    else if pending then ' ' :: c :: simplifiedAux s true false
    else c :: simplifiedAux s true false

/-- `QString::simplified()`: whitespace removed from the start and the end, and every
internal run of whitespace replaced by a single space. -/
def simplified (s : QString) : QString := simplifiedAux s false false

end QString

/-- A `QStringRef`: a window of `size` characters of `string` starting at `position`. -/
structure QStringRef where
  string : QString
  position : Nat
  size : Nat
  deriving DecidableEq, Repr

namespace QStringRef

/-- The null reference (`QStringRef()`, also the result of `clear()`). -/
def null : QStringRef := ⟨[], 0, 0⟩

/-- `QStringRef::toString()`. -/
def toString (r : QStringRef) : QString := (r.string.drop r.position).take r.size

/-- `QStringRef::length()`. -/
def length (r : QStringRef) : Nat := r.size

/-- `QStringRef::startsWith(p, Qt::CaseSensitive)`. -/
def startsWith (r : QStringRef) (p : QString) : Bool := QString.startsWith r.toString p

/-- `QStringRef::indexOf(str, 0, Qt::CaseSensitive)`: index inside the window, `-1` when
`str` does not occur. -/
def indexOf (r : QStringRef) (str : QString) : Int :=
  match QString.firstIndex str r.toString with
  | some i => (i : Int)
  | none => -1

/-- `QStringRef::mid(pos)` for `pos ≥ 0`, after Qt from 5.6 on: the null reference when
`pos` is past the end, the reference itself when `pos` is 0, the window from `pos` to the
end when that window is not empty, and otherwise the empty reference
`QStringRef(string, 0, 0)`, whose position is 0. -/
def mid (r : QStringRef) (pos : Nat) : QStringRef :=
  if pos > r.size then null
  else if pos = 0 then r
  else if r.size - pos > 0 then ⟨r.string, r.position + pos, r.size - pos⟩
  else ⟨r.string, 0, 0⟩

/-- `QStringRef::mid(pos, n)` for `pos ≥ 0` and `n ≥ 0`, after Qt from 5.6 on: `n` is cut
to what is left after `pos`; the result is the null reference when `pos` is past the end,
the reference itself when the window is the whole of it, the window of `n` characters
starting at `pos` when `n > 0`, and otherwise the empty reference
`QStringRef(string, 0, 0)`, whose position is 0. -/
def midLen (r : QStringRef) (pos n : Nat) : QStringRef :=
  if pos > r.size then null
  else if pos = 0 ∧ min n (r.size - pos) = r.size then r
  else if min n (r.size - pos) > 0 then ⟨r.string, r.position + pos, min n (r.size - pos)⟩
  else ⟨r.string, 0, 0⟩

end QStringRef

/-- `QValidator::State`. -/
inductive QValidator.State where
  | Invalid
  | Intermediate
  | Acceptable
  deriving DecidableEq, Repr

/-- The values a section exchanges with its host (`QVariant`). -/
inductive QVariant where
  | invalid
  | int (i : Int)
  | string (s : QString)
  deriving DecidableEq, Repr

/-- The abstract section interface `QtMultiSpinBoxElement` as the widget uses it: one
field for each method that `qtmultispinbox.cpp` calls (the class declaration itself is
in a header that is not among the sources).  `validate` takes the fragment and the
cursor position and returns the verdict, the (possibly rewritten) fragment and the
(possibly moved) cursor position, as the C++ method does through its two reference
parameters.  The results below hold for every implementation of the interface. -/
structure QtMultiSpinBoxElement where
  validate : QString → Int → QValidator.State × QString × Int
  defaultValue : QVariant
  textFromValue : QVariant → QString
  valueFromText : QString → QVariant
  stepBy : QVariant → Int → QVariant

/-- `QtMultiSpinBoxData`: a section and the suffix that follows its text. -/
structure QtMultiSpinBoxData where
  element : QtMultiSpinBoxElement
  suffix : QString

/-- Modelled from the spec: the host adapter (`QLineEdit`), which is not code of this
repository.  It is the plain character buffer and cursor of the spec's section 6:
`setText` stores the text and puts the cursor at its end, `setCursorPosition` moves the
cursor to a position inside the text.  The buffer is passive: it does not run the
validator installed on it and sends no change notification.  The source connects
`cursorPositionChanged` to `_q_cursorPositionChanged`; that slot is embedded on its own
below and is not run by `setText` and `setCursorPosition`, so what is proved about an
operation that writes the line edit concerns the buffer, the cursor and the slots, and
not the current section index that the slot recomputes afterwards. -/
structure QLineEdit where
  text : QString
  cursorPosition : Nat

namespace QLineEdit

/-- `QLineEdit::setText`: the text is stored and the cursor goes to its end; the
notification of the cursor move is not delivered. -/
def setText (_e : QLineEdit) (t : QString) : QLineEdit := ⟨t, t.length⟩

/-- `QLineEdit::setCursorPosition`: ignored past the end, negative values go to 0; the
notification of the cursor move is not delivered. -/
def setCursorPosition (e : QLineEdit) (pos : Int) : QLineEdit :=
  if pos ≤ (e.text.length : Int) then { e with cursorPosition := pos.toNat } else e

/-- `QLineEdit::clear`. -/
def clear (_e : QLineEdit) : QLineEdit := ⟨[], 0⟩

end QLineEdit

/-- The state of a `QtMultiSpinBox`: the members of `QtMultiSpinBoxPrivate`
(`currentSectionIndex`, the constant leading string `prefix`, `elementDatas`), the line
edit it writes through, and the payloads of the `currentSectionIndexChanged` signals
emitted so far (most recent last). -/
structure QtMultiSpinBoxPrivate where
  currentSectionIndex : Int
  prefixText : QString
  elementDatas : List QtMultiSpinBoxData
  lineEdit : QLineEdit
  emitted : List Int

namespace QtMultiSpinBoxPrivate

/-- The loop of `checkAndSplit` over the slots that remain; `r` is the unread rest of
the input and `result` the spans appended so far.  The Boolean is the value the
function returns: `it == elementDatas.constEnd() && r.length() == 0`. -/
def checkAndSplitLoop : List QtMultiSpinBoxData → QStringRef → List QStringRef →
    Bool × List QStringRef
  | [], r, result => (r.length == 0, result)
  | e :: rest, r, result =>
    if e.suffix ≠ [] then
      let index := r.indexOf e.suffix
      if index < 0 then
        -- break: the iterator is not at the end
        (false, result)
      else
        checkAndSplitLoop rest (r.mid (index.toNat + e.suffix.length))
          (result ++ [r.midLen 0 index.toNat])
    else
      -- result.append(r); r.clear(); ++it; break
      (rest.isEmpty && QStringRef.null.length == 0, result ++ [r])

/-- `QtMultiSpinBoxPrivate::checkAndSplit(input, result)`: the returned Boolean and the
final content of the out-parameter `result`. -/
def checkAndSplit (d : QtMultiSpinBoxPrivate) (input : QString)
    (result : List QStringRef) : Bool × List QStringRef :=
  let r : QStringRef := ⟨input, 0, input.length⟩
  if d.prefixText ≠ [] then
    if !r.startsWith d.prefixText then (false, result)
    else checkAndSplitLoop d.elementDatas (r.mid d.prefixText.length) result
  else checkAndSplitLoop d.elementDatas r result

/-- The `for` loop of `textIndex`: `i` is the loop counter, `index` the running offset
and the list holds the slots from position `i` on (`elementDatas.value(i)` is its head).
`count` is `elementDatas.count()`. -/
def textIndexLoop (text : QString) (indexElement count : Nat) :
    List QtMultiSpinBoxData → Nat → Int → Int
  | [], _, index => index
  | e :: rest, i, index =>
    if i < indexElement ∧ index ≥ 0 then
      if e.suffix ≠ [] then
        let index1 := QString.indexOf text e.suffix index.toNat
        let index2 := if index1 ≥ 0 then index1 + (e.suffix.length : Int) else index1
        textIndexLoop text indexElement count rest (i + 1) index2
      else
        -- this must be the last one
        if i + 1 = indexElement ∧ indexElement = count then (text.length : Int) else -1
    else index

/-- `QtMultiSpinBoxPrivate::textIndex(text, indexElement)` for `indexElement ≥ 0`;
`none` when `Q_ASSERT(indexElement <= elementDatas.count())` fails. -/
def textIndex (d : QtMultiSpinBoxPrivate) (text : QString) (indexElement : Nat) :
    Option Int :=
  if d.prefixText ≠ [] ∧ QString.startsWith text d.prefixText = false then some (-1)
  else
    let index : Int := if d.prefixText ≠ [] then (d.prefixText.length : Int) else 0
    if indexElement > d.elementDatas.length then none
    else some (textIndexLoop text indexElement d.elementDatas.length d.elementDatas 0 index)

/-- The local variables of the `foreach` loop of `validate`. -/
structure ValidateState where
  splits : List QStringRef
  offsetReplace : Nat
  newText : QString
  r : QValidator.State
  pos : Int

/-- One iteration of the `foreach` loop of `validate` for the slot `e`: the verdict of
the section and the variables afterwards; `none` when `splits.takeFirst()` finds the
list empty.  On `Invalid` the function returns at once, only `pos` has changed. -/
def validateBody (e : QtMultiSpinBoxData) (st : ValidateState) :
    Option (QValidator.State × ValidateState) :=
  match st.splits with
  | [] => none
  | ref :: splits =>
    let copy := ref.toString
    let res := e.element.validate copy st.pos
    let rs := res.1
    let sval := res.2.1
    if rs = QValidator.State.Invalid then
      some (rs, { st with splits := splits, pos := res.2.2 })
    else
      some (rs,
        { splits := splits
          offsetReplace := st.offsetReplace + sval.length + e.suffix.length
          newText :=
            if sval ≠ copy then QString.replace st.newText st.offsetReplace copy.length sval
            else st.newText
          r := if rs = QValidator.State.Intermediate then QValidator.State.Intermediate
               else st.r
          pos := res.2.2 })

/-- The `foreach` loop of `validate`; the Boolean tells whether the loop was left by
`return QValidator::Invalid`. -/
def validateLoop : List QtMultiSpinBoxData → ValidateState → Option (Bool × ValidateState)
  | [], st => some (false, st)
  | e :: es, st =>
    match validateBody e st with
    | none => none
    | some (rs, st1) =>
      if rs = QValidator.State.Invalid then some (true, st1) else validateLoop es st1

/-- `QtMultiSpinBoxPrivate::validate(text, pos)`: the verdict, the text and the cursor
position left in the two reference parameters. -/
def validate (d : QtMultiSpinBoxPrivate) (text : QString) (pos : Int) :
    Option (QValidator.State × QString × Int) :=
  let split := d.checkAndSplit text []
  if split.1 = false then some (QValidator.State.Invalid, text, pos)
  else
    match validateLoop d.elementDatas
        ⟨split.2, d.prefixText.length, text, QValidator.State.Acceptable, pos⟩ with
    | none => none
    | some (true, st) => some (QValidator.State.Invalid, text, st.pos)
    | some (false, st) => some (st.r, st.newText, st.pos)

/-- First loop of `simplify`: re-adds a blank for every leading whitespace of `text`. -/
def simplifyLeading (text : QString) : Nat → Nat → QString → QString
  | 0, _, s => s
  | fuel + 1, index, s =>
    if index < text.length ∧ QString.isSpace (text.getD index ' ') then
      simplifyLeading text fuel (index + 1) (QString.insert s index [' '])
    else s

/-- Second loop of `simplify`: re-adds a blank for every trailing whitespace of `text`. -/
def simplifyTrailing (text : QString) : Nat → Nat → QString → QString
  | 0, _, s => s
  | fuel + 1, index, s =>
    if index < text.length ∧ QString.isSpace (text.getD (text.length - index - 1) ' ') then
      simplifyTrailing text fuel (index + 1) (QString.insert s (s.length - index) [' '])
    else s

/-- `QtMultiSpinBoxPrivate::simplify(text)`.  Each loop runs at most `text.length`
times, which is the fuel given. -/
def simplify (text : QString) : QString :=
  if text = [] then text
  else
    let s := QString.simplified text
    let wasEmpty : Bool := s = []
    let s1 := simplifyLeading text text.length 0 s
    if !wasEmpty then simplifyTrailing text text.length 0 s1 else s1

/-- `QtMultiSpinBoxPrivate::insert(index, element, suffix)` for `index ≥ 0`; `none` when
an assertion fails. -/
def insert (d : QtMultiSpinBoxPrivate) (index : Nat) (element : QtMultiSpinBoxElement)
    (suffix : QString) : Option QtMultiSpinBoxPrivate :=
  let text := d.lineEdit.text
  match d.textIndex text index with
  | none => none
  | some startIndexElement =>
    if startIndexElement < 0 then none
    else
      let newElement : QtMultiSpinBoxData := ⟨element, suffix⟩
      let defaultText := element.textFromValue element.defaultValue
      let text1 := QString.insert text startIndexElement.toNat
        (QString.simplified defaultText ++ newElement.suffix)
      some { d with
        elementDatas := d.elementDatas.take index ++ [newElement] ++ d.elementDatas.drop index
        lineEdit := (d.lineEdit.setText text1).setCursorPosition startIndexElement }

/-- `QtMultiSpinBoxPrivate::take(index)` for `index ≥ 0`: the slot taken out and the
state afterwards; `none` when an assertion fails or there is no slot at `index`. -/
def take (d : QtMultiSpinBoxPrivate) (index : Nat) :
    Option (QtMultiSpinBoxData × QtMultiSpinBoxPrivate) :=
  let text := d.lineEdit.text
  match d.textIndex text index with
  | none => none
  | some startIndexElement =>
    match (if index + 1 = d.elementDatas.length then some (text.length : Int)
           else d.textIndex text (index + 1)) with
    | none => none
    | some endIndexElement =>
      if startIndexElement < 0 then none
      else if endIndexElement < 0 then none
      else
        match d.elementDatas[index]? with
        | none => none
        | some takenElementData =>
          let text1 := QString.remove text startIndexElement.toNat
            (endIndexElement - startIndexElement)
          some (takenElementData,
            { d with
              elementDatas := d.elementDatas.eraseIdx index
              lineEdit := (d.lineEdit.setText text1).setCursorPosition 0 })

end QtMultiSpinBoxPrivate

namespace QtMultiSpinBox

/-- `QtMultiSpinBox::count()`. -/
def count (d : QtMultiSpinBoxPrivate) : Int := (d.elementDatas.length : Int)

/-- `QtMultiSpinBox::insertSpinElement(index, element, suffix)`; `none` when one of its
assertions (or one of `QtMultiSpinBoxPrivate::insert`) fails.  `element != NULL` holds,
an element is always given. -/
def insertSpinElement (d : QtMultiSpinBoxPrivate) (index : Int)
    (element : QtMultiSpinBoxElement) (suffix : QString) : Option QtMultiSpinBoxPrivate :=
  if ¬ (index ≥ 0 ∧ index ≤ count d) then none
  else
    let simplifiedSuffix := QtMultiSpinBoxPrivate.simplify suffix
    if d.elementDatas.length ≥ 1 ∧ index ≠ (d.elementDatas.length : Int) ∧
        simplifiedSuffix = [] then none
    else if d.elementDatas.length ≥ 1 ∧ index ≠ 0 ∧
        (match d.elementDatas[(index - 1).toNat]? with
          | some elementBeforeIndex => elementBeforeIndex.suffix.isEmpty
          | none => true) = true then none
    else d.insert index.toNat element simplifiedSuffix

/-- `QtMultiSpinBox::takeSpinElement(index)`: the section returned and the state
afterwards; `none` when an assertion fails. -/
def takeSpinElement (d : QtMultiSpinBoxPrivate) (index : Int) :
    Option (QtMultiSpinBoxElement × QtMultiSpinBoxPrivate) :=
  if ¬ (index ≥ 0 ∧ index < count d) then none
  else
    match d.take index.toNat with
    | none => none
    | some (eData, d1) =>
      if d1.currentSectionIndex = index then
        some (eData.element,
          { d1 with currentSectionIndex := index - 1, emitted := d1.emitted ++ [index - 1] })
      else some (eData.element, d1)

end QtMultiSpinBox

/-! ## Further operations of `QtMultiSpinBox` -/

/-- `qIsBetweenEqual(min, max, value)`: `min ≤ value ≤ max`, written with `==` and `<`
as in the source. -/
def qIsBetweenEqual (min max value : Int) : Bool :=
  (min == value || decide (min < value)) && (value == max || decide (value < max))

namespace QtMultiSpinBoxPrivate

/-- `QtMultiSpinBoxPrivate::clear()` on a fresh widget: the empty model. -/
def empty : QtMultiSpinBoxPrivate :=
  { currentSectionIndex := -1
    prefixText := []
    elementDatas := []
    lineEdit := QLineEdit.clear ⟨[], 0⟩
    emitted := [] }

/-- The `while` loop of `_q_cursorPositionChanged`: the list holds the spans from
position `indexSplit` on, and the loop runs while `indexSplit < splits.count() && !ok`. -/
def cursorLoop (new_ : Int) : List QStringRef → Int → Bool → Int × Bool
  | [], indexSplit, ok => (indexSplit, ok)
  | r :: rest, indexSplit, ok =>
    if !ok then
      cursorLoop new_ rest (indexSplit + 1)
        (qIsBetweenEqual (r.position : Int) ((r.position : Int) + (r.length : Int)) new_)
    else (indexSplit, ok)

/-- `QtMultiSpinBoxPrivate::_q_cursorPositionChanged(old, new_)`; `none` when
`Q_ASSERT(checkAndSplit(q->text(), splits))` fails. -/
def _q_cursorPositionChanged (d : QtMultiSpinBoxPrivate) (_old new_ : Int) :
    Option QtMultiSpinBoxPrivate :=
  let split := d.checkAndSplit d.lineEdit.text []
  if split.1 = false then none
  else
    let res := cursorLoop new_ split.2 0 false
    let indexSplit : Int := if !res.2 then -1 else res.1 - 1
    if d.currentSectionIndex ≠ indexSplit then
      some { d with currentSectionIndex := indexSplit, emitted := d.emitted ++ [indexSplit] }
    else some d

/-- `QtMultiSpinBoxPrivate::textAt(input, index)`; `none` when an assertion fails. -/
def textAt (d : QtMultiSpinBoxPrivate) (input : QString) (index : Int) : Option QString :=
  let split := d.checkAndSplit input []
  if split.1 = false then none
  else if ¬ (index ≥ 0 ∧ index < (split.2.length : Int)) then none
  else some (split.2.getD index.toNat QStringRef.null).toString

/-- `QtMultiSpinBoxPrivate::setTextAt(input, index, text)`; `none` when an assertion
fails. -/
def setTextAt (d : QtMultiSpinBoxPrivate) (input : QString) (index : Int)
    (text : QString) : Option QString :=
  let split := d.checkAndSplit input []
  if split.1 = false then none
  else if ¬ (index ≥ 0 ∧ index < (split.2.length : Int)) then none
  else
    let r := split.2.getD index.toNat QStringRef.null
    some (QString.replace input r.position r.length text)

/-- `QtMultiSpinBoxPrivate::changeText(edit, text)`: the edit afterwards. -/
def changeText (edit : QLineEdit) (text : QString) : QLineEdit :=
  let pos := edit.cursorPosition
  (edit.setText text).setCursorPosition (pos : Int)

end QtMultiSpinBoxPrivate

namespace QtMultiSpinBox

/-- `QtMultiSpinBox::removeSpinElement(index)`: `delete takeSpinElement(index)`. -/
def removeSpinElement (d : QtMultiSpinBoxPrivate) (index : Int) :
    Option QtMultiSpinBoxPrivate :=
  (takeSpinElement d index).map (fun r => r.2)

/-- `QtMultiSpinBox::setCurrentSectionIndex(index)`; `update()` only repaints. -/
def setCurrentSectionIndex (d : QtMultiSpinBoxPrivate) (index : Int) :
    QtMultiSpinBoxPrivate :=
  let d1 :=
    if count d ≤ 0 then { d with currentSectionIndex := -1 }
    else if index < 0 ∨ index ≥ count d then { d with currentSectionIndex := 0 }
    else { d with currentSectionIndex := index }
  { d1 with emitted := d1.emitted ++ [index] }

/-- `QtMultiSpinBox::setPrefix(prefix)`. -/
def setPrefix (d : QtMultiSpinBoxPrivate) (newPrefix : QString) : QtMultiSpinBoxPrivate :=
  let oldPrefix := d.prefixText
  let p := QString.simplified newPrefix
  let text := QString.replace d.lineEdit.text 0 oldPrefix.length p
  { d with prefixText := p, lineEdit := d.lineEdit.setText text }

/-- `QtMultiSpinBox::setSuffix(index, suffix)`; `none` when an assertion fails. -/
def setSuffix (d : QtMultiSpinBoxPrivate) (index : Int) (suffix : QString) :
    Option QtMultiSpinBoxPrivate :=
  if ¬ (index ≥ 0 ∧ index < count d) then none
  else
    match d.elementDatas[index.toNat]? with
    | none => none
    | some eData =>
      let elementSuffix := eData.suffix
      let newSuffix := QtMultiSpinBoxPrivate.simplify suffix
      let text := d.lineEdit.text
      match d.textIndex text (index.toNat + 1) with
      | none => none
      | some ti =>
        let startIndexElement : Int := ti - (elementSuffix.length : Int)
        if startIndexElement < 0 then none
        else
          let text1 := QString.replace text startIndexElement.toNat elementSuffix.length
            newSuffix
          some { d with
            elementDatas := d.elementDatas.set index.toNat { eData with suffix := newSuffix }
            lineEdit := d.lineEdit.setText text1 }

/-- `QtMultiSpinBox::stepBy(steps)`; `none` when an assertion fails or the current
section index points at no slot. -/
def stepBy (d : QtMultiSpinBoxPrivate) (steps : Int) : Option QtMultiSpinBoxPrivate :=
  if d.currentSectionIndex ≥ 0 then
    match d.elementDatas[d.currentSectionIndex.toNat]? with
    | none => none
    | some eData =>
      let e := eData.element
      match d.textAt d.lineEdit.text d.currentSectionIndex with
      | none => none
      | some s =>
        let v := e.valueFromText s
        let v1 := e.stepBy v steps
        let s1 := e.textFromValue v1
        match d.setTextAt d.lineEdit.text d.currentSectionIndex s1 with
        | none => none
        | some t => some { d with lineEdit := QtMultiSpinBoxPrivate.changeText d.lineEdit t }
  else some d

/-- `QtMultiSpinBox::setValue(index, sectionValue)`; `none` when an assertion fails. -/
def setValue (d : QtMultiSpinBoxPrivate) (index : Int) (sectionValue : QVariant) :
    Option QtMultiSpinBoxPrivate :=
  if ¬ (index ≥ 0 ∧ index < count d) then none
  else
    match d.elementDatas[index.toNat]? with
    | none => none
    | some eData =>
      let element := eData.element
      -- the asserted `validate` call works on `textOfValue` itself and may rewrite it
      let res := element.validate (element.textFromValue sectionValue) 0
      if res.1 = QValidator.State.Invalid then none
      else
        let textOfValue := res.2.1
        match d.setTextAt d.lineEdit.text index textOfValue with
        | none => none
        | some s => some { d with lineEdit := QtMultiSpinBoxPrivate.changeText d.lineEdit s }

end QtMultiSpinBox

namespace QtMultiSpinBoxPrivate

/-- `QtMultiSpinBoxPrivate::get(index)`: `elementDatas.value(index)`, which finds no slot
when `index` is out of range. -/
def get (d : QtMultiSpinBoxPrivate) (index : Int) : Option QtMultiSpinBoxData :=
  if index < 0 then none else d.elementDatas[index.toNat]?

end QtMultiSpinBoxPrivate

namespace QtMultiSpinBox

/-- `QtMultiSpinBox::getSpinElement(index)`: the section returned and the state
afterwards; `none` when the assertion fails. -/
def getSpinElement (d : QtMultiSpinBoxPrivate) (index : Int) :
    Option (QtMultiSpinBoxElement × QtMultiSpinBoxPrivate) :=
  if ¬ (index ≥ 0 ∧ index < count d) then none
  else
    match d.get index with
    | none => none
    | some eData => some (eData.element, d)

end QtMultiSpinBox

/-! ## `QMultiSpinBox`: the variant that keeps a text and an offset in every slot

A shallow embedding of `src/qmultispinbox.cpp`. -/

/-- The outcome of an operation guarded by assertions: `failed s` when an assertion
failed with the widget in state `s`, `done s` when the operation ran to its end and left
the widget in state `s`. -/
inductive Checked (σ : Type) where
  | failed (state : σ)
  | done (state : σ)

/-- The section interface `QMultiSpinBoxElement` as `qmultispinbox.cpp` uses it: one
field for each method that is called (the class declaration itself is in a header that
is not among the sources). -/
structure QMultiSpinBoxElement where
  minimumInputLength : Int
  maximumInputLength : Int
  defaultText : QString
  acceptableChar : QChar → Bool

/-- `QMultiSpinBoxData`: a section, its suffix, its start offset and its text. -/
structure QMultiSpinBoxData where
  element : QMultiSpinBoxElement
  suffix : QString
  startIndex : Int
  text : QString

namespace QMultiSpinBoxData

/-- The constructor `QMultiSpinBoxData(element, suffix)`. -/
def mk0 (element : QMultiSpinBoxElement) (suffix : QString) : QMultiSpinBoxData :=
  { element := element, suffix := suffix, startIndex := -1, text := element.defaultText }

/-- `QMultiSpinBoxData::shiftRight(offset)`. -/
def shiftRight (e : QMultiSpinBoxData) (offset : Int) : QMultiSpinBoxData :=
  if e.startIndex ≥ 0 then { e with startIndex := e.startIndex + offset } else e

/-- Modelled from the spec: `QMultiSpinBoxData::shiftLeft(offset)`, which `take` calls
and whose body is not among the sources: it shifts the offset left by the removed
length, mirroring `shiftRight`. -/
def shiftLeft (e : QMultiSpinBoxData) (offset : Int) : QMultiSpinBoxData :=
  if e.startIndex ≥ 0 then { e with startIndex := e.startIndex - offset } else e

/-- `QMultiSpinBoxData::fullText()`. -/
def fullText (e : QMultiSpinBoxData) : QString := e.text ++ e.suffix

/-- `QMultiSpinBoxData::fullLength()`. -/
def fullLength (e : QMultiSpinBoxData) : Int :=
  (e.text.length : Int) + (e.suffix.length : Int)

end QMultiSpinBoxData

/-- Modelled from the spec: the line control (`QWidgetLineControl`) that holds the text
of a `QMultiSpinBox`, which is not code of this repository: a passive buffer with a
cursor and a maximal length. -/
structure QWidgetLineControl where
  text : QString
  cursor : Nat
  maxLength : Int

namespace QWidgetLineControl

/-- `setText`: the text is cut at the maximal length, the cursor goes to its end. -/
def setText (c : QWidgetLineControl) (t : QString) : QWidgetLineControl :=
  { c with text := t.take c.maxLength.toNat, cursor := (t.take c.maxLength.toNat).length }

/-- `setMaxLength`: stores the limit and sets the text again. -/
def setMaxLength (c : QWidgetLineControl) (n : Int) : QWidgetLineControl :=
  setText { c with maxLength := n } c.text

end QWidgetLineControl

/-- The notifications of a `QMultiSpinBox`. -/
inductive QMultiSpinBoxSignal where
  | elementCountChanged (count : Int)
  | currentSectionIndexChanged (index : Int)
  deriving DecidableEq, Repr

/-- The state of a `QMultiSpinBox`: the members of `QMultiSpinBoxPrivate` that the
model uses (`control`, `cursorVisible`, `currentSectionIndex`, the leading string
`prefix`, `elementDatas`) and the notifications emitted so far (most recent last). -/
structure QMultiSpinBoxPrivate where
  control : QWidgetLineControl
  cursorVisible : Bool
  currentSectionIndex : Int
  prefixText : QString
  elementDatas : List QMultiSpinBoxData
  emitted : List QMultiSpinBoxSignal

namespace QMultiSpinBoxPrivate

/-- `QMultiSpinBoxPrivate::clear()` on a fresh widget: the empty model. -/
def empty : QMultiSpinBoxPrivate :=
  { control := ⟨[], 0, 0⟩
    cursorVisible := false
    currentSectionIndex := -1
    prefixText := []
    elementDatas := []
    emitted := [] }

/-- `QMultiSpinBoxPrivate::text()`: the text held by the line control. -/
def text (d : QMultiSpinBoxPrivate) : QString := d.control.text

/-- `QMultiSpinBoxPrivate::invalidateText()`. -/
def invalidateText (d : QMultiSpinBoxPrivate) : QMultiSpinBoxPrivate :=
  let t := d.elementDatas.foldl (fun t eData => t ++ eData.fullText) d.prefixText
  { d with control := (d.control.setMaxLength ((t.length : Int) + 1)).setText t }

/-- The `foreach` loop of `textLength`: `count` is the counter that is decremented. -/
def textLengthLoop : List QMultiSpinBoxData → Int → Int → Int
  | [], _, length => length
  | eData :: rest, count, length =>
    if count ≤ 0 then length else textLengthLoop rest (count - 1) (length + eData.fullLength)

/-- `QMultiSpinBoxPrivate::textLength(count)`. -/
def textLength (d : QMultiSpinBoxPrivate) (count : Int) : Int :=
  let length : Int := if count ≥ 0 then (d.prefixText.length : Int) else 0
  textLengthLoop d.elementDatas count length

/-- `QMultiSpinBoxPrivate::insert(index, element, suffix)` for `0 ≤ index`. -/
def insert (d : QMultiSpinBoxPrivate) (index : Nat) (element : QMultiSpinBoxElement)
    (suffix : QString) : QMultiSpinBoxPrivate :=
  let newElement := QMultiSpinBoxData.mk0 element suffix
  let d1 := { d with
    elementDatas := d.elementDatas.take index ++ [newElement] ++ d.elementDatas.drop index }
  let newElement1 := { newElement with startIndex := d1.textLength (index : Int) }
  let d2 := { d1 with
    elementDatas := d.elementDatas.take index ++ [newElement1] ++
      (d.elementDatas.drop index).map
        (fun (e : QMultiSpinBoxData) => e.shiftRight newElement1.fullLength) }
  d2.invalidateText

/-- `QMultiSpinBoxPrivate::take(index)` for `0 ≤ index`: the slot taken out and the
state afterwards; `none` when there is no slot at `index`. -/
def take (d : QMultiSpinBoxPrivate) (index : Nat) :
    Option (QMultiSpinBoxData × QMultiSpinBoxPrivate) :=
  match d.elementDatas[index]? with
  | none => none
  | some takenElementData =>
    let d1 := { d with
      elementDatas := d.elementDatas.take index ++
        (d.elementDatas.drop (index + 1)).map
          (fun (e : QMultiSpinBoxData) => e.shiftLeft takenElementData.fullLength) }
    some (takenElementData, d1.invalidateText)

end QMultiSpinBoxPrivate

namespace QMultiSpinBox

/-- `QMultiSpinBox::elementCount()`. -/
def elementCount (d : QMultiSpinBoxPrivate) : Int := (d.elementDatas.length : Int)

/-- The characters that `insertSpinElement` refuses in a section: `QChar::Null`,
`Tabulation`, `LineFeed`, `CarriageReturn`, `Space` and `Nbsp`, in the order of the
assertions. -/
def reservedChars : List QChar :=
  ['\x00', '\t', '\n', '\r', ' ', '\xa0']

/-- `QMultiSpinBox::insertSpinElement(index, element, suffix)`.  The assertions are
checked in the order of the source, before `QMultiSpinBoxPrivate::insert` is called;
`element != NULL` holds, an element is always given.  `updateGeometry()` and `update()`
only repaint. -/
def insertSpinElement (d : QMultiSpinBoxPrivate) (index : Int)
    (element : QMultiSpinBoxElement) (suffix : QString) : Checked QMultiSpinBoxPrivate :=
  if ¬ (index ≥ 0 ∧ index ≤ elementCount d) then Checked.failed d
  else if ¬ (element.minimumInputLength ≤ element.maximumInputLength) then Checked.failed d
  else if ¬ (element.minimumInputLength > 0) then Checked.failed d
  else
    let defaultText := element.defaultText
    if ¬ ((defaultText.length : Int) ≤ element.maximumInputLength) then Checked.failed d
    else if ¬ ((defaultText.length : Int) ≥ element.minimumInputLength) then Checked.failed d
    else if element.acceptableChar '\x00' then Checked.failed d
    else if element.acceptableChar '\t' then Checked.failed d
    else if element.acceptableChar '\n' then Checked.failed d
    else if element.acceptableChar '\r' then Checked.failed d
    else if element.acceptableChar ' ' then Checked.failed d
    else if element.acceptableChar '\xa0' then Checked.failed d
    else
      let d1 := d.insert index.toNat element suffix
      Checked.done { d1 with
        emitted := d1.emitted ++ [QMultiSpinBoxSignal.elementCountChanged (elementCount d1)] }

/-- `QMultiSpinBox::takeSpinElement(index)`: the section returned and the state
afterwards; `none` when the assertion fails. -/
def takeSpinElement (d : QMultiSpinBoxPrivate) (index : Int) :
    Option (QMultiSpinBoxElement × QMultiSpinBoxPrivate) :=
  if ¬ (index ≥ 0 ∧ index < elementCount d) then none
  else
    match d.take index.toNat with
    | none => none
    | some (eData, d1) =>
      let changeCSI : Bool := d1.currentSectionIndex = index
      let d2 := if changeCSI then { d1 with currentSectionIndex := -1 } else d1
      let d3 := { d2 with
        emitted := d2.emitted ++ [QMultiSpinBoxSignal.elementCountChanged (elementCount d2)] }
      let d4 :=
        if changeCSI then
          { d3 with
            emitted := d3.emitted ++
              [QMultiSpinBoxSignal.currentSectionIndexChanged d3.currentSectionIndex] }
        else d3
      some (eData.element, d4)

/-- `QMultiSpinBox::setCurrentSectionIndex(index)`. -/
def setCurrentSectionIndex (d : QMultiSpinBoxPrivate) (index : Int) :
    QMultiSpinBoxPrivate :=
  let d1 :=
    if index < 0 ∨ index ≥ elementCount d then { d with currentSectionIndex := -1 }
    else { d with currentSectionIndex := index }
  { d1 with emitted := d1.emitted ++ [QMultiSpinBoxSignal.currentSectionIndexChanged index] }

end QMultiSpinBox

namespace QWidgetLineControl

/-- `setCursorPosition`: ignored past the end, negative values go to 0. -/
def setCursorPosition (c : QWidgetLineControl) (pos : Int) : QWidgetLineControl :=
  if pos ≤ (c.text.length : Int) then { c with cursor := pos.toNat } else c

end QWidgetLineControl

namespace QMultiSpinBoxPrivate

/-- `QMultiSpinBoxPrivate::clear()`; there is no selection to remove in the passive
buffer. -/
def clear (d : QMultiSpinBoxPrivate) : QMultiSpinBoxPrivate :=
  { d with
    control := ((d.control.setMaxLength 0).setCursorPosition (-1)).setText []
    cursorVisible := false
    currentSectionIndex := -1
    prefixText := []
    elementDatas := [] }

/-- `QMultiSpinBoxPrivate::get(index)`: `elementDatas.value(index)`, which finds no slot
when `index` is out of range. -/
def get (d : QMultiSpinBoxPrivate) (index : Int) : Option QMultiSpinBoxData :=
  if index < 0 then none else d.elementDatas[index.toNat]?

end QMultiSpinBoxPrivate

/-- The slot objects of a `QMultiSpinBox` on the heap.  `elementDatas` is a list of
pointers (`QList<QMultiSpinBoxData*>`): `d` holds the objects pointed to, and `deleted`
lists the positions of `elementDatas` whose object has been destroyed by `delete` while
its pointer is still in the list. -/
structure QMultiSpinBoxHeap where
  d : QMultiSpinBoxPrivate
  deleted : List Nat

namespace QMultiSpinBox

/-- `QMultiSpinBox::setPrefix(prefix)`; `update()` only repaints. -/
def setPrefix (d : QMultiSpinBoxPrivate) (newPrefix : QString) : QMultiSpinBoxPrivate :=
  QMultiSpinBoxPrivate.invalidateText { d with prefixText := newPrefix }

/-- `QMultiSpinBox::setSuffixOf(index, suffix)`; `none` when the assertion fails. -/
def setSuffixOf (d : QMultiSpinBoxPrivate) (index : Int) (suffix : QString) :
    Option QMultiSpinBoxPrivate :=
  if ¬ (index ≥ 0 ∧ index < elementCount d) then none
  else
    match d.elementDatas[index.toNat]? with
    | none => none
    | some eData =>
      some (QMultiSpinBoxPrivate.invalidateText
        { d with elementDatas := d.elementDatas.set index.toNat { eData with suffix := suffix } })

/-- `QMultiSpinBox::getSpinElement(index)`: the section returned and the heap
afterwards.  The function wraps the pointer `d->get(index)`, which stays in
`elementDatas`, in a `QScopedPointer<QMultiSpinBoxData>`, and the destructor of the
scoped pointer deletes the object when the function returns.  `none` when the assertion
fails or when the object that is read has been deleted before. -/
def getSpinElement (h : QMultiSpinBoxHeap) (index : Int) :
    Option (QMultiSpinBoxElement × QMultiSpinBoxHeap) :=
  if ¬ (index ≥ 0 ∧ index < elementCount h.d) then none
  else
    match h.d.get index with
    | none => none
    | some eData =>
      if index.toNat ∈ h.deleted then none
      else some (eData.element, { h with deleted := index.toNat :: h.deleted })

end QMultiSpinBox

/-! ## Specification-side definitions -/

/-- The texts `t_0, t_1, ...` joined with the suffixes of their slots:
`t_0 ++ suffix_0 ++ t_1 ++ suffix_1 ++ ...`. -/
def concatSlots : List QString → List QtMultiSpinBoxData → QString
  | t :: ts, e :: es => t ++ e.suffix ++ concatSlots ts es
  | _, _ => []

/-- The offset `start + sum over j < i of (|t_j| + |suffix_j|)`. -/
def spanOffset (start : Nat) (ts : List QString) (es : List QtMultiSpinBoxData)
    (i : Nat) : Nat :=
  start + ((List.zipWith (fun t e => t.length + e.suffix.length) ts es).take i).sum

/-- The texts that a successful split of `s` along the slots yields: every non-empty
suffix is looked up at its first occurrence, an empty suffix takes the rest and has to
belong to the last slot, and nothing may be left over. -/
def splitTexts : List QtMultiSpinBoxData → QString → Option (List QString)
  | [], s => if s = [] then some [] else none
  | e :: rest, s =>
    if e.suffix ≠ [] then
      match QString.firstIndex e.suffix s with
      | none => none
      | some i =>
        (splitTexts rest (s.drop (i + e.suffix.length))).map (fun ts => s.take i :: ts)
    else if rest.isEmpty then some [s] else none

/-- The texts of a successful split of a whole input: the leading string has to be
there, the rest is split along the slots. -/
def splitInput (d : QtMultiSpinBoxPrivate) (input : QString) : Option (List QString) :=
  if d.prefixText.isPrefixOf input then
    splitTexts d.elementDatas (input.drop d.prefixText.length)
  else none

/-- The reference that `checkAndSplit` holds when `p` characters of `input` have been
read: the window from `p` to the end, which `QStringRef::mid` returns with position 0
when it is empty. -/
def restRef (input : QString) (p : Nat) : QStringRef :=
  if p < input.length then ⟨input, p, input.length - p⟩ else ⟨input, 0, 0⟩

/-- The spans of `input` that hold the texts `ts`, the first text starting at offset `p`
of `input`.  The span of a non-empty text has the offset of the text as its position;
the span of an empty text has position 0, as `QStringRef::mid` returns it. -/
def mkSpans (input : QString) : Nat → List QString → List QtMultiSpinBoxData →
    List QStringRef
  | p, t :: ts, e :: es =>
    ⟨input, if t = [] then 0 else p, t.length⟩ ::
      mkSpans input (p + (t.length + e.suffix.length)) ts es
  | _, _, _ => []

/-- Only the last slot may have an empty suffix: every slot but the last has a
non-empty one. -/
def SuffixInvariant (es : List QtMultiSpinBoxData) : Prop :=
  ∀ e ∈ es.dropLast, e.suffix ≠ []

instance (es : List QtMultiSpinBoxData) : Decidable (SuffixInvariant es) :=
  inferInstanceAs (Decidable (∀ e ∈ es.dropLast, e.suffix ≠ []))

/-- The string `suffix` does not occur in `t ++ suffix` before the offset `|t|`: a
left-to-right search for `suffix` finds the copy that follows `t`. -/
def NoEarlierSuffix (t suffix : QString) : Prop :=
  ∀ j, j < t.length → ¬ suffix <+: (t ++ suffix).drop j

instance (t suffix : QString) : Decidable (NoEarlierSuffix t suffix) :=
  inferInstanceAs (Decidable (∀ j, j < t.length → ¬ suffix <+: (t ++ suffix).drop j))

/-- Every text is delimited by its slot's suffix: for each slot with a non-empty
suffix, the suffix does not occur earlier in text-plus-suffix than right after the
text. -/
def Delimited (ts : List QString) (es : List QtMultiSpinBoxData) : Prop :=
  ∀ p ∈ ts.zip es, p.2.suffix ≠ [] → NoEarlierSuffix p.1 p.2.suffix

instance (ts : List QString) (es : List QtMultiSpinBoxData) : Decidable (Delimited ts es) :=
  inferInstanceAs (Decidable (∀ p ∈ ts.zip es, p.2.suffix ≠ [] → NoEarlierSuffix p.1 p.2.suffix))

/-- The string `str` occurs in `text` at or after the offset `off`. -/
def OccursFrom (str text : QString) (off : Nat) : Prop :=
  ∃ q, q < text.length + 1 ∧ off ≤ q ∧ str <+: text.drop q

instance (str text : QString) (off : Nat) : Decidable (OccursFrom str text off) :=
  inferInstanceAs (Decidable (∃ q, q < text.length + 1 ∧ off ≤ q ∧ str <+: text.drop q))

/-- What the sections return on their spans: the `i`-th section's `validate` is applied
to the `i`-th text at the cursor position left by the section before it (the cursor
position is handed on by reference, starting with `pos`). -/
def sectionRuns : List QtMultiSpinBoxData → List QString → Int →
    List (QValidator.State × QString × Int)
  | e :: es, s :: ss, pos =>
    e.element.validate s pos :: sectionRuns es ss (e.element.validate s pos).2.2
  | _, _, _ => []

/-- The states of a `QtMultiSpinBox` that can be reached from the empty model by
`insertSpinElement` calls whose assertions hold and by `takeSpinElement` calls. -/
inductive Reachable : QtMultiSpinBoxPrivate → Prop where
  | empty : Reachable QtMultiSpinBoxPrivate.empty
  | insert (d d1 : QtMultiSpinBoxPrivate) (index : Int) (element : QtMultiSpinBoxElement)
      (suffix : QString) :
      Reachable d → QtMultiSpinBox.insertSpinElement d index element suffix = some d1 →
      Reachable d1
  | take (d d1 : QtMultiSpinBoxPrivate) (index : Int) (element : QtMultiSpinBoxElement) :
      Reachable d → QtMultiSpinBox.takeSpinElement d index = some (element, d1) →
      Reachable d1

/-- The cursor offset `p` lies in the inclusive range `[start, start + length]` of the
span `sp`. -/
def InSpan (sp : QStringRef) (p : Int) : Prop :=
  (sp.position : Int) ≤ p ∧ p ≤ (sp.position : Int) + (sp.size : Int)

instance (sp : QStringRef) (p : Int) : Decidable (InSpan sp p) :=
  inferInstanceAs (Decidable ((sp.position : Int) ≤ p ∧
    p ≤ (sp.position : Int) + (sp.size : Int)))

/-- The leading whitespace of `text`: its longest prefix of whitespace characters. -/
def leadingSpaces (text : QString) : QString := text.takeWhile QString.isSpace

/-- The trailing whitespace of `text`: the longest suffix of whitespace characters of
what follows the leading whitespace (a text of whitespace only is all leading). -/
def trailingSpaces (text : QString) : QString :=
  (text.dropWhile QString.isSpace).rtakeWhile QString.isSpace

/-- The interior of `text`: what is left between the leading and the trailing
whitespace. -/
def interiorText (text : QString) : QString :=
  (text.dropWhile QString.isSpace).rdropWhile QString.isSpace

/-- Helper of `collapseRuns`; `inRun` tells whether the character before was
whitespace. -/
def collapseRunsAux : QString → Bool → QString
  | [], _ => []
  | c :: s, inRun =>
    if QString.isSpace c then
      if inRun then collapseRunsAux s true else ' ' :: collapseRunsAux s true
    else c :: collapseRunsAux s false

/-- The string `s` with every run of whitespace collapsed to a single space. -/
def collapseRuns (s : QString) : QString := collapseRunsAux s false

/-- The full string of a `QMultiSpinBox`: the leading string followed by the text and
the suffix of every slot, in order. -/
def fullString (d : QMultiSpinBoxPrivate) : QString :=
  d.prefixText ++ (d.elementDatas.map (fun e => e.text ++ e.suffix)).flatten

/-- The length of the leading string plus the texts and suffixes of the first `k`
slots. -/
def fullLengthUpTo (d : QMultiSpinBoxPrivate) (k : Nat) : Nat :=
  d.prefixText.length +
    ((d.elementDatas.take k).map (fun e => e.text.length + e.suffix.length)).sum

/-! ## Example data -/

namespace Example

/-- A section that accepts every fragment as it is; its default text is "00". -/
def plainElement : QtMultiSpinBoxElement :=
  { validate := fun s pos => (QValidator.State.Acceptable, s, pos)
    defaultValue := QVariant.int 0
    textFromValue := fun _ => ['0', '0']
    valueFromText := fun _ => QVariant.int 0
    stepBy := fun v _ => v }

/-- A widget with the leading string "[", two sections with the suffixes ":" and "",
and the buffer "[12:01". -/
def clock : QtMultiSpinBoxPrivate :=
  { currentSectionIndex := -1
    prefixText := ['[']
    elementDatas := [⟨plainElement, [':']⟩, ⟨plainElement, []⟩]
    lineEdit := ⟨['[', '1', '2', ':', '0', '1'], 0⟩
    emitted := [] }

/-- A widget for a range of two numbers "a-b": no leading string, two sections with the
suffixes "-" and "". -/
def range : QtMultiSpinBoxPrivate :=
  { currentSectionIndex := -1
    prefixText := []
    elementDatas := [⟨plainElement, ['-']⟩, ⟨plainElement, []⟩]
    lineEdit := ⟨['0', '0', '-', '0', '0'], 0⟩
    emitted := [] }

/-- A two-digit section that pads a single character with a leading zero: a fragment
of one character is rewritten to "0" followed by it, a fragment of two characters is
accepted as it is, everything else is invalid. -/
def padElement : QtMultiSpinBoxElement :=
  { validate := fun s pos =>
      if s.length = 1 then (QValidator.State.Acceptable, '0' :: s, pos)
      else if s.length = 2 then (QValidator.State.Acceptable, s, pos)
      else (QValidator.State.Invalid, s, pos)
    defaultValue := QVariant.int 0
    textFromValue := fun _ => ['0', '0']
    valueFromText := fun _ => QVariant.int 0
    stepBy := fun v _ => v }

/-- A widget with the leading string "[", two padding sections with the suffixes ":" and
"", and the buffer "[5:7". -/
def padClock : QtMultiSpinBoxPrivate :=
  { currentSectionIndex := -1
    prefixText := ['[']
    elementDatas := [⟨padElement, [':']⟩, ⟨padElement, []⟩]
    lineEdit := ⟨['[', '5', ':', '7'], 0⟩
    emitted := [] }

/-- A widget with no leading string and one padding section followed by the suffix
"0"; its buffer is "50". -/
def padZero : QtMultiSpinBoxPrivate :=
  { currentSectionIndex := -1
    prefixText := []
    elementDatas := [⟨padElement, ['0']⟩]
    lineEdit := ⟨['5', '0'], 0⟩
    emitted := [] }

/-- The decimal digit for `n < 10`. -/
def digitChar (n : Nat) : QChar :=
  ['0', '1', '2', '3', '4', '5', '6', '7', '8', '9'].getD n '0'

/-- The value of a decimal digit; 10 for every other character. -/
def digitValue (c : QChar) : Nat :=
  ['0', '1', '2', '3', '4', '5', '6', '7', '8', '9'].indexOf c

/-- The number written by a non-empty string of decimal digits. -/
def parseNat (s : QString) : Option Nat :=
  if s ≠ [] ∧ s.all (fun c => decide (digitValue c < 10)) then
    some (s.foldl (fun n c => 10 * n + digitValue c) 0)
  else none

/-- Modelled from the spec: the two-digit bounded-integer section for the range
`[0, 99]` of the spec's scenario, whose code is not among the sources.  Its texts are
two decimal digits ("00" for the default value 0), a shorter string of digits is
`Intermediate`, stepping is clamped to the range. -/
def twoDigits : QtMultiSpinBoxElement :=
  { validate := fun s pos =>
      if s.all (fun c => decide (digitValue c < 10)) then
        (if s.length = 2 then QValidator.State.Acceptable
          else if s.length < 2 then QValidator.State.Intermediate
          else QValidator.State.Invalid, s, pos)
      else (QValidator.State.Invalid, s, pos)
    defaultValue := QVariant.int 0
    textFromValue := fun v =>
      match v with
      | QVariant.int i =>
        if 0 ≤ i ∧ i ≤ 99 then [digitChar (i.toNat / 10), digitChar (i.toNat % 10)] else []
      | _ => []
    valueFromText := fun s =>
      match parseNat s with
      | some n => QVariant.int (n : Int)
      | none => QVariant.invalid
    stepBy := fun v steps =>
      match v with
      | QVariant.int i => QVariant.int (max 0 (min 99 (i + steps)))
      | _ => v }

/-- A bounded-integer section for the range `[0, 99]` that writes its value without a
leading zero: "9" for 9, "10" for 10. -/
def unpadded : QtMultiSpinBoxElement :=
  { twoDigits with
    validate := fun s pos =>
      if s.all (fun c => decide (digitValue c < 10)) then
        (if s.length = 1 ∨ s.length = 2 then QValidator.State.Acceptable
          else if s.length < 1 then QValidator.State.Intermediate
          else QValidator.State.Invalid, s, pos)
      else (QValidator.State.Invalid, s, pos)
    textFromValue := fun v =>
      match v with
      | QVariant.int i =>
        if 0 ≤ i ∧ i ≤ 9 then [digitChar i.toNat]
        else if 10 ≤ i ∧ i ≤ 99 then [digitChar (i.toNat / 10), digitChar (i.toNat % 10)]
        else []
      | _ => [] }

/-- The widget of the spec's scenario after its first part: the leading string "[", two
two-digit sections with the suffixes ":" and "", the buffer "[12:01" with the cursor at
its end, and section 1 current. -/
def scenario : QtMultiSpinBoxPrivate :=
  { currentSectionIndex := 1
    prefixText := ['[']
    elementDatas := [⟨twoDigits, [':']⟩, ⟨twoDigits, []⟩]
    lineEdit := ⟨['[', '1', '2', ':', '0', '1'], 6⟩
    emitted := [] }

/-- A widget with the leading string "[", a two-digit section followed by ":" and a
section without leading zero followed by "", the buffer "[12:10" with the cursor at its
end, and section 1 current. -/
def countdown : QtMultiSpinBoxPrivate :=
  { currentSectionIndex := 1
    prefixText := ['[']
    elementDatas := [⟨twoDigits, [':']⟩, ⟨unpadded, []⟩]
    lineEdit := ⟨['[', '1', '2', ':', '1', '0'], 6⟩
    emitted := [] }

/-- A section of a `QMultiSpinBox` that takes two decimal digits. -/
def digitPair : QMultiSpinBoxElement :=
  { minimumInputLength := 2
    maximumInputLength := 2
    defaultText := ['0', '0']
    acceptableChar := fun c => decide (digitValue c < 10) }

/-- A section of a `QMultiSpinBox` that also takes the space. -/
def spacedPair : QMultiSpinBoxElement :=
  { digitPair with acceptableChar := fun c => decide (digitValue c < 10) || c == ' ' }

/-- A section that rejects every fragment. -/
def rejectElement : QtMultiSpinBoxElement :=
  { plainElement with validate := fun s pos => (QValidator.State.Invalid, s, pos) }

/-- A widget with the leading string "[", a padding section followed by ":" and a
rejecting section followed by "", and the buffer "[5:7". -/
def padReject : QtMultiSpinBoxPrivate :=
  { currentSectionIndex := -1
    prefixText := ['[']
    elementDatas := [⟨padElement, [':']⟩, ⟨rejectElement, []⟩]
    lineEdit := ⟨['[', '5', ':', '7'], 0⟩
    emitted := [] }

/-- A `QMultiSpinBox` with two sections of two digits, the suffixes ":" and "", and the
text "00:00". -/
def timeBox : QMultiSpinBoxPrivate :=
  (QMultiSpinBoxPrivate.empty.insert 0 digitPair [':']).insert 1 digitPair []

/-- The example widget with the text of section 0 deleted: the buffer is "[:01", the
cursor is at offset 1 and section 0 is current. -/
def blankFirst : QtMultiSpinBoxPrivate :=
  { clock with currentSectionIndex := 0, lineEdit := ⟨['[', ':', '0', '1'], 1⟩ }

/-- The example widget with the text of section 1 deleted: the buffer is "[12:". -/
def blankLast : QtMultiSpinBoxPrivate :=
  { clock with lineEdit := ⟨['[', '1', '2', ':'], 0⟩ }

/-- The range widget with the text of section 1 deleted: no leading string, the buffer is
"12-". -/
def blankRange : QtMultiSpinBoxPrivate :=
  { range with lineEdit := ⟨['1', '2', '-'], 0⟩ }

end Example

/-! ## Searching a string -/

namespace QString

theorem firstIndex_some {str : QString} : ∀ {s : QString} {i : Nat},
    firstIndex str s = some i →
    i ≤ s.length ∧ str <+: s.drop i ∧ ∀ j, j < i → ¬ str <+: s.drop j := by
  intro s
  induction s with
  | nil =>
    intro i h
    simp only [firstIndex] at h
    split at h
    · rename_i hp
      cases h
      exact ⟨le_refl _, by simpa using List.isPrefixOf_iff_prefix.mp hp, by intro j hj; omega⟩
    · cases h
  | cons c s ih =>
    intro i h
    simp only [firstIndex] at h
    split at h
    · rename_i hp
      cases h
      exact ⟨Nat.zero_le _, by simpa using List.isPrefixOf_iff_prefix.mp hp,
        by intro j hj; omega⟩
    · rename_i hp
      cases hfi : firstIndex str s with
      | none => simp [hfi] at h
      | some k =>
        simp [hfi] at h
        subst h
        obtain ⟨h1, h2, h3⟩ := ih hfi
        refine ⟨by simpa using h1, by simpa using h2, ?_⟩
        intro j hj
        cases j with
        | zero =>
          intro hc
          exact hp (List.isPrefixOf_iff_prefix.mpr (by simpa using hc))
        | succ j => simpa using h3 j (by omega)

theorem firstIndex_of_first {str : QString} : ∀ {s : QString} {i : Nat},
    i ≤ s.length → str <+: s.drop i → (∀ j, j < i → ¬ str <+: s.drop j) →
    firstIndex str s = some i := by
  intro s
  induction s with
  | nil =>
    intro i hi hp _
    have : i = 0 := by simpa using hi
    subst this
    simp only [firstIndex]
    rw [if_pos (List.isPrefixOf_iff_prefix.mpr (by simpa using hp))]
  | cons c s ih =>
    intro i hi hp hmin
    simp only [firstIndex]
    cases i with
    | zero => rw [if_pos (List.isPrefixOf_iff_prefix.mpr (by simpa using hp))]
    | succ i =>
      have h0 : ¬ str <+: c :: s := by simpa using hmin 0 (by omega)
      rw [if_neg (fun hc => h0 (List.isPrefixOf_iff_prefix.mp hc))]
      have := ih (i := i) (by simpa using hi) (by simpa using hp)
        (fun j hj => by simpa using hmin (j + 1) (by omega))
      simp [this]

theorem firstIndex_none {str s : QString} (h : firstIndex str s = none) (j : Nat)
    (hj : j ≤ s.length) : ¬ str <+: s.drop j := by
  induction s generalizing j with
  | nil =>
    simp only [firstIndex] at h
    split at h
    · cases h
    · rename_i hp
      intro hc
      exact hp (List.isPrefixOf_iff_prefix.mpr (by simpa using hc))
  | cons c s ih =>
    simp only [firstIndex] at h
    split at h
    · cases h
    · rename_i hp
      have hs : firstIndex str s = none := by
        cases hfi : firstIndex str s with
        | none => rfl
        | some k => simp [hfi] at h
      cases j with
      | zero =>
        intro hc
        exact hp (List.isPrefixOf_iff_prefix.mpr (by simpa using hc))
      | succ j => simpa using ih hs j (by simpa using hj)

end QString

namespace QString

theorem firstIndex_split {str s : QString} {i : Nat} (h : firstIndex str s = some i) :
    i + str.length ≤ s.length ∧ s = s.take i ++ (str ++ s.drop (i + str.length)) := by
  obtain ⟨h1, ⟨t, ht⟩, _⟩ := firstIndex_some h
  have hlen : (s.drop i).length = str.length + t.length := by rw [← ht]; simp
  have hlen2 : s.length - i = str.length + t.length := by simpa using hlen
  have hd : s.drop (i + str.length) = t := by
    have : s.drop (i + str.length) = (s.drop i).drop str.length := by
      rw [List.drop_drop, Nat.add_comm]
    rw [this, ← ht]
    simp
  refine ⟨by omega, ?_⟩
  rw [hd, ht, List.take_append_drop]

end QString

/-! ## `checkAndSplit` against the split of the texts -/

theorem splitTexts_sound : ∀ (es : List QtMultiSpinBoxData) (s : QString)
    (ts : List QString), splitTexts es s = some ts →
    ts.length = es.length ∧ s = concatSlots ts es ∧
    (∀ i e, es[i]? = some e → i + 1 < es.length → e.suffix ≠ []) := by
  intro es
  induction es with
  | nil =>
    intro s ts h
    simp only [splitTexts] at h
    split at h
    · rename_i hs
      cases h
      exact ⟨rfl, by simpa [concatSlots] using hs, by intro i e he; simp at he⟩
    · cases h
  | cons e rest ih =>
    intro s ts h
    simp only [splitTexts] at h
    split at h
    · rename_i hne
      cases hfi : QString.firstIndex e.suffix s with
      | none => simp [hfi] at h
      | some i =>
        simp only [hfi] at h
        cases hrest : splitTexts rest (s.drop (i + e.suffix.length)) with
        | none => simp [hrest] at h
        | some ts1 =>
          simp only [hrest, Option.map_some', Option.some.injEq] at h
          subst h
          obtain ⟨h1, h2, h3⟩ := ih _ _ hrest
          obtain ⟨_, hsplit⟩ := QString.firstIndex_split hfi
          refine ⟨by simp [h1], ?_, ?_⟩
          · simp only [concatSlots]
            rw [← h2, List.append_assoc]
            exact hsplit
          · intro j e1 hj hlt
            cases j with
            | zero =>
              simp at hj
              subst hj
              exact hne
            | succ j =>
              simp at hj
              exact h3 j e1 hj (by simpa using hlt)
    · rename_i hemp
      split at h
      · rename_i hr
        cases h
        have hr1 : rest = [] := by simpa using hr
        subst hr1
        have he : e.suffix = [] := by simpa using hemp
        refine ⟨rfl, by simp [concatSlots, he], ?_⟩
        intro j e1 _ hlt
        simp at hlt
      · cases h

theorem restRef_zero (input : QString) : restRef input 0 = ⟨input, 0, input.length⟩ := by
  simp only [restRef]
  split_ifs with h
  · rfl
  · have : input.length = 0 := by omega
    rw [this]

theorem restRef_toString (input : QString) (p : Nat) :
    (restRef input p).toString = input.drop p := by
  simp only [restRef]
  split_ifs with h
  · simp only [QStringRef.toString]
    apply List.take_of_length_le
    simp
  · simp only [QStringRef.toString, List.take_zero]
    exact (List.drop_eq_nil_of_le (by omega)).symm

theorem restRef_size (input : QString) (p : Nat) :
    (restRef input p).size = input.length - p := by
  simp only [restRef]
  split_ifs with h
  · rfl
  · show 0 = input.length - p
    omega

theorem restRef_mid (input : QString) (p k : Nat) (hk : 0 < k) (h : p + k ≤ input.length) :
    (restRef input p).mid k = restRef input (p + k) := by
  have hp : p < input.length := by omega
  simp only [restRef, if_pos hp, QStringRef.mid]
  rw [if_neg (by omega), if_neg (by omega)]
  by_cases hlt : p + k < input.length
  · rw [if_pos (by omega), if_pos hlt, Nat.sub_sub]
  · rw [if_neg (by omega), if_neg hlt]

theorem restRef_midLen (input : QString) (p i : Nat) (hp : p < input.length)
    (hi : i ≤ input.length - p) :
    (restRef input p).midLen 0 i = ⟨input, if i = 0 then 0 else p, i⟩ := by
  have hmin : min i (input.length - p - 0) = i := by
    rw [Nat.sub_zero]
    exact Nat.min_eq_left hi
  simp only [restRef, if_pos hp, QStringRef.midLen, hmin]
  rw [if_neg (by omega)]
  by_cases hfull : i = input.length - p
  · have h0 : i ≠ 0 := by omega
    rw [if_pos (And.intro (by trivial) hfull), if_neg h0, hfull]
  · rw [if_neg (fun h => hfull h.2)]
    by_cases h0 : i = 0
    · rw [if_neg (by omega), if_pos h0, h0]
    · rw [if_pos (by omega), if_neg h0, Nat.add_zero]

theorem restRef_last (input : QString) (p : Nat) (hp : p ≤ input.length) :
    restRef input p = ⟨input, if input.drop p = [] then 0 else p, (input.drop p).length⟩ := by
  simp only [restRef, List.length_drop]
  by_cases h : p < input.length
  · have hne : input.drop p ≠ [] := by
      intro hc
      have := congrArg List.length hc
      simp only [List.length_drop, List.length_nil] at this
      omega
    rw [if_pos h, if_neg hne]
  · have he : input.drop p = [] := List.drop_eq_nil_of_le (by omega)
    have h0 : input.length - p = 0 := by omega
    rw [if_neg h, if_pos he, h0]

theorem checkAndSplitLoop_spec : ∀ (es : List QtMultiSpinBoxData) (input : QString)
    (p : Nat) (result : List QStringRef), p ≤ input.length →
    (∀ ts, splitTexts es (input.drop p) = some ts →
      QtMultiSpinBoxPrivate.checkAndSplitLoop es (restRef input p) result =
        (true, result ++ mkSpans input p ts es)) ∧
    (splitTexts es (input.drop p) = none →
      (QtMultiSpinBoxPrivate.checkAndSplitLoop es (restRef input p) result).1 =
        false) := by
  intro es
  induction es with
  | nil =>
    intro input p result hp
    simp only [splitTexts, QtMultiSpinBoxPrivate.checkAndSplitLoop, QStringRef.length,
      restRef_size]
    constructor
    · intro ts h
      split at h
      · rename_i hs
        cases h
        have : input.length - p = 0 := by
          have := congrArg List.length hs
          simpa using this
        simp [mkSpans, this]
      · cases h
    · intro h
      split at h
      · cases h
      · rename_i hs
        have : input.length - p ≠ 0 := by
          intro h0
          apply hs
          apply List.eq_nil_of_length_eq_zero
          simpa using h0
        simpa using this
  | cons e rest ih =>
    intro input p result hp
    simp only [splitTexts, QtMultiSpinBoxPrivate.checkAndSplitLoop, QStringRef.indexOf,
      restRef_toString]
    by_cases hne : e.suffix ≠ []
    · simp only [if_pos hne]
      cases hfi : QString.firstIndex e.suffix (input.drop p) with
      | none => simp
      | some i =>
        obtain ⟨hle, _⟩ := QString.firstIndex_split hfi
        have hle2 : i + e.suffix.length ≤ input.length - p := by simpa using hle
        have hspos : 0 < e.suffix.length := List.length_pos.mpr hne
        have hmid : QStringRef.mid (restRef input p) (i + e.suffix.length) =
            restRef input (p + (i + e.suffix.length)) :=
          restRef_mid input p _ (by omega) (by omega)
        have hmidLen : QStringRef.midLen (restRef input p) 0 i =
            ⟨input, if i = 0 then 0 else p, i⟩ :=
          restRef_midLen input p i (by omega) (by omega)
        have hnot : ¬ ((i : Int) < 0) := by omega
        simp only [hnot, if_false, Int.toNat_ofNat, hmid, hmidLen]
        have hdd : (input.drop p).drop (i + e.suffix.length) =
            input.drop (p + (i + e.suffix.length)) := by
          rw [List.drop_drop, Nat.add_comm]
        rw [hdd]
        obtain ⟨ih1, ih2⟩ := ih input (p + (i + e.suffix.length))
          (result ++ [⟨input, if i = 0 then 0 else p, i⟩]) (by omega)
        constructor
        · intro ts h
          cases hrest : splitTexts rest (input.drop (p + (i + e.suffix.length))) with
          | none => simp [hrest] at h
          | some ts1 =>
            simp only [hrest, Option.map_some', Option.some.injEq] at h
            subst h
            rw [ih1 ts1 hrest]
            have hti : (List.take i (List.drop p input)).length = i := by
              simp
              omega
            have hnil : (List.take i (List.drop p input) = []) ↔ i = 0 := by
              constructor
              · intro hc
                rw [hc] at hti
                exact hti.symm
              · intro hc
                rw [hc]
                rfl
            simp only [mkSpans, hti, hnil, List.append_assoc, List.singleton_append]
        · intro h
          apply ih2
          cases hrest : splitTexts rest (input.drop (p + (i + e.suffix.length))) with
          | none => rfl
          | some ts1 => simp [hrest] at h
    · simp only [if_neg hne]
      constructor
      · intro ts h
        split at h
        · rename_i hr
          cases h
          have hr1 : rest = [] := by simpa using hr
          subst hr1
          rw [restRef_last input p hp]
          simp [mkSpans, QStringRef.null, QStringRef.length]
        · cases h
      · intro h
        split at h
        · cases h
        · rename_i hr
          simp [hr]

theorem checkAndSplit_spec (d : QtMultiSpinBoxPrivate) (input : QString)
    (result : List QStringRef) :
    (∀ ts, splitInput d input = some ts →
      d.checkAndSplit input result =
        (true, result ++ mkSpans input d.prefixText.length ts d.elementDatas)) ∧
    (splitInput d input = none → (d.checkAndSplit input result).1 = false) := by
  have hts : QStringRef.toString ⟨input, 0, input.length⟩ = input := by
    simp [QStringRef.toString]
  by_cases hpre : d.prefixText.isPrefixOf input = true
  · have hlen : d.prefixText.length ≤ input.length :=
      (List.isPrefixOf_iff_prefix.mp hpre).length_le
    obtain ⟨h1, h2⟩ := checkAndSplitLoop_spec d.elementDatas input d.prefixText.length
      result hlen
    have hcs : d.checkAndSplit input result =
        QtMultiSpinBoxPrivate.checkAndSplitLoop d.elementDatas
          (restRef input d.prefixText.length) result := by
      simp only [QtMultiSpinBoxPrivate.checkAndSplit, QStringRef.startsWith,
        QString.startsWith, hts, hpre]
      by_cases hne : d.prefixText = []
      · simp [hne, restRef_zero]
      · have hpos : 0 < d.prefixText.length := List.length_pos.mpr hne
        have hmid : QStringRef.mid ⟨input, 0, input.length⟩ d.prefixText.length =
            restRef input d.prefixText.length := by
          rw [← restRef_zero, restRef_mid input 0 _ hpos (by omega), Nat.zero_add]
        simp [hne, hmid]
    simp only [splitInput, hpre, if_true, hcs]
    exact ⟨h1, h2⟩
  · have hne : d.prefixText ≠ [] := by
      intro h
      apply hpre
      rw [h]
      simp
    simp only [splitInput, hpre]
    constructor
    · intro ts h
      simp at h
    · intro _
      simp [QtMultiSpinBoxPrivate.checkAndSplit, QStringRef.startsWith,
        QString.startsWith, hts, hpre, hne]

theorem spanOffset_zero (p : Nat) (ts : List QString) (es : List QtMultiSpinBoxData) :
    spanOffset p ts es 0 = p := by
  simp [spanOffset]

theorem spanOffset_succ (p : Nat) (t : QString) (ts : List QString)
    (e : QtMultiSpinBoxData) (es : List QtMultiSpinBoxData) (i : Nat) :
    spanOffset p (t :: ts) (e :: es) (i + 1) =
      spanOffset (p + (t.length + e.suffix.length)) ts es i := by
  simp [spanOffset, Nat.add_assoc]

theorem mkSpans_length (input : QString) : ∀ (ts : List QString)
    (es : List QtMultiSpinBoxData) (p : Nat), ts.length = es.length →
    (mkSpans input p ts es).length = es.length := by
  intro ts
  induction ts with
  | nil =>
    intro es p h
    cases es with
    | nil => rfl
    | cons e es => simp at h
  | cons t ts ih =>
    intro es p h
    cases es with
    | nil => simp at h
    | cons e es =>
      simp only [mkSpans, List.length_cons]
      rw [ih es _ (by simpa using h)]

theorem mkSpans_getElem (input : QString) : ∀ (ts : List QString)
    (es : List QtMultiSpinBoxData) (p i : Nat) (sp : QStringRef),
    (mkSpans input p ts es)[i]? = some sp →
    sp.string = input ∧ (sp.size ≠ 0 → sp.position = spanOffset p ts es i) ∧
      (sp.size = 0 → sp.position = 0) ∧
      ∃ t, ts[i]? = some t ∧ sp.size = t.length := by
  intro ts
  induction ts with
  | nil =>
    intro es p i sp h
    simp [mkSpans] at h
  | cons t ts ih =>
    intro es p i sp h
    cases es with
    | nil => simp [mkSpans] at h
    | cons e es =>
      cases i with
      | zero =>
        simp only [mkSpans, List.getElem?_cons_zero, Option.some.injEq] at h
        subst h
        refine ⟨rfl, ?_, ?_, t, by simp⟩
        · intro hne
          have ht : t ≠ [] := fun hc => hne (by rw [hc]; rfl)
          simp [spanOffset_zero, ht]
        · intro h0
          have ht : t = [] := List.eq_nil_of_length_eq_zero h0
          simp [ht]
      | succ i =>
        simp only [mkSpans, List.getElem?_cons_succ] at h
        obtain ⟨h1, h2, h2b, t1, h3, h4⟩ := ih es _ i sp h
        exact ⟨h1, fun hne => by rw [spanOffset_succ]; exact h2 hne, h2b, t1,
          by simpa using h3, h4⟩

theorem mkSpans_toString (input : QString) : ∀ (ts : List QString)
    (es : List QtMultiSpinBoxData) (p : Nat), ts.length = es.length →
    input.drop p = concatSlots ts es →
    (mkSpans input p ts es).map QStringRef.toString = ts := by
  intro ts
  induction ts with
  | nil =>
    intro es p _ _
    cases es <;> rfl
  | cons t ts ih =>
    intro es p hlen h
    cases es with
    | nil => simp at hlen
    | cons e es =>
      simp only [concatSlots] at h
      simp only [mkSpans, List.map_cons]
      have h1 : QStringRef.toString ⟨input, if t = [] then 0 else p, t.length⟩ = t := by
        simp only [QStringRef.toString]
        by_cases ht : t = []
        · simp [ht]
        · rw [if_neg ht, h]
          simp
      have h2 : input.drop (p + (t.length + e.suffix.length)) = concatSlots ts es := by
        have : input.drop (p + (t.length + e.suffix.length)) =
            (input.drop p).drop (t.length + e.suffix.length) := by
          rw [List.drop_drop, Nat.add_comm]
        rw [this, h]
        have h3 : t ++ e.suffix ++ concatSlots ts es =
            (t ++ e.suffix) ++ concatSlots ts es := rfl
        rw [h3, ← List.length_append]
        simp
      rw [h1, ih es _ (by simpa using hlen) h2]

theorem suffixInvariant_cons (e : QtMultiSpinBoxData) (rest : List QtMultiSpinBoxData) :
    SuffixInvariant (e :: rest) ↔ (rest ≠ [] → e.suffix ≠ []) ∧ SuffixInvariant rest := by
  cases rest with
  | nil => simp [SuffixInvariant]
  | cons e1 rest => simp [SuffixInvariant]

theorem suffixInvariant_of_index (es : List QtMultiSpinBoxData)
    (h : ∀ i e, es[i]? = some e → i + 1 < es.length → e.suffix ≠ []) :
    SuffixInvariant es := by
  induction es with
  | nil => simp [SuffixInvariant]
  | cons e rest ih =>
    rw [suffixInvariant_cons]
    constructor
    · intro hne
      apply h 0 e (by simp)
      cases rest with
      | nil => exact absurd rfl hne
      | cons _ _ => simp
    · apply ih
      intro i e1 hi hlt
      exact h (i + 1) e1 (by simpa using hi) (by simpa using hlt)

theorem splitTexts_suffixInvariant (es : List QtMultiSpinBoxData) (s : QString)
    (ts : List QString) (h : splitTexts es s = some ts) : SuffixInvariant es :=
  suffixInvariant_of_index es (splitTexts_sound es s ts h).2.2

theorem firstIndex_delimited (t suffix rest : QString) (h : NoEarlierSuffix t suffix) :
    QString.firstIndex suffix (t ++ suffix ++ rest) = some t.length := by
  apply QString.firstIndex_of_first
  · simp
  · rw [List.append_assoc, List.drop_left]
    exact List.prefix_append _ _
  · intro j hj hc
    apply h j hj
    have hd : (t ++ suffix ++ rest).drop j = (t ++ suffix).drop j ++ rest := by
      apply List.drop_append_of_le_length
      simp
      omega
    rw [hd] at hc
    apply List.prefix_of_prefix_length_le hc (List.prefix_append _ _)
    simp
    omega

theorem splitTexts_complete : ∀ (es : List QtMultiSpinBoxData) (ts : List QString),
    ts.length = es.length → SuffixInvariant es → Delimited ts es →
    splitTexts es (concatSlots ts es) = some ts := by
  intro es
  induction es with
  | nil =>
    intro ts hlen _ _
    have : ts = [] := List.eq_nil_of_length_eq_zero (by simpa using hlen)
    subst this
    simp [splitTexts, concatSlots]
  | cons e rest ih =>
    intro ts hlen hinv hdel
    cases ts with
    | nil => simp at hlen
    | cons t ts =>
      have hlen1 : ts.length = rest.length := by simpa using hlen
      obtain ⟨hlast, hinv1⟩ := (suffixInvariant_cons e rest).mp hinv
      have hdel1 : Delimited ts rest := by
        intro p hp
        exact hdel p (by simp [hp])
      simp only [splitTexts, concatSlots]
      by_cases hne : e.suffix ≠ []
      · rw [if_pos hne]
        have hno : NoEarlierSuffix t e.suffix := hdel (t, e) (by simp) hne
        rw [firstIndex_delimited t e.suffix _ hno]
        have hd : (t ++ e.suffix ++ concatSlots ts rest).drop (t.length + e.suffix.length) =
            concatSlots ts rest := by
          rw [← List.length_append]
          simp
        have htk : (t ++ e.suffix ++ concatSlots ts rest).take t.length = t := by
          rw [List.append_assoc]
          simp
        simp only [hd, htk, ih ts hlen1 hinv1 hdel1, Option.map_some']
      · rw [if_neg hne]
        have he : e.suffix = [] := by simpa using hne
        have hr : rest = [] := by
          by_contra hc
          exact hlast hc he
        subst hr
        have : ts = [] := List.eq_nil_of_length_eq_zero (by simpa using hlen1)
        subst this
        simp [concatSlots, he]

theorem splitInput_append (d : QtMultiSpinBoxPrivate) (s : QString) :
    splitInput d (d.prefixText ++ s) = splitTexts d.elementDatas s := by
  have : d.prefixText.isPrefixOf (d.prefixText ++ s) = true :=
    List.isPrefixOf_iff_prefix.mpr (List.prefix_append _ _)
  simp [splitInput, this]

theorem splitInput_sound (d : QtMultiSpinBoxPrivate) (input : QString) (ts : List QString)
    (h : splitInput d input = some ts) :
    ts.length = d.elementDatas.length ∧
    input = d.prefixText ++ concatSlots ts d.elementDatas ∧
    input.drop d.prefixText.length = concatSlots ts d.elementDatas ∧
    SuffixInvariant d.elementDatas ∧
    splitTexts d.elementDatas (concatSlots ts d.elementDatas) = some ts := by
  simp only [splitInput] at h
  split at h
  · rename_i hp
    obtain ⟨h1, h2, _⟩ := splitTexts_sound _ _ _ h
    obtain ⟨t, ht⟩ := List.isPrefixOf_iff_prefix.mp hp
    have hd : input.drop d.prefixText.length = t := by
      rw [← ht]
      simp
    refine ⟨h1, ?_, h2, splitTexts_suffixInvariant _ _ _ h, ?_⟩
    · rw [← h2, hd, ht]
    · rw [← h2]
      exact h
  · cases h

theorem checkAndSplit_true (d : QtMultiSpinBoxPrivate) (input : QString)
    (result : List QStringRef) (h : d.checkAndSplit input [] = (true, result)) :
    ∃ ts, splitInput d input = some ts ∧
      result = mkSpans input d.prefixText.length ts d.elementDatas ∧
      result.map QStringRef.toString = ts := by
  obtain ⟨h1, h2⟩ := checkAndSplit_spec d input []
  cases hs : splitInput d input with
  | none =>
    have := h2 hs
    rw [h] at this
    cases this
  | some ts =>
    have h3 := h1 ts hs
    rw [h] at h3
    have h4 : result = mkSpans input d.prefixText.length ts d.elementDatas := by
      simpa using (Prod.mk.inj h3).2
    obtain ⟨hlen, _, hdrop, _, _⟩ := splitInput_sound d input ts hs
    exact ⟨ts, rfl, h4, by rw [h4]; exact mkSpans_toString input ts _ _ hlen hdrop⟩

theorem checkAndSplit_fst_true (d : QtMultiSpinBoxPrivate) (input : QString)
    (h : (d.checkAndSplit input []).1 = true) :
    ∃ result, d.checkAndSplit input [] = (true, result) :=
  ⟨(d.checkAndSplit input []).2, by rw [← h]⟩

/-- Counterexample to C1 as stated: in the range widget (suffixes "-" and "", so every
slot but the last has a non-empty suffix) the section texts "-5" and "3" give the input
"-5-3", and `checkAndSplit` returns the spans "" and "5-3", not "-5" and "3". -/
theorem checkAndSplit_roundtrip_counterexample :
    Example.range.elementDatas.map (fun e => e.suffix) = [['-'], []] ∧
    Example.range.prefixText ++
      concatSlots [['-', '5'], ['3']] Example.range.elementDatas = ['-', '5', '-', '3'] ∧
    (Example.range.checkAndSplit ['-', '5', '-', '3'] []).1 = true ∧
    (Example.range.checkAndSplit ['-', '5', '-', '3'] []).2.map QStringRef.toString =
      [[], ['5', '-', '3']] ∧
    (Example.range.checkAndSplit ['-', '5', '-', '3'] []).2.map QStringRef.toString ≠
      [['-', '5'], ['3']] := by
  decide

/-- C1 (amended): for every prefix, every slot sequence in which every slot except the
last has a non-empty suffix, and every choice of section texts `t_i` such that no
non-empty `suffix_i` occurs in `t_i ++ suffix_i` before offset `|t_i|`, `checkAndSplit`
applied to `prefix ++ concat (t_i ++ suffix_i)` returns true and yields exactly `n`
spans, span `i` being `t_i`. -/
theorem checkAndSplit_roundtrip (d : QtMultiSpinBoxPrivate) (ts : List QString)
    (hlen : ts.length = d.elementDatas.length)
    (hinv : SuffixInvariant d.elementDatas)
    (hdel : Delimited ts d.elementDatas) :
    ∃ result,
      d.checkAndSplit (d.prefixText ++ concatSlots ts d.elementDatas) [] = (true, result) ∧
      result.length = d.elementDatas.length ∧
      result.map QStringRef.toString = ts := by
  have hs : splitInput d (d.prefixText ++ concatSlots ts d.elementDatas) = some ts := by
    rw [splitInput_append]
    exact splitTexts_complete _ ts hlen hinv hdel
  obtain ⟨h1, _⟩ := checkAndSplit_spec d (d.prefixText ++ concatSlots ts d.elementDatas) []
  refine ⟨mkSpans (d.prefixText ++ concatSlots ts d.elementDatas) d.prefixText.length ts
    d.elementDatas, by rw [h1 ts hs]; simp, ?_, ?_⟩
  · exact mkSpans_length _ ts _ _ hlen
  · apply mkSpans_toString _ ts _ _ hlen
    simp

/-- Witness for C1 (amended): the texts "12" and "01" in the example widget. -/
theorem checkAndSplit_roundtrip_witness :
    ∃ result,
      Example.clock.checkAndSplit (Example.clock.prefixText ++
        concatSlots [['1', '2'], ['0', '1']] Example.clock.elementDatas) [] =
          (true, result) ∧
      result.length = Example.clock.elementDatas.length ∧
      result.map QStringRef.toString = [['1', '2'], ['0', '1']] :=
  checkAndSplit_roundtrip Example.clock [['1', '2'], ['0', '1']] (by decide) (by decide)
    (by decide)

/-! ## `textIndex` -/

theorem spanOffset_length : ∀ (ts : List QString) (es : List QtMultiSpinBoxData) (p : Nat),
    ts.length = es.length →
    spanOffset p ts es es.length = p + (concatSlots ts es).length := by
  intro ts
  induction ts with
  | nil =>
    intro es p h
    cases es with
    | nil => simp [spanOffset, concatSlots]
    | cons e es => simp at h
  | cons t ts ih =>
    intro es p h
    cases es with
    | nil => simp at h
    | cons e es =>
      rw [List.length_cons, spanOffset_succ, ih es _ (by simpa using h)]
      simp [concatSlots]
      omega

theorem textIndexLoop_split (text : QString) (k count : Nat) :
    ∀ (es : List QtMultiSpinBoxData) (ts : List QString) (p i : Nat),
    p ≤ text.length → splitTexts es (text.drop p) = some ts →
    i ≤ k → k ≤ i + es.length → count = i + es.length →
    QtMultiSpinBoxPrivate.textIndexLoop text k count es i (p : Int) =
      (spanOffset p ts es (k - i) : Int) := by
  intro es
  induction es with
  | nil =>
    intro ts p i _ _ hik hk _
    have : k - i = 0 := by simp at hk; omega
    simp [QtMultiSpinBoxPrivate.textIndexLoop, this, spanOffset_zero]
  | cons e rest ih =>
    intro ts p i hp hs hik hk hcount
    simp only [QtMultiSpinBoxPrivate.textIndexLoop]
    by_cases hlt : i < k
    · have hcond : i < k ∧ (p : Int) ≥ 0 := ⟨hlt, by omega⟩
      rw [if_pos hcond]
      simp only [splitTexts] at hs
      by_cases hne : e.suffix ≠ []
      · rw [if_pos hne] at hs ⊢
        cases hfi : QString.firstIndex e.suffix (text.drop p) with
        | none => simp [hfi] at hs
        | some j =>
          simp only [hfi] at hs
          have hdd : (text.drop p).drop (j + e.suffix.length) =
              text.drop (p + (j + e.suffix.length)) := by
            rw [List.drop_drop, Nat.add_comm]
          rw [hdd] at hs
          cases hrest : splitTexts rest (text.drop (p + (j + e.suffix.length))) with
          | none => simp [hrest] at hs
          | some ts1 =>
            simp only [hrest, Option.map_some', Option.some.injEq] at hs
            subst hs
            obtain ⟨hle, _⟩ := QString.firstIndex_split hfi
            have hle2 : j + e.suffix.length ≤ text.length - p := by simpa using hle
            have hidx : QString.indexOf text e.suffix p = ((p + j : Nat) : Int) := by
              simp only [QString.indexOf]
              rw [if_neg (by omega), hfi]
            have hnn : ((p + j : Nat) : Int) ≥ 0 := by omega
            simp only [Int.toNat_ofNat, hidx, if_pos hnn]
            have hcast : ((p + j : Nat) : Int) + (e.suffix.length : Int) =
                ((p + (j + e.suffix.length) : Nat) : Int) := by
              push_cast
              omega
            rw [hcast, ih ts1 (p + (j + e.suffix.length)) (i + 1) (by omega) hrest
              (by omega) (by simp at hk; omega) (by simp at hcount; omega)]
            have hki : k - i = (k - (i + 1)) + 1 := by omega
            have htl : (List.take j (List.drop p text)).length = j := by
              simp
              omega
            rw [hki, spanOffset_succ, htl]
      · rw [if_neg hne] at hs ⊢
        split at hs
        · rename_i hr
          have hr1 : rest = [] := by simpa using hr
          subst hr1
          simp only [Option.some.injEq] at hs
          subst hs
          have he : e.suffix = [] := by simpa using hne
          simp only [List.length_cons, List.length_nil] at hk hcount
          have hk1 : k = i + 1 := by omega
          rw [if_pos ⟨by omega, by omega⟩]
          have : k - i = 1 := by omega
          rw [this]
          simp [spanOffset, he]
          omega
        · cases hs
    · have hcond : ¬ (i < k ∧ (p : Int) ≥ 0) := fun h => hlt h.1
      rw [if_neg hcond]
      have : k - i = 0 := by omega
      rw [this, spanOffset_zero]

theorem textIndex_split (d : QtMultiSpinBoxPrivate) (text : QString) (ts : List QString)
    (k : Nat) (hs : splitInput d text = some ts) (hk : k ≤ d.elementDatas.length) :
    d.textIndex text k = some (spanOffset d.prefixText.length ts d.elementDatas k : Int) := by
  have hs0 := hs
  simp only [splitInput] at hs
  split at hs
  · rename_i hp
    have hlen : d.prefixText.length ≤ text.length :=
      (List.isPrefixOf_iff_prefix.mp hp).length_le
    have hidx : (if d.prefixText ≠ [] then (d.prefixText.length : Int) else 0) =
        (d.prefixText.length : Int) := by
      by_cases hne : d.prefixText = []
      · simp [hne]
      · simp [hne]
    simp only [QtMultiSpinBoxPrivate.textIndex, QString.startsWith, hp, hidx]
    rw [if_neg (by simp), if_neg (by omega)]
    rw [textIndexLoop_split text k d.elementDatas.length d.elementDatas ts
      d.prefixText.length 0 hlen hs (Nat.zero_le _) (by omega) (by omega)]
    simp
  · cases hs

/-- C6: when `checkAndSplit` succeeds on the text, `textIndex(text, i)` is, for every
slot index `i` below the section count, the character offset at which the `i`-th span
starts in the text, that is `|prefix| + sum over j < i of (|span_j| + |suffix_j|)` with
the spans that `checkAndSplit` returns; for a non-empty span this offset is the position
of the span (an empty span is returned with position 0).  `textIndex(text, section
count)` is the length of the text. -/
theorem textIndex_eq_span_offset (d : QtMultiSpinBoxPrivate) (text : QString)
    (result : List QStringRef) (h : d.checkAndSplit text [] = (true, result)) :
    (∀ i, i < d.elementDatas.length →
      d.textIndex text i = some ((spanOffset d.prefixText.length
        (result.map QStringRef.toString) d.elementDatas i : Nat) : Int)) ∧
    (∀ i sp, result[i]? = some sp → sp.size ≠ 0 →
      d.textIndex text i = some (sp.position : Int)) ∧
    d.textIndex text d.elementDatas.length = some (text.length : Int) := by
  obtain ⟨ts, hs, hres, hmap⟩ := checkAndSplit_true d text result h
  obtain ⟨hlen, hin, _, _, _⟩ := splitInput_sound d text ts hs
  refine ⟨?_, ?_, ?_⟩
  · intro i hi
    rw [hmap]
    exact textIndex_split d text ts i hs (by omega)
  · intro i sp hi hne
    have hlt : i < result.length := by
      by_contra hc
      rw [List.getElem?_eq_none (by omega)] at hi
      cases hi
    have hrl : result.length = d.elementDatas.length := by
      rw [hres]
      exact mkSpans_length text ts _ _ hlen
    rw [hres] at hi
    obtain ⟨_, h2, _⟩ := mkSpans_getElem text ts _ _ i sp hi
    rw [textIndex_split d text ts i hs (by omega), h2 hne]
  · rw [textIndex_split d text ts _ hs (le_refl _), spanOffset_length ts _ _ hlen]
    congr 1
    conv_rhs => rw [hin]
    simp

/-- Witness for C6 on the buffer "[:01" of the example widget with the text of section
0 deleted: the offsets are 1 for the empty section 0 and 2 for section 1, and the length
is 4. -/
theorem textIndex_eq_span_offset_witness :
    Example.blankFirst.textIndex ['[', ':', '0', '1'] 0 = some 1 ∧
    Example.blankFirst.textIndex ['[', ':', '0', '1'] 1 = some 2 ∧
    Example.blankFirst.textIndex ['[', ':', '0', '1'] 2 = some 4 :=
  have h := textIndex_eq_span_offset Example.blankFirst ['[', ':', '0', '1']
    [⟨['[', ':', '0', '1'], 0, 0⟩, ⟨['[', ':', '0', '1'], 2, 2⟩] (by decide)
  ⟨h.1 0 (by decide), h.2.1 1 ⟨['[', ':', '0', '1'], 2, 2⟩ rfl (by decide), h.2.2⟩

namespace QString

theorem indexOf_eq_neg_one_iff (text str : QString) (off : Nat) :
    indexOf text str off = -1 ↔ ¬ OccursFrom str text off := by
  simp only [indexOf]
  by_cases hoff : off > text.length
  · rw [if_pos hoff]
    simp only [true_iff]
    rintro ⟨q, hq, hle, _⟩
    omega
  · rw [if_neg hoff]
    cases hfi : firstIndex str (text.drop off) with
    | none =>
      simp only [true_iff]
      rintro ⟨q, hq, hle, hpre⟩
      have hq2 : q - off ≤ (text.drop off).length := by
        simp
        omega
      apply firstIndex_none hfi (q - off) hq2
      rw [List.drop_drop]
      have : off + (q - off) = q := by omega
      rw [this]
      exact hpre
    | some i =>
      obtain ⟨h1, h2, _⟩ := firstIndex_some hfi
      have h1' : i ≤ text.length - off := by simpa using h1
      constructor
      · intro h
        simp only at h
        omega
      · intro h
        exfalso
        apply h
        refine ⟨off + i, by omega, by omega, ?_⟩
        rw [List.drop_drop] at h2
        exact h2

theorem indexOf_found (text str : QString) (off : Nat) (h : OccursFrom str text off) :
    ∃ m : Nat, indexOf text str off = (m : Int) ∧ off ≤ m ∧ m + str.length ≤ text.length := by
  obtain ⟨q, hq, hle, _⟩ := id h
  have hne : indexOf text str off ≠ -1 := fun hc =>
    (indexOf_eq_neg_one_iff text str off).mp hc h
  simp only [indexOf] at hne ⊢
  rw [if_neg (by omega)] at hne ⊢
  cases hfi : firstIndex str (text.drop off) with
  | none => simp [hfi] at hne
  | some i =>
    obtain ⟨hlen, _⟩ := firstIndex_split hfi
    have hlen' : i + str.length ≤ text.length - off := by simpa using hlen
    exact ⟨off + i, rfl, by omega, by omega⟩

end QString

theorem textIndexLoop_neg (text : QString) (k count : Nat) (es : List QtMultiSpinBoxData)
    (i : Nat) (index : Int) (h : index < 0) :
    QtMultiSpinBoxPrivate.textIndexLoop text k count es i index = index := by
  cases es with
  | nil => rfl
  | cons e rest =>
    simp only [QtMultiSpinBoxPrivate.textIndexLoop]
    rw [if_neg (by omega)]

theorem textIndexLoop_stop (text : QString) (k count : Nat) (es : List QtMultiSpinBoxData)
    (i : Nat) (index : Int) (h : ¬ i < k) :
    QtMultiSpinBoxPrivate.textIndexLoop text k count es i index = index := by
  cases es with
  | nil => rfl
  | cons e rest =>
    simp only [QtMultiSpinBoxPrivate.textIndexLoop]
    rw [if_neg (fun hc => h hc.1)]

theorem textIndexLoop_found (text : QString) (k count : Nat) (e : QtMultiSpinBoxData)
    (rest : List QtMultiSpinBoxData) (i p m : Nat) (hlt : i < k) (hne : e.suffix ≠ [])
    (hm : QString.indexOf text e.suffix p = (m : Int)) :
    QtMultiSpinBoxPrivate.textIndexLoop text k count (e :: rest) i (p : Int) =
      QtMultiSpinBoxPrivate.textIndexLoop text k count rest (i + 1)
        ((m + e.suffix.length : Nat) : Int) := by
  simp only [QtMultiSpinBoxPrivate.textIndexLoop]
  have hcond : i < k ∧ (p : Int) ≥ 0 := ⟨hlt, by omega⟩
  have hnn : (m : Int) ≥ 0 := by omega
  rw [if_pos hcond, if_pos hne]
  simp only [Int.toNat_ofNat, hm, if_pos hnn]
  congr 1

theorem textIndexLoop_missing (text : QString) (k count : Nat) (e : QtMultiSpinBoxData)
    (rest : List QtMultiSpinBoxData) (i p : Nat) (hlt : i < k) (hne : e.suffix ≠ [])
    (hm : QString.indexOf text e.suffix p = -1) :
    QtMultiSpinBoxPrivate.textIndexLoop text k count (e :: rest) i (p : Int) = -1 := by
  simp only [QtMultiSpinBoxPrivate.textIndexLoop]
  have hcond : i < k ∧ (p : Int) ≥ 0 := ⟨hlt, by omega⟩
  rw [if_pos hcond, if_pos hne]
  simp only [Int.toNat_ofNat, hm]
  rw [if_neg (by omega)]
  exact textIndexLoop_neg _ _ _ _ _ _ (by omega)

theorem textIndexLoop_empty (text : QString) (k count : Nat) (e : QtMultiSpinBoxData)
    (rest : List QtMultiSpinBoxData) (i p : Nat) (hlt : i < k) (he : e.suffix = []) :
    QtMultiSpinBoxPrivate.textIndexLoop text k count (e :: rest) i (p : Int) =
      if i + 1 = k ∧ k = count then (text.length : Int) else -1 := by
  simp only [QtMultiSpinBoxPrivate.textIndexLoop]
  have hcond : i < k ∧ (p : Int) ≥ 0 := ⟨hlt, by omega⟩
  rw [if_pos hcond, if_neg (by simp [he])]

theorem textIndexLoop_char (text : QString) (k count : Nat) :
    ∀ (es : List QtMultiSpinBoxData) (p i : Nat),
    p ≤ text.length → i ≤ k → k ≤ i + es.length → count = i + es.length →
    (QtMultiSpinBoxPrivate.textIndexLoop text k count es i (p : Int) = -1 ↔
      ∃ j e, i ≤ j ∧ j < k ∧ es[j - i]? = some e ∧
        ((e.suffix ≠ [] ∧ ∃ off : Nat,
            QtMultiSpinBoxPrivate.textIndexLoop text j count es i (p : Int) = (off : Int) ∧
            ¬ OccursFrom e.suffix text off) ∨
          (e.suffix = [] ∧ ¬ (j + 1 = count ∧ k = count)))) ∧
    (QtMultiSpinBoxPrivate.textIndexLoop text k count es i (p : Int) ≠ -1 →
      (p : Int) ≤ QtMultiSpinBoxPrivate.textIndexLoop text k count es i (p : Int) ∧
      QtMultiSpinBoxPrivate.textIndexLoop text k count es i (p : Int) ≤ (text.length : Int)) := by
  intro es
  induction es with
  | nil =>
    intro p i hp hik hk _
    simp only [QtMultiSpinBoxPrivate.textIndexLoop]
    refine ⟨⟨fun h => by omega, ?_⟩, fun _ => ⟨le_refl _, by omega⟩⟩
    rintro ⟨j, e, h1, h2, _⟩
    simp at hk
    omega
  | cons e rest ih =>
    intro p i hp hik hk hcount
    simp only [List.length_cons] at hk hcount
    by_cases hlt : i < k
    · by_cases hne : e.suffix ≠ []
      · by_cases hocc : OccursFrom e.suffix text p
        · obtain ⟨m, hm, hpm, hml⟩ := QString.indexOf_found text e.suffix p hocc
          rw [textIndexLoop_found text k count e rest i p m hlt hne hm]
          obtain ⟨ih1, ih2⟩ := ih (m + e.suffix.length) (i + 1) hml (by omega) (by omega)
            (by omega)
          constructor
          · rw [ih1]
            constructor
            · rintro ⟨j, e1, h1, h2, h3, h4⟩
              refine ⟨j, e1, by omega, h2, ?_, ?_⟩
              · have : j - i = (j - (i + 1)) + 1 := by omega
                rw [this, List.getElem?_cons_succ]
                exact h3
              · rw [textIndexLoop_found text j count e rest i p m (by omega) hne hm]
                exact h4
            · rintro ⟨j, e1, h1, h2, h3, h4⟩
              by_cases hji : j = i
              · subst hji
                simp only [Nat.sub_self, List.getElem?_cons_zero, Option.some.injEq] at h3
                subst h3
                rcases h4 with ⟨_, off, hoff, hno⟩ | ⟨he, _⟩
                · rw [textIndexLoop_stop text j count _ j _ (by omega)] at hoff
                  have : off = p := by omega
                  subst this
                  exact absurd hocc hno
                · exact absurd he hne
              · refine ⟨j, e1, by omega, h2, ?_, ?_⟩
                · have : j - i = (j - (i + 1)) + 1 := by omega
                  rw [this, List.getElem?_cons_succ] at h3
                  exact h3
                · rw [textIndexLoop_found text j count e rest i p m (by omega) hne hm] at h4
                  exact h4
          · intro h
            obtain ⟨h5, h6⟩ := ih2 h
            push_cast at h5
            exact ⟨by omega, h6⟩
        · have hm : QString.indexOf text e.suffix p = -1 :=
            (QString.indexOf_eq_neg_one_iff text e.suffix p).mpr hocc
          rw [textIndexLoop_missing text k count e rest i p hlt hne hm]
          refine ⟨⟨fun _ => ?_, fun _ => rfl⟩, fun h => absurd rfl h⟩
          refine ⟨i, e, le_refl _, hlt, by simp, Or.inl ⟨hne, p, ?_, hocc⟩⟩
          exact textIndexLoop_stop text i count _ i _ (by omega)
      · have he : e.suffix = [] := by simpa using hne
        rw [textIndexLoop_empty text k count e rest i p hlt he]
        by_cases hc : i + 1 = k ∧ k = count
        · rw [if_pos hc]
          refine ⟨⟨fun h => by omega, ?_⟩, fun _ => ⟨by omega, le_refl _⟩⟩
          rintro ⟨j, e1, h1, h2, h3, h4⟩
          have hji : j = i := by omega
          subst hji
          simp only [Nat.sub_self, List.getElem?_cons_zero, Option.some.injEq] at h3
          subst h3
          rcases h4 with ⟨hne1, _⟩ | ⟨_, hnc⟩
          · exact absurd he hne1
          · exact absurd ⟨by omega, hc.2⟩ hnc
        · rw [if_neg hc]
          refine ⟨⟨fun _ => ?_, fun _ => rfl⟩, fun h => absurd rfl h⟩
          refine ⟨i, e, le_refl _, hlt, by simp, Or.inr ⟨he, ?_⟩⟩
          rintro ⟨h1, h2⟩
          exact hc ⟨by omega, h2⟩
    · rw [textIndexLoop_stop text k count _ i _ hlt]
      refine ⟨⟨fun h => by omega, ?_⟩, fun _ => ⟨le_refl _, by omega⟩⟩
      rintro ⟨j, e1, h1, h2, _⟩
      omega

theorem validateLoop_append : ∀ (es1 es2 : List QtMultiSpinBoxData)
    (st : QtMultiSpinBoxPrivate.ValidateState),
    QtMultiSpinBoxPrivate.validateLoop (es1 ++ es2) st =
      match QtMultiSpinBoxPrivate.validateLoop es1 st with
      | some (false, st1) => QtMultiSpinBoxPrivate.validateLoop es2 st1
      | other => other := by
  intro es1
  induction es1 with
  | nil =>
    intro es2 st
    simp [QtMultiSpinBoxPrivate.validateLoop]
  | cons e es1 ih =>
    intro es2 st
    simp only [List.cons_append, QtMultiSpinBoxPrivate.validateLoop]
    cases hb : QtMultiSpinBoxPrivate.validateBody e st with
    | none => rfl
    | some res =>
      obtain ⟨rs, st1⟩ := res
      simp only
      by_cases hrs : rs = QValidator.State.Invalid
      · simp [hrs]
      · simp only [if_neg hrs]
        exact ih es2 st1

theorem validateLoop_invalid : ∀ (es : List QtMultiSpinBoxData) (refs more : List QStringRef)
    (st : QtMultiSpinBoxPrivate.ValidateState),
    st.splits = refs ++ more → refs.length = es.length →
    (∃ r ∈ sectionRuns es (refs.map QStringRef.toString) st.pos,
      r.1 = QValidator.State.Invalid) →
    ∃ st1, QtMultiSpinBoxPrivate.validateLoop es st = some (true, st1) := by
  intro es
  induction es with
  | nil =>
    intro refs more st _ hlen h
    obtain ⟨r, hr, _⟩ := h
    cases refs <;> simp [sectionRuns] at hr
  | cons e es ih =>
    intro refs more st hsp hlen h
    cases refs with
    | nil => simp at hlen
    | cons ref refs =>
      simp only [QtMultiSpinBoxPrivate.validateLoop, QtMultiSpinBoxPrivate.validateBody, hsp,
        List.cons_append]
      by_cases hrs : (e.element.validate ref.toString st.pos).1 = QValidator.State.Invalid
      · simp [hrs]
      · simp only [if_neg hrs]
        apply ih refs more _ rfl (by simpa using hlen)
        obtain ⟨r, hr, hinv⟩ := h
        simp only [List.map_cons, sectionRuns, List.mem_cons] at hr
        rcases hr with hr | hr
        · rw [hr] at hinv
          exact absurd hinv hrs
        · exact ⟨r, hr, hinv⟩

theorem validateLoop_run : ∀ (es : List QtMultiSpinBoxData) (refs more : List QStringRef)
    (st : QtMultiSpinBoxPrivate.ValidateState) (pre tail : QString),
    st.splits = refs ++ more → refs.length = es.length →
    st.offsetReplace = pre.length →
    st.newText = pre ++ concatSlots (refs.map QStringRef.toString) es ++ tail →
    (∀ r ∈ sectionRuns es (refs.map QStringRef.toString) st.pos,
      r.1 ≠ QValidator.State.Invalid) →
    ∃ st1, QtMultiSpinBoxPrivate.validateLoop es st = some (false, st1) ∧
      st1.splits = more ∧
      st1.offsetReplace = pre.length +
        (concatSlots ((sectionRuns es (refs.map QStringRef.toString) st.pos).map
          (fun r => r.2.1)) es).length ∧
      st1.newText = pre ++
        concatSlots ((sectionRuns es (refs.map QStringRef.toString) st.pos).map
          (fun r => r.2.1)) es ++ tail ∧
      st1.r = if (sectionRuns es (refs.map QStringRef.toString) st.pos).any
          (fun r => decide (r.1 = QValidator.State.Intermediate)) then
          QValidator.State.Intermediate else st.r := by
  intro es
  induction es with
  | nil =>
    intro refs more st pre tail hsp hlen hoff htext _
    have : refs = [] := List.eq_nil_of_length_eq_zero (by simpa using hlen)
    subst this
    refine ⟨st, rfl, by simpa using hsp, ?_, ?_, ?_⟩
    · simp [sectionRuns, concatSlots, hoff]
    · simpa [sectionRuns, concatSlots] using htext
    · simp [sectionRuns]
  | cons e es ih =>
    intro refs more st pre tail hsp hlen hoff htext hvalid
    cases refs with
    | nil => simp at hlen
    | cons ref refs =>
      have hrs : (e.element.validate ref.toString st.pos).1 ≠ QValidator.State.Invalid :=
        hvalid _ (by simp [sectionRuns])
      simp only [QtMultiSpinBoxPrivate.validateLoop, QtMultiSpinBoxPrivate.validateBody, hsp,
        List.cons_append, if_neg hrs]
      simp only [List.map_cons, concatSlots] at htext
      have hnew : (if (e.element.validate ref.toString st.pos).2.1 ≠ ref.toString then
            QString.replace st.newText st.offsetReplace ref.toString.length
              (e.element.validate ref.toString st.pos).2.1
          else st.newText) =
          (pre ++ (e.element.validate ref.toString st.pos).2.1 ++ e.suffix) ++
            concatSlots (refs.map QStringRef.toString) es ++ tail := by
        by_cases hsame : (e.element.validate ref.toString st.pos).2.1 = ref.toString
        · rw [if_neg (by simpa using hsame), hsame, htext]
          simp
        · rw [if_pos hsame]
          simp only [QString.replace, hoff, htext]
          rw [if_neg (by simp)]
          have h1 : (pre ++ (ref.toString ++ e.suffix ++
              concatSlots (refs.map QStringRef.toString) es) ++ tail).take pre.length =
              pre := by
            simp [List.append_assoc]
          have h2 : (pre ++ (ref.toString ++ e.suffix ++
              concatSlots (refs.map QStringRef.toString) es) ++ tail).drop
                (pre.length + ref.toString.length) =
              e.suffix ++ concatSlots (refs.map QStringRef.toString) es ++ tail := by
            have : pre ++ (ref.toString ++ e.suffix ++
                concatSlots (refs.map QStringRef.toString) es) ++ tail =
                (pre ++ ref.toString) ++ (e.suffix ++
                  concatSlots (refs.map QStringRef.toString) es ++ tail) := by
              simp [List.append_assoc]
            rw [this, ← List.length_append, List.drop_left]
          rw [h1, h2]
          simp [List.append_assoc]
      obtain ⟨st1, hl, h1, h2, h3, h4⟩ := ih refs more
        { splits := refs ++ more
          offsetReplace := st.offsetReplace +
            (e.element.validate ref.toString st.pos).2.1.length + e.suffix.length
          newText :=
            if (e.element.validate ref.toString st.pos).2.1 ≠ ref.toString then
              QString.replace st.newText st.offsetReplace ref.toString.length
                (e.element.validate ref.toString st.pos).2.1
            else st.newText
          r := if (e.element.validate ref.toString st.pos).1 =
                QValidator.State.Intermediate then QValidator.State.Intermediate
               else st.r
          pos := (e.element.validate ref.toString st.pos).2.2 }
        (pre ++ (e.element.validate ref.toString st.pos).2.1 ++ e.suffix) tail rfl
        (by simpa using hlen) (by simp [hoff, Nat.add_assoc]) hnew
        (fun r hr => hvalid r (by simp [sectionRuns, hr]))
      refine ⟨st1, hl, h1, ?_, ?_, ?_⟩
      · rw [h2]
        simp [sectionRuns, concatSlots]
        omega
      · rw [h3]
        simp [sectionRuns, concatSlots, List.append_assoc]
      · rw [h4]
        simp only [List.map_cons, sectionRuns, List.any_cons]
        by_cases hi : (e.element.validate ref.toString st.pos).1 =
            QValidator.State.Intermediate
        · simp [hi]
        · simp only [hi, decide_False, Bool.false_or, if_false]

theorem validate_of_split_fail (d : QtMultiSpinBoxPrivate) (text : QString) (pos : Int)
    (h : (d.checkAndSplit text []).1 = false) :
    d.validate text pos = some (QValidator.State.Invalid, text, pos) := by
  simp [QtMultiSpinBoxPrivate.validate, h]

theorem checkAndSplit_true_text (d : QtMultiSpinBoxPrivate) (text : QString)
    (result : List QStringRef) (h : d.checkAndSplit text [] = (true, result)) :
    result.length = d.elementDatas.length ∧
    text = d.prefixText ++ concatSlots (result.map QStringRef.toString) d.elementDatas ∧
    SuffixInvariant d.elementDatas ∧
    splitTexts d.elementDatas
      (concatSlots (result.map QStringRef.toString) d.elementDatas) =
        some (result.map QStringRef.toString) := by
  obtain ⟨ts, hs, hres, hmap⟩ := checkAndSplit_true d text result h
  obtain ⟨hlen, hin, _, hinv, hsp⟩ := splitInput_sound d text ts hs
  rw [hmap]
  exact ⟨by rw [hres]; exact mkSpans_length text ts _ _ hlen, hin, hinv, hsp⟩

theorem validate_of_invalid (d : QtMultiSpinBoxPrivate) (text : QString) (pos : Int)
    (result : List QStringRef) (h : d.checkAndSplit text [] = (true, result))
    (hinv : ∃ r ∈ sectionRuns d.elementDatas (result.map QStringRef.toString) pos,
      r.1 = QValidator.State.Invalid) :
    ∃ pos1, d.validate text pos = some (QValidator.State.Invalid, text, pos1) := by
  obtain ⟨hlen, _, _, _⟩ := checkAndSplit_true_text d text result h
  obtain ⟨st1, hl⟩ := validateLoop_invalid d.elementDatas result []
    ⟨result, d.prefixText.length, text, QValidator.State.Acceptable, pos⟩ (by simp) hlen hinv
  refine ⟨st1.pos, ?_⟩
  simp [QtMultiSpinBoxPrivate.validate, h, hl]

theorem validate_of_valid (d : QtMultiSpinBoxPrivate) (text : QString) (pos : Int)
    (result : List QStringRef) (h : d.checkAndSplit text [] = (true, result))
    (hvalid : ∀ r ∈ sectionRuns d.elementDatas (result.map QStringRef.toString) pos,
      r.1 ≠ QValidator.State.Invalid) :
    ∃ pos1, d.validate text pos =
      some (if (sectionRuns d.elementDatas (result.map QStringRef.toString) pos).any
              (fun r => decide (r.1 = QValidator.State.Intermediate)) then
              QValidator.State.Intermediate else QValidator.State.Acceptable,
        d.prefixText ++ concatSlots
          ((sectionRuns d.elementDatas (result.map QStringRef.toString) pos).map
            (fun r => r.2.1)) d.elementDatas,
        pos1) := by
  obtain ⟨hlen, htext, _, _⟩ := checkAndSplit_true_text d text result h
  obtain ⟨st1, hl, _, _, h3, h4⟩ := validateLoop_run d.elementDatas result []
    ⟨result, d.prefixText.length, text, QValidator.State.Acceptable, pos⟩ d.prefixText []
    (by simp) hlen rfl (by simpa using htext) hvalid
  refine ⟨st1.pos, ?_⟩
  simp only [List.append_nil] at h3
  simp only [QtMultiSpinBoxPrivate.validate, h, hl]
  simp only [Bool.true_eq_false, if_false, h3, h4]

/-- C3: `validate` returns `Invalid` if and only if `checkAndSplit` fails on the text or
some section's `validate` returns `Invalid` on its span; otherwise it returns
`Intermediate` exactly when at least one section returns `Intermediate`, and
`Acceptable` exactly when every section returns `Acceptable`. -/
theorem validate_verdict (d : QtMultiSpinBoxPrivate) (text : QString) (pos : Int) :
    ∃ st text1 pos1, d.validate text pos = some (st, text1, pos1) ∧
      (st = QValidator.State.Invalid ↔
        (d.checkAndSplit text []).1 = false ∨
        ∃ r ∈ sectionRuns d.elementDatas
            ((d.checkAndSplit text []).2.map QStringRef.toString) pos,
          r.1 = QValidator.State.Invalid) ∧
      (st ≠ QValidator.State.Invalid →
        (st = QValidator.State.Intermediate ↔
          ∃ r ∈ sectionRuns d.elementDatas
              ((d.checkAndSplit text []).2.map QStringRef.toString) pos,
            r.1 = QValidator.State.Intermediate) ∧
        (st = QValidator.State.Acceptable ↔
          ∀ r ∈ sectionRuns d.elementDatas
              ((d.checkAndSplit text []).2.map QStringRef.toString) pos,
            r.1 = QValidator.State.Acceptable)) := by
  cases hs : (d.checkAndSplit text []).1 with
  | false =>
    exact ⟨_, _, _, validate_of_split_fail d text pos hs, by simp, fun h => absurd rfl h⟩
  | true =>
    obtain ⟨result, hr⟩ := checkAndSplit_fst_true d text hs
    rw [hr]
    simp only
    by_cases hinv : ∃ r ∈ sectionRuns d.elementDatas (result.map QStringRef.toString) pos,
        r.1 = QValidator.State.Invalid
    · obtain ⟨pos1, hv⟩ := validate_of_invalid d text pos result hr hinv
      exact ⟨_, _, _, hv, ⟨fun _ => Or.inr hinv, fun _ => rfl⟩, fun h => absurd rfl h⟩
    · have hvalid : ∀ r ∈ sectionRuns d.elementDatas (result.map QStringRef.toString) pos,
          r.1 ≠ QValidator.State.Invalid := fun r hr hc => hinv ⟨r, hr, hc⟩
      obtain ⟨pos1, hv⟩ := validate_of_valid d text pos result hr hvalid
      refine ⟨_, _, _, hv, ?_, fun _ => ⟨?_, ?_⟩⟩
      · constructor
        · intro h
          split at h <;> cases h
        · rintro (h | h)
          · cases h
          · exact absurd h hinv
      · constructor
        · intro h
          split at h
          · rename_i hany
            obtain ⟨r, hr1, hr2⟩ := List.any_eq_true.mp hany
            exact ⟨r, hr1, by simpa using hr2⟩
          · cases h
        · rintro ⟨r, hr1, hr2⟩
          rw [if_pos (List.any_eq_true.mpr ⟨r, hr1, by simpa using hr2⟩)]
      · constructor
        · intro h r hr1
          split at h
          · cases h
          · rename_i hany
            have hni : r.1 ≠ QValidator.State.Intermediate := by
              intro hc
              exact hany (List.any_eq_true.mpr ⟨r, hr1, by simpa using hc⟩)
            have hnv := hvalid r hr1
            cases hr1v : r.1 with
            | Invalid => exact absurd hr1v hnv
            | Intermediate => exact absurd hr1v hni
            | Acceptable => rfl
        · intro h
          rw [if_neg]
          intro hany
          obtain ⟨r, hr1, hr2⟩ := List.any_eq_true.mp hany
          have := h r hr1
          simp [this] at hr2

theorem sectionRuns_take : ∀ (es : List QtMultiSpinBoxData) (ss : List QString) (pos : Int)
    (i : Nat), sectionRuns (es.take i) (ss.take i) pos = (sectionRuns es ss pos).take i := by
  intro es
  induction es with
  | nil =>
    intro ss pos i
    simp [sectionRuns]
  | cons e es ih =>
    intro ss pos i
    cases ss with
    | nil => simp [sectionRuns]
    | cons s ss =>
      cases i with
      | zero => simp [sectionRuns]
      | succ i => simp [sectionRuns, ih]

theorem concatSlots_take_drop : ∀ (ts : List QString) (es : List QtMultiSpinBoxData)
    (i : Nat), concatSlots ts es =
      concatSlots (ts.take i) (es.take i) ++ concatSlots (ts.drop i) (es.drop i) := by
  intro ts
  induction ts with
  | nil =>
    intro es i
    simp [concatSlots]
  | cons t ts ih =>
    intro es i
    cases es with
    | nil => simp [concatSlots]
    | cons e es =>
      cases i with
      | zero => simp [concatSlots]
      | succ i =>
        simp only [List.take_succ_cons, List.drop_succ_cons, concatSlots]
        rw [ih es i]
        simp only [List.append_assoc]

theorem spanOffset_eq_concat : ∀ (i p : Nat) (ts : List QString)
    (es : List QtMultiSpinBoxData),
    spanOffset p ts es i = p + (concatSlots (ts.take i) (es.take i)).length := by
  intro i
  induction i with
  | zero =>
    intro p ts es
    simp [spanOffset_zero, concatSlots]
  | succ i ih =>
    intro p ts es
    cases ts with
    | nil => simp [spanOffset, concatSlots]
    | cons t ts =>
      cases es with
      | nil => simp [spanOffset, concatSlots]
      | cons e es =>
        rw [spanOffset_succ, ih]
        simp [concatSlots]
        omega

/-- C4: when `checkAndSplit` succeeds on the text with spans `s_i` and no section
returns `Invalid`, `validate` writes back `prefix ++ concat (v_i ++ suffix_i)`, where
`v_i` is the fragment the `i`-th section's `validate` produced from `s_i`; and before
slot `i` is handled the loop has reached, without leaving, the state in which
`offsetReplace` is `|prefix| + sum over j < i of (|v_j| + |suffix_j|)`, the new text is
`prefix ++ concat over j < i of (v_j ++ suffix_j) ++ concat over j ≥ i of
(s_j ++ suffix_j)` and the spans still to be read are the original ones from `i` on, so
that the replacement for slot `i` is spliced at that offset whatever the lengths of the
earlier fragments. -/
theorem validate_rewrite (d : QtMultiSpinBoxPrivate) (text : QString) (pos : Int)
    (result : List QStringRef) (hsplit : d.checkAndSplit text [] = (true, result))
    (hvalid : ∀ r ∈ sectionRuns d.elementDatas (result.map QStringRef.toString) pos,
      r.1 ≠ QValidator.State.Invalid) :
    (∃ st pos1, d.validate text pos =
      some (st, d.prefixText ++ concatSlots
        ((sectionRuns d.elementDatas (result.map QStringRef.toString) pos).map
          (fun r => r.2.1)) d.elementDatas, pos1)) ∧
    ∀ i, i ≤ d.elementDatas.length →
      ∃ sti,
        QtMultiSpinBoxPrivate.validateLoop (d.elementDatas.take i)
          ⟨result, d.prefixText.length, text, QValidator.State.Acceptable, pos⟩ =
            some (false, sti) ∧
        QtMultiSpinBoxPrivate.validateLoop d.elementDatas
          ⟨result, d.prefixText.length, text, QValidator.State.Acceptable, pos⟩ =
            QtMultiSpinBoxPrivate.validateLoop (d.elementDatas.drop i) sti ∧
        sti.splits = result.drop i ∧
        sti.offsetReplace = spanOffset d.prefixText.length
          ((sectionRuns d.elementDatas (result.map QStringRef.toString) pos).map
            (fun r => r.2.1)) d.elementDatas i ∧
        sti.newText = d.prefixText ++
          concatSlots
            (((sectionRuns d.elementDatas (result.map QStringRef.toString) pos).map
              (fun r => r.2.1)).take i) (d.elementDatas.take i) ++
          concatSlots ((result.map QStringRef.toString).drop i) (d.elementDatas.drop i) := by
  obtain ⟨hlen, htext, _, _⟩ := checkAndSplit_true_text d text result hsplit
  constructor
  · obtain ⟨pos1, hv⟩ := validate_of_valid d text pos result hsplit hvalid
    exact ⟨_, pos1, hv⟩
  · intro i hi
    have hruns : sectionRuns (d.elementDatas.take i)
        ((result.take i).map QStringRef.toString) pos =
        (sectionRuns d.elementDatas (result.map QStringRef.toString) pos).take i := by
      rw [List.map_take, sectionRuns_take]
    obtain ⟨sti, hl, h1, h2, h3, _⟩ := validateLoop_run (d.elementDatas.take i)
      (result.take i) (result.drop i)
      ⟨result, d.prefixText.length, text, QValidator.State.Acceptable, pos⟩ d.prefixText
      (concatSlots ((result.map QStringRef.toString).drop i) (d.elementDatas.drop i))
      (by simp) (by simp [hlen]) rfl
      (by
        simp only
        rw [List.map_take, List.append_assoc, ← concatSlots_take_drop]
        exact htext)
      (by
        intro r hr
        simp only at hr
        rw [hruns] at hr
        exact hvalid r (List.mem_of_mem_take hr))
    simp only at h2 h3
    rw [hruns, List.map_take] at h2 h3
    refine ⟨sti, hl, ?_, h1, ?_, h3⟩
    · conv_lhs => rw [← List.take_append_drop i d.elementDatas]
      rw [validateLoop_append, hl]
    · rw [h2, spanOffset_eq_concat]

/-- Witness for C4 on the buffer "[5:7" of the padding widget: both fragments grow by
one character and the text written back is "[05:07". -/
theorem validate_rewrite_witness :
    ∃ st pos1, Example.padClock.validate ['[', '5', ':', '7'] 0 =
      some (st, ['[', '0', '5', ':', '0', '7'], pos1) :=
  (validate_rewrite Example.padClock ['[', '5', ':', '7'] 0
    [⟨['[', '5', ':', '7'], 1, 1⟩, ⟨['[', '5', ':', '7'], 3, 1⟩]
    (by decide) (by decide)).1

theorem sectionRuns_length : ∀ (es : List QtMultiSpinBoxData) (ss : List QString)
    (pos : Int), ss.length = es.length → (sectionRuns es ss pos).length = es.length := by
  intro es
  induction es with
  | nil =>
    intro ss pos _
    cases ss <;> rfl
  | cons e es ih =>
    intro ss pos h
    cases ss with
    | nil => simp at h
    | cons s ss =>
      simp only [sectionRuns, List.length_cons]
      rw [ih ss _ (by simpa using h)]

theorem sectionRuns_idempotent : ∀ (es : List QtMultiSpinBoxData) (ss : List QString)
    (pos q : Int),
    (∀ e ∈ es, ∀ s p, (e.element.validate s p).1 = QValidator.State.Acceptable →
      ∀ q, (e.element.validate (e.element.validate s p).2.1 q).1 =
          QValidator.State.Acceptable ∧
        (e.element.validate (e.element.validate s p).2.1 q).2.1 =
          (e.element.validate s p).2.1) →
    (∀ r ∈ sectionRuns es ss pos, r.1 = QValidator.State.Acceptable) →
    (∀ r ∈ sectionRuns es ((sectionRuns es ss pos).map (fun r => r.2.1)) q,
      r.1 = QValidator.State.Acceptable) ∧
    (sectionRuns es ((sectionRuns es ss pos).map (fun r => r.2.1)) q).map (fun r => r.2.1) =
      (sectionRuns es ss pos).map (fun r => r.2.1) := by
  intro es
  induction es with
  | nil =>
    intro ss pos q _ _
    simp [sectionRuns]
  | cons e es ih =>
    intro ss pos q hidem hacc
    cases ss with
    | nil => simp [sectionRuns]
    | cons s ss =>
      have h0 : (e.element.validate s pos).1 = QValidator.State.Acceptable :=
        hacc _ (by simp [sectionRuns])
      obtain ⟨h1, h2⟩ := hidem e (by simp) s pos h0 q
      obtain ⟨ih1, ih2⟩ := ih ss (e.element.validate s pos).2.2
        (e.element.validate (e.element.validate s pos).2.1 q).2.2
        (fun e1 he1 => hidem e1 (by simp [he1]))
        (fun r hr => hacc r (by simp [sectionRuns, hr]))
      simp only [sectionRuns, List.map_cons, List.mem_cons]
      constructor
      · rintro r (hr | hr)
        · rw [hr]
          exact h1
        · exact ih1 r hr
      · rw [h2, ih2]

theorem validate_acceptable (d : QtMultiSpinBoxPrivate) (text : QString) (pos : Int)
    (text1 : QString) (pos1 : Int)
    (h : d.validate text pos = some (QValidator.State.Acceptable, text1, pos1)) :
    ∃ result, d.checkAndSplit text [] = (true, result) ∧
      (∀ r ∈ sectionRuns d.elementDatas (result.map QStringRef.toString) pos,
        r.1 = QValidator.State.Acceptable) ∧
      text1 = d.prefixText ++ concatSlots
        ((sectionRuns d.elementDatas (result.map QStringRef.toString) pos).map
          (fun r => r.2.1)) d.elementDatas := by
  cases hs : (d.checkAndSplit text []).1 with
  | false =>
    rw [validate_of_split_fail d text pos hs] at h
    simp at h
  | true =>
    obtain ⟨result, hr⟩ := checkAndSplit_fst_true d text hs
    refine ⟨result, hr, ?_⟩
    by_cases hinv : ∃ r ∈ sectionRuns d.elementDatas (result.map QStringRef.toString) pos,
        r.1 = QValidator.State.Invalid
    · obtain ⟨p1, hv⟩ := validate_of_invalid d text pos result hr hinv
      rw [hv] at h
      simp at h
    · have hvalid : ∀ r ∈ sectionRuns d.elementDatas (result.map QStringRef.toString) pos,
          r.1 ≠ QValidator.State.Invalid := fun r hr hc => hinv ⟨r, hr, hc⟩
      obtain ⟨p1, hv⟩ := validate_of_valid d text pos result hr hvalid
      rw [hv] at h
      simp only [Option.some.injEq, Prod.mk.injEq] at h
      obtain ⟨hst, htx, _⟩ := h
      refine ⟨?_, htx.symm⟩
      intro r hr1
      split at hst
      · cases hst
      · rename_i hany
        have hni : r.1 ≠ QValidator.State.Intermediate := by
          intro hc
          exact hany (List.any_eq_true.mpr ⟨r, hr1, by simpa using hc⟩)
        have hnv := hvalid r hr1
        cases hr1v : r.1 with
        | Invalid => exact absurd hr1v hnv
        | Intermediate => exact absurd hr1v hni
        | Acceptable => rfl

theorem padElement_idempotent (s : QString) (p : Int)
    (h : (Example.padElement.validate s p).1 = QValidator.State.Acceptable) (q : Int) :
    (Example.padElement.validate (Example.padElement.validate s p).2.1 q).1 =
        QValidator.State.Acceptable ∧
      (Example.padElement.validate (Example.padElement.validate s p).2.1 q).2.1 =
        (Example.padElement.validate s p).2.1 := by
  simp only [Example.padElement] at h ⊢
  by_cases h1 : s.length = 1
  · simp [h1]
  · by_cases h2 : s.length = 2
    · simp [h2]
    · simp [h1, h2] at h

/-- Counterexample to C5 as stated: the section of the widget `padZero` is idempotent
on the fragments it accepts, `validate` accepts "50" and writes back "050" (the fragment
"5" padded to "05", then the suffix "0"), and `validate` applied to "050" returns
`Invalid`, because the suffix "0" is now found at the start of the text. -/
theorem validate_idempotent_counterexample :
    (∀ e ∈ Example.padZero.elementDatas, ∀ s p,
      (e.element.validate s p).1 = QValidator.State.Acceptable →
      ∀ q, (e.element.validate (e.element.validate s p).2.1 q).1 =
          QValidator.State.Acceptable ∧
        (e.element.validate (e.element.validate s p).2.1 q).2.1 =
          (e.element.validate s p).2.1) ∧
    Example.padZero.validate ['5', '0'] 0 =
      some (QValidator.State.Acceptable, ['0', '5', '0'], 0) ∧
    Example.padZero.validate ['0', '5', '0'] 0 =
      some (QValidator.State.Invalid, ['0', '5', '0'], 0) := by
  refine ⟨?_, by decide, by decide⟩
  intro e he s p h q
  have : e = ⟨Example.padElement, ['0']⟩ := by simpa [Example.padZero] using he
  subst this
  exact padElement_idempotent s p h q

/-- C5 (amended): if `validate` returns `Acceptable` on a text and writes back `t'`,
every section's own `validate` is idempotent on the fragments it accepts, and no
non-empty `suffix_i` occurs in `v_i ++ suffix_i` before offset `|v_i|` (`v_i` being the
fragment written back for slot `i`), then `validate` applied to `t'` returns
`Acceptable` again and leaves `t'` unchanged, at every cursor position. -/
theorem validate_idempotent (d : QtMultiSpinBoxPrivate) (text : QString) (pos : Int)
    (text1 : QString) (pos1 : Int)
    (h : d.validate text pos = some (QValidator.State.Acceptable, text1, pos1))
    (hidem : ∀ e ∈ d.elementDatas, ∀ s p,
      (e.element.validate s p).1 = QValidator.State.Acceptable →
      ∀ q, (e.element.validate (e.element.validate s p).2.1 q).1 =
          QValidator.State.Acceptable ∧
        (e.element.validate (e.element.validate s p).2.1 q).2.1 =
          (e.element.validate s p).2.1)
    (hdel : Delimited
      ((sectionRuns d.elementDatas
        ((d.checkAndSplit text []).2.map QStringRef.toString) pos).map (fun r => r.2.1))
      d.elementDatas) :
    ∀ q, ∃ q1, d.validate text1 q = some (QValidator.State.Acceptable, text1, q1) := by
  intro q
  obtain ⟨result, hr, hacc, htext⟩ := validate_acceptable d text pos text1 pos1 h
  rw [hr] at hdel
  simp only at hdel
  obtain ⟨hlen, _, hinv, _⟩ := checkAndSplit_true_text d text result hr
  have hvl : ((sectionRuns d.elementDatas (result.map QStringRef.toString) pos).map
      (fun r => r.2.1)).length = d.elementDatas.length := by
    rw [List.length_map, sectionRuns_length _ _ _ (by simpa using hlen)]
  have hs : splitInput d text1 = some
      ((sectionRuns d.elementDatas (result.map QStringRef.toString) pos).map
        (fun r => r.2.1)) := by
    rw [htext, splitInput_append]
    exact splitTexts_complete _ _ hvl hinv hdel
  obtain ⟨hsp1, _⟩ := checkAndSplit_spec d text1 []
  have hr2 := hsp1 _ hs
  simp only [List.nil_append] at hr2
  have hdrop : text1.drop d.prefixText.length = concatSlots
      ((sectionRuns d.elementDatas (result.map QStringRef.toString) pos).map
        (fun r => r.2.1)) d.elementDatas := by
    rw [htext]
    simp
  have hmap := mkSpans_toString text1 _ d.elementDatas d.prefixText.length hvl hdrop
  obtain ⟨hi1, hi2⟩ := sectionRuns_idempotent d.elementDatas
    (result.map QStringRef.toString) pos q hidem hacc
  have hvalid2 : ∀ r ∈ sectionRuns d.elementDatas
      ((mkSpans text1 d.prefixText.length
        ((sectionRuns d.elementDatas (result.map QStringRef.toString) pos).map
          (fun r => r.2.1)) d.elementDatas).map QStringRef.toString) q,
      r.1 ≠ QValidator.State.Invalid := by
    intro r hr1
    rw [hmap] at hr1
    rw [hi1 r hr1]
    simp
  obtain ⟨q1, hv⟩ := validate_of_valid d text1 q _ hr2 hvalid2
  refine ⟨q1, ?_⟩
  rw [hv, hmap, hi2, ← htext]
  have hnone : (sectionRuns d.elementDatas
      ((sectionRuns d.elementDatas (result.map QStringRef.toString) pos).map
        (fun r => r.2.1)) q).any
      (fun r => decide (r.1 = QValidator.State.Intermediate)) = false := by
    rw [List.any_eq_false]
    intro r hr1
    rw [hi1 r hr1]
    simp
  rw [hnone]
  simp

/-- Witness for C5 (amended) on the padding widget: "[5:7" is accepted and written back
as "[05:07", which is accepted again and left as it is. -/
theorem validate_idempotent_witness :
    Example.padClock.validate ['[', '5', ':', '7'] 0 =
      some (QValidator.State.Acceptable, ['[', '0', '5', ':', '0', '7'], 0) ∧
    ∀ q, ∃ q1, Example.padClock.validate ['[', '0', '5', ':', '0', '7'] q =
      some (QValidator.State.Acceptable, ['[', '0', '5', ':', '0', '7'], q1) :=
  ⟨by decide,
    validate_idempotent Example.padClock ['[', '5', ':', '7'] 0
      ['[', '0', '5', ':', '0', '7'] 0 (by decide)
      (by
        intro e he s p h q
        have hmem : e = ⟨Example.padElement, [':']⟩ ∨ e = ⟨Example.padElement, []⟩ := by
          simpa [Example.padClock] using he
        rcases hmem with hmem | hmem <;> subst hmem <;> exact padElement_idempotent s p h q)
      (by decide)⟩

/-! ## Inserting and taking slots -/

namespace QString

theorem insert_inside (s : QString) (i : Nat) (str : QString) (h : i ≤ s.length) :
    insert s i str = s.take i ++ str ++ s.drop i := by
  simp only [insert]
  by_cases hs : str = []
  · simp [hs]
  · rw [if_neg hs]
    have : i - s.length = 0 := by omega
    simp [this]

theorem remove_inside (s : QString) (a b : Nat) (hab : a ≤ b) (hb : b ≤ s.length) :
    remove s a ((b : Int) - (a : Int)) = s.take a ++ s.drop b := by
  simp only [remove]
  by_cases h1 : a ≥ s.length
  · rw [if_pos h1]
    have ha : a = s.length := by omega
    have hb1 : b = s.length := by omega
    simp [ha, hb1]
  · rw [if_neg h1]
    by_cases h2 : (b : Int) - (a : Int) ≥ ((s.length - a : Nat) : Int)
    · rw [if_pos h2]
      have hb1 : b = s.length := by omega
      simp [hb1]
    · rw [if_neg h2]
      by_cases h3 : (b : Int) - (a : Int) > 0
      · rw [if_pos h3]
        have : a + ((b : Int) - (a : Int)).toNat = b := by omega
        rw [this]
      · rw [if_neg h3]
        have : b = a := by omega
        rw [this, List.take_append_drop]

end QString

theorem insert_of_textIndex (d : QtMultiSpinBoxPrivate) (index : Nat)
    (element : QtMultiSpinBoxElement) (suffix : QString) (a : Nat)
    (hti : d.textIndex d.lineEdit.text index = some (a : Int))
    (ha : a ≤ d.lineEdit.text.length) :
    d.insert index element suffix = some
      { d with
        elementDatas := d.elementDatas.take index ++ [⟨element, suffix⟩] ++
          d.elementDatas.drop index
        lineEdit := ⟨d.lineEdit.text.take a ++
          (QString.simplified (element.textFromValue element.defaultValue) ++ suffix) ++
          d.lineEdit.text.drop a, a⟩ } := by
  simp only [QtMultiSpinBoxPrivate.insert, hti]
  rw [if_neg (by omega)]
  simp only [Int.toNat_ofNat, QString.insert_inside _ _ _ ha, QLineEdit.setText,
    QLineEdit.setCursorPosition]
  rw [if_pos (by simp; omega)]

theorem take_of_textIndex (d : QtMultiSpinBoxPrivate) (index : Nat)
    (e : QtMultiSpinBoxData) (a b : Nat)
    (hti : d.textIndex d.lineEdit.text index = some (a : Int))
    (hend : (if index + 1 = d.elementDatas.length then some (d.lineEdit.text.length : Int)
      else d.textIndex d.lineEdit.text (index + 1)) = some (b : Int))
    (hab : a ≤ b) (hb : b ≤ d.lineEdit.text.length)
    (he : d.elementDatas[index]? = some e) :
    d.take index = some (e,
      { d with
        elementDatas := d.elementDatas.eraseIdx index
        lineEdit := ⟨d.lineEdit.text.take a ++ d.lineEdit.text.drop b, 0⟩ }) := by
  simp only [QtMultiSpinBoxPrivate.take, hti, hend, he]
  rw [if_neg (by omega), if_neg (by omega)]
  simp only [Int.toNat_ofNat, QString.remove_inside _ _ _ hab hb, QLineEdit.setText,
    QLineEdit.setCursorPosition]
  rw [if_pos (by omega)]
  rfl

theorem take_prefix_concat (pre : QString) (ts : List QString)
    (es : List QtMultiSpinBoxData) (i : Nat) :
    (pre ++ concatSlots ts es).take (spanOffset pre.length ts es i) =
      pre ++ concatSlots (ts.take i) (es.take i) ∧
    (pre ++ concatSlots ts es).drop (spanOffset pre.length ts es i) =
      concatSlots (ts.drop i) (es.drop i) := by
  have hsplit : pre ++ concatSlots ts es =
      (pre ++ concatSlots (ts.take i) (es.take i)) ++
        concatSlots (ts.drop i) (es.drop i) := by
    rw [List.append_assoc, ← concatSlots_take_drop]
  rw [spanOffset_eq_concat, ← List.length_append, hsplit]
  exact ⟨List.take_left _ _, List.drop_left _ _⟩

theorem spanOffset_le (pre : QString) (ts : List QString) (es : List QtMultiSpinBoxData)
    (i : Nat) : spanOffset pre.length ts es i ≤ (pre ++ concatSlots ts es).length := by
  rw [spanOffset_eq_concat]
  conv_rhs => rw [concatSlots_take_drop ts es i]
  simp

theorem spanOffset_mono (p : Nat) (ts : List QString) (es : List QtMultiSpinBoxData)
    (i : Nat) : spanOffset p ts es i ≤ spanOffset p ts es (i + 1) := by
  induction i generalizing p ts es with
  | zero =>
    simp [spanOffset]
  | succ i ih =>
    cases ts with
    | nil => simp [spanOffset]
    | cons t ts =>
      cases es with
      | nil => simp [spanOffset]
      | cons e es =>
        rw [spanOffset_succ, spanOffset_succ]
        exact ih _ ts es

theorem insertSpinElement_checked (d : QtMultiSpinBoxPrivate) (index : Nat)
    (element : QtMultiSpinBoxElement) (suffix : QString)
    (hindex : index ≤ d.elementDatas.length)
    (hsuffix : d.elementDatas.length ≥ 1 → index ≠ d.elementDatas.length →
      QtMultiSpinBoxPrivate.simplify suffix ≠ [])
    (hbefore : d.elementDatas.length ≥ 1 → index ≠ 0 →
      ∀ e, d.elementDatas[index - 1]? = some e → e.suffix ≠ []) :
    QtMultiSpinBox.insertSpinElement d (index : Int) element suffix =
      d.insert index element (QtMultiSpinBoxPrivate.simplify suffix) := by
  simp only [QtMultiSpinBox.insertSpinElement, QtMultiSpinBox.count]
  rw [if_neg (by omega), if_neg, if_neg]
  · simp
  · rintro ⟨h1, h2, h3⟩
    have hi : ((index : Int) - 1).toNat = index - 1 := by omega
    rw [hi] at h3
    have hlt : index - 1 < d.elementDatas.length := by omega
    rw [List.getElem?_eq_getElem hlt] at h3
    simp only [List.isEmpty_iff] at h3
    exact hbefore h1 (by omega) _ (List.getElem?_eq_getElem hlt) h3
  · rintro ⟨h1, h2, h3⟩
    exact hsuffix h1 (by omega) h3

theorem insertSpinElement_spec (d : QtMultiSpinBoxPrivate) (ss : List QString) (index : Nat)
    (element : QtMultiSpinBoxElement) (suffix : QString)
    (hs : splitInput d d.lineEdit.text = some ss)
    (hindex : index ≤ d.elementDatas.length)
    (hsuffix : d.elementDatas.length ≥ 1 → index ≠ d.elementDatas.length →
      QtMultiSpinBoxPrivate.simplify suffix ≠ [])
    (hbefore : d.elementDatas.length ≥ 1 → index ≠ 0 →
      ∀ e, d.elementDatas[index - 1]? = some e → e.suffix ≠ []) :
    QtMultiSpinBox.insertSpinElement d (index : Int) element suffix = some
      { d with
        elementDatas := d.elementDatas.take index ++
          [⟨element, QtMultiSpinBoxPrivate.simplify suffix⟩] ++ d.elementDatas.drop index
        lineEdit := ⟨d.prefixText ++ concatSlots (ss.take index) (d.elementDatas.take index) ++
          (QString.simplified (element.textFromValue element.defaultValue) ++
            QtMultiSpinBoxPrivate.simplify suffix) ++
          concatSlots (ss.drop index) (d.elementDatas.drop index),
          spanOffset d.prefixText.length ss d.elementDatas index⟩ } := by
  obtain ⟨_, htext, _, _, _⟩ := splitInput_sound d _ ss hs
  have hle : spanOffset d.prefixText.length ss d.elementDatas index ≤
      d.lineEdit.text.length := by
    conv_rhs => rw [htext]
    exact spanOffset_le _ _ _ _
  rw [insertSpinElement_checked d index element suffix hindex hsuffix hbefore,
    insert_of_textIndex d index element _ _ (textIndex_split d _ ss index hs hindex) hle]
  obtain ⟨h1, h2⟩ := take_prefix_concat d.prefixText ss d.elementDatas index
  rw [← htext] at h1 h2
  rw [h1, h2]

/-- C8: for every state whose buffer `checkAndSplit` accepts with spans `s_j`, and every
index, section and suffix that satisfy the preconditions of `insertSpinElement`, after
`insertSpinElement(index, section, suffix)` the buffer is
`prefix ++ concat over j < index of (s_j ++ suffix_j) ++ simplified(default text) ++
simplify(suffix) ++ concat over j ≥ index of (s_j ++ suffix_j)`, there is one slot
more, the new slot (the section with the suffix `simplify(suffix)`) sits at position
`index` between the old slots, and the cursor is at the offset where the inserted
default text begins. -/
theorem insertSpinElement_buffer (d : QtMultiSpinBoxPrivate) (result : List QStringRef)
    (index : Nat) (element : QtMultiSpinBoxElement) (suffix : QString)
    (hsplit : d.checkAndSplit d.lineEdit.text [] = (true, result))
    (hindex : index ≤ d.elementDatas.length)
    (hsuffix : d.elementDatas.length ≥ 1 → index ≠ d.elementDatas.length →
      QtMultiSpinBoxPrivate.simplify suffix ≠ [])
    (hbefore : d.elementDatas.length ≥ 1 → index ≠ 0 →
      ∀ e, d.elementDatas[index - 1]? = some e → e.suffix ≠ []) :
    ∃ d1, QtMultiSpinBox.insertSpinElement d (index : Int) element suffix = some d1 ∧
      d1.lineEdit.text =
        d.prefixText ++
          concatSlots ((result.map QStringRef.toString).take index)
            (d.elementDatas.take index) ++
          (QString.simplified (element.textFromValue element.defaultValue) ++
            QtMultiSpinBoxPrivate.simplify suffix) ++
          concatSlots ((result.map QStringRef.toString).drop index)
            (d.elementDatas.drop index) ∧
      d1.elementDatas.length = d.elementDatas.length + 1 ∧
      d1.elementDatas = d.elementDatas.take index ++
        [⟨element, QtMultiSpinBoxPrivate.simplify suffix⟩] ++ d.elementDatas.drop index ∧
      (∃ e, d1.elementDatas[index]? = some e ∧ e.element = element ∧
        e.suffix = QtMultiSpinBoxPrivate.simplify suffix) ∧
      d1.lineEdit.cursorPosition =
        (d.prefixText ++ concatSlots ((result.map QStringRef.toString).take index)
          (d.elementDatas.take index)).length ∧
      d1.prefixText = d.prefixText := by
  obtain ⟨ss, hs, _, hmap⟩ := checkAndSplit_true d _ result hsplit
  rw [hmap]
  refine ⟨_, insertSpinElement_spec d ss index element suffix hs hindex hsuffix hbefore,
    rfl, ?_, rfl, ?_, ?_, rfl⟩
  · simp
    omega
  · refine ⟨⟨element, QtMultiSpinBoxPrivate.simplify suffix⟩, ?_, rfl, rfl⟩
    have hl : (d.elementDatas.take index).length = index := by simp [hindex]
    simp only [List.append_assoc]
    rw [List.getElem?_append_right (by omega), hl]
    simp
  · simp only [spanOffset_eq_concat, List.length_append]

/-- Witness for C8: inserting a section with the suffix "-" at index 1 of the example
widget turns the buffer "[12:01" into "[12:00-01" and puts the cursor at offset 4. -/
theorem insertSpinElement_buffer_witness :
    ∃ d1, QtMultiSpinBox.insertSpinElement Example.clock 1 Example.plainElement ['-'] =
        some d1 ∧
      d1.lineEdit.text = ['[', '1', '2', ':', '0', '0', '-', '0', '1'] ∧
      d1.elementDatas.length = 3 ∧
      d1.lineEdit.cursorPosition = 4 :=
  let ⟨d1, h1, h2, h3, _, _, h6, _⟩ :=
    insertSpinElement_buffer Example.clock
      [⟨Example.clock.lineEdit.text, 1, 2⟩, ⟨Example.clock.lineEdit.text, 4, 2⟩]
      1 Example.plainElement ['-'] (by decide) (by decide) (fun _ _ => by decide)
      (fun _ _ e he => by
        have h : e = ⟨Example.plainElement, [':']⟩ := by
          simpa [Example.clock] using he.symm
        rw [h]
        decide)
  ⟨d1, h1, h2.trans (by decide), h3, h6.trans (by decide)⟩

theorem concatSlots_append : ∀ (a b : List QString) (c e : List QtMultiSpinBoxData),
    a.length = c.length →
    concatSlots (a ++ b) (c ++ e) = concatSlots a c ++ concatSlots b e := by
  intro a
  induction a with
  | nil =>
    intro b c e h
    have : c = [] := List.eq_nil_of_length_eq_zero (by simpa using h.symm)
    subst this
    simp [concatSlots]
  | cons t a ih =>
    intro b c e h
    cases c with
    | nil => simp at h
    | cons x c =>
      have h1 := ih b c e (by simpa using h)
      simp only [List.cons_append, concatSlots, List.append_eq, h1, List.append_assoc]

theorem concatSlots_eraseIdx (ts : List QString) (es : List QtMultiSpinBoxData) (i : Nat)
    (hlen : ts.length = es.length) :
    concatSlots (ts.eraseIdx i) (es.eraseIdx i) =
      concatSlots (ts.take i) (es.take i) ++
        concatSlots (ts.drop (i + 1)) (es.drop (i + 1)) := by
  rw [List.eraseIdx_eq_take_drop_succ, List.eraseIdx_eq_take_drop_succ,
    concatSlots_append _ _ _ _ (by simp [hlen])]

theorem take_spec (d : QtMultiSpinBoxPrivate) (ss : List QString) (index : Nat)
    (hs : splitInput d d.lineEdit.text = some ss) (hindex : index < d.elementDatas.length) :
    ∃ e, d.elementDatas[index]? = some e ∧
      d.take index = some (e,
        { d with
          elementDatas := d.elementDatas.eraseIdx index
          lineEdit := ⟨d.prefixText ++
            concatSlots (ss.eraseIdx index) (d.elementDatas.eraseIdx index), 0⟩ }) := by
  obtain ⟨hlen, htext, _, _, _⟩ := splitInput_sound d _ ss hs
  have hb : spanOffset d.prefixText.length ss d.elementDatas (index + 1) ≤
      d.lineEdit.text.length := by
    conv_rhs => rw [htext]
    exact spanOffset_le _ _ _ _
  have hend : (if index + 1 = d.elementDatas.length then
        some (d.lineEdit.text.length : Int)
      else d.textIndex d.lineEdit.text (index + 1)) =
      some (spanOffset d.prefixText.length ss d.elementDatas (index + 1) : Int) := by
    rw [← textIndex_split d _ ss (index + 1) hs (by omega)]
    by_cases hl : index + 1 = d.elementDatas.length
    · rw [if_pos hl, hl, textIndex_split d _ ss _ hs (le_refl _),
        spanOffset_length ss _ _ hlen]
      congr 2
      conv_lhs => rw [htext]
      simp
    · rw [if_neg hl]
  refine ⟨d.elementDatas[index], List.getElem?_eq_getElem hindex, ?_⟩
  rw [take_of_textIndex d index _ _ _ (textIndex_split d _ ss index hs (by omega)) hend
    (spanOffset_mono _ _ _ _) hb (List.getElem?_eq_getElem hindex)]
  obtain ⟨h1, _⟩ := take_prefix_concat d.prefixText ss d.elementDatas index
  obtain ⟨_, h2⟩ := take_prefix_concat d.prefixText ss d.elementDatas (index + 1)
  rw [← htext] at h1 h2
  rw [h1, h2, concatSlots_eraseIdx ss _ index hlen, List.append_assoc]

theorem takeSpinElement_of_take (d d1 : QtMultiSpinBoxPrivate) (index : Nat)
    (e : QtMultiSpinBoxData) (hindex : index < d.elementDatas.length)
    (ht : d.take index = some (e, d1)) :
    ∃ d2, QtMultiSpinBox.takeSpinElement d (index : Int) = some (e.element, d2) ∧
      d2.elementDatas = d1.elementDatas ∧ d2.lineEdit = d1.lineEdit ∧
      d2.prefixText = d1.prefixText := by
  simp only [QtMultiSpinBox.takeSpinElement, QtMultiSpinBox.count]
  rw [if_neg (by omega)]
  simp only [Int.toNat_ofNat, ht]
  by_cases hc : d1.currentSectionIndex = (index : Int)
  · rw [if_pos hc]
    exact ⟨_, rfl, rfl, rfl, rfl⟩
  · rw [if_neg hc]
    exact ⟨_, rfl, rfl, rfl, rfl⟩

/-- C9: for every state whose buffer `checkAndSplit` accepts with spans `s_j` and every
index below the section count, `takeSpinElement(index)` returns the section that was
at `index`, leaves the other slots in their order (one slot fewer), and leaves the
buffer equal to `prefix ++ concat over j ≠ index of (s_j ++ suffix_j)`. -/
theorem takeSpinElement_buffer (d : QtMultiSpinBoxPrivate) (result : List QStringRef)
    (index : Nat) (hsplit : d.checkAndSplit d.lineEdit.text [] = (true, result))
    (hindex : index < d.elementDatas.length) :
    ∃ e d2, d.elementDatas[index]? = some e ∧
      QtMultiSpinBox.takeSpinElement d (index : Int) = some (e.element, d2) ∧
      d2.elementDatas = d.elementDatas.eraseIdx index ∧
      d2.elementDatas.length = d.elementDatas.length - 1 ∧
      d2.lineEdit.text = d.prefixText ++
        concatSlots ((result.map QStringRef.toString).eraseIdx index)
          (d.elementDatas.eraseIdx index) := by
  obtain ⟨ss, hs, _, hmap⟩ := checkAndSplit_true d _ result hsplit
  rw [hmap]
  obtain ⟨e, he, ht⟩ := take_spec d ss index hs hindex
  obtain ⟨d2, h1, h2, h3, _⟩ := takeSpinElement_of_take d _ index e hindex ht
  refine ⟨e, d2, he, h1, h2, ?_, ?_⟩
  · rw [h2]
    simp only [List.length_eraseIdx, if_pos hindex]
  · rw [h3]

/-- Witness for C9: taking slot 0 out of the example widget with the buffer "[12:01"
leaves one slot and the buffer "[01". -/
theorem takeSpinElement_buffer_witness :
    ∃ e d2, QtMultiSpinBox.takeSpinElement Example.clock 0 = some (e, d2) ∧
      d2.elementDatas.length = 1 ∧ d2.lineEdit.text = ['[', '0', '1'] :=
  let ⟨e, d2, _, h2, _, h4, h5⟩ :=
    takeSpinElement_buffer Example.clock
      [⟨Example.clock.lineEdit.text, 1, 2⟩, ⟨Example.clock.lineEdit.text, 4, 2⟩] 0
      (by decide) (by decide)
  ⟨e.element, d2, h2, h4, h5.trans (by decide)⟩

/-! ## Insert followed by take -/

namespace QString

theorem firstIndex_append {str s : QString} {j : Nat} (x : QString)
    (h : firstIndex str s = some j) : firstIndex str (s ++ x) = some j := by
  obtain ⟨h1, h2, h3⟩ := firstIndex_some h
  obtain ⟨hlen, _⟩ := firstIndex_split h
  apply firstIndex_of_first
  · simp
    omega
  · rw [List.drop_append_of_le_length h1]
    exact h2.trans (List.prefix_append _ _)
  · intro k hk hc
    apply h3 k hk
    rw [List.drop_append_of_le_length (by omega)] at hc
    apply List.prefix_of_prefix_length_le hc (List.prefix_append _ _)
    simp
    omega

end QString

theorem splitTexts_delimited : ∀ (es : List QtMultiSpinBoxData) (s : QString)
    (ts : List QString), splitTexts es s = some ts → Delimited ts es := by
  intro es
  induction es with
  | nil =>
    intro s ts h
    intro p hp
    simp at hp
  | cons e rest ih =>
    intro s ts h
    simp only [splitTexts] at h
    split at h
    · rename_i hne
      cases hfi : QString.firstIndex e.suffix s with
      | none => simp [hfi] at h
      | some i =>
        simp only [hfi] at h
        cases hrest : splitTexts rest (s.drop (i + e.suffix.length)) with
        | none => simp [hrest] at h
        | some ts1 =>
          simp only [hrest, Option.map_some', Option.some.injEq] at h
          subst h
          obtain ⟨hi, hpre, hmin⟩ := QString.firstIndex_some hfi
          obtain ⟨hlen, hsplit⟩ := QString.firstIndex_split hfi
          intro p hp
          simp only [List.zip_cons_cons, List.mem_cons] at hp
          rcases hp with hp | hp
          · subst hp
            intro _ j hj hc
            simp only [List.length_take] at hj
            apply hmin j (by omega)
            have hs2 : s = (s.take i ++ e.suffix) ++ s.drop (i + e.suffix.length) := by
              rw [List.append_assoc]
              exact hsplit
            rw [hs2, List.drop_append_of_le_length (by simp; omega)]
            exact hc.trans (List.prefix_append _ _)
          · exact ih _ _ hrest p hp
    · split at h
      · rename_i hemp _
        cases h
        intro p hp
        simp only [List.zip_cons_cons, List.mem_cons] at hp
        rcases hp with hp | hp
        · subst hp
          intro hne
          exact absurd hne hemp
        · cases rest <;> simp at hp
      · cases h

theorem delimited_append (a b : List QString) (c e : List QtMultiSpinBoxData)
    (h : a.length = c.length) :
    Delimited (a ++ b) (c ++ e) ↔ Delimited a c ∧ Delimited b e := by
  simp only [Delimited, List.zip_append h, List.mem_append]
  constructor
  · intro hd
    exact ⟨fun p hp => hd p (Or.inl hp), fun p hp => hd p (Or.inr hp)⟩
  · rintro ⟨h1, h2⟩ p (hp | hp)
    · exact h1 p hp
    · exact h2 p hp

theorem delimited_insert (ss : List QString) (es : List QtMultiSpinBoxData) (i : Nat)
    (t : QString) (e : QtMultiSpinBoxData) (hlen : ss.length = es.length)
    (hd : Delimited ss es) (ht : e.suffix ≠ [] → NoEarlierSuffix t e.suffix) :
    Delimited (ss.take i ++ [t] ++ ss.drop i) (es.take i ++ [e] ++ es.drop i) := by
  have hl : (ss.take i).length = (es.take i).length := by simp [hlen]
  have h0 : Delimited (ss.take i ++ ss.drop i) (es.take i ++ es.drop i) := by
    rw [List.take_append_drop, List.take_append_drop]
    exact hd
  obtain ⟨h1, h2⟩ := (delimited_append _ _ _ _ hl).mp h0
  rw [List.append_assoc, List.append_assoc, delimited_append _ _ _ _ hl,
    delimited_append _ _ _ _ (by simp)]
  refine ⟨h1, ?_, h2⟩
  intro p hp
  simp only [List.zip_cons_cons, List.zip_nil_right, List.mem_singleton] at hp
  subst hp
  exact ht

theorem suffixInvariant_insert : ∀ (es : List QtMultiSpinBoxData) (i : Nat)
    (x : QtMultiSpinBoxData), i ≤ es.length → SuffixInvariant es →
    (i < es.length → x.suffix ≠ []) →
    (i ≠ 0 → ∀ e, es[i - 1]? = some e → e.suffix ≠ []) →
    SuffixInvariant (es.take i ++ [x] ++ es.drop i) := by
  intro es
  induction es with
  | nil =>
    intro i x hi _ _ _
    simp [SuffixInvariant]
  | cons e rest ih =>
    intro i x hi hinv hx hb
    obtain ⟨h1, h2⟩ := (suffixInvariant_cons e rest).mp hinv
    cases i with
    | zero =>
      simp only [List.take_zero, List.nil_append, List.drop_zero, List.singleton_append]
      rw [suffixInvariant_cons]
      exact ⟨fun _ => hx (by simp), hinv⟩
    | succ i =>
      simp only [List.take_succ_cons, List.drop_succ_cons, List.cons_append]
      rw [suffixInvariant_cons]
      constructor
      · intro _
        by_cases hr : rest = []
        · subst hr
          have hi0 : i = 0 := by simpa using hi
          subst hi0
          exact hb (by omega) e (by simp)
        · exact h1 hr
      · apply ih i x (by simpa using hi) h2 (fun h => hx (by simpa using h))
        intro hi0 e1 he1
        apply hb (by omega) e1
        have : i + 1 - 1 = (i - 1) + 1 := by omega
        rw [this, List.getElem?_cons_succ]
        exact he1

theorem eraseIdx_insert {α : Type} (l : List α) (i : Nat) (x : α) (h : i ≤ l.length) :
    (l.take i ++ [x] ++ l.drop i).eraseIdx i = l := by
  rw [List.append_assoc, List.eraseIdx_append_of_length_le (by simp)]
  have : i - (l.take i).length = 0 := by simp [h]
  rw [this]
  simp

theorem textIndexLoop_extend (extra : QString) (es2 : List QtMultiSpinBoxData)
    (k count : Nat) : ∀ (es : List QtMultiSpinBoxData) (ts : List QString) (text : QString)
    (p i : Nat), p ≤ text.length → splitTexts es (text.drop p) = some ts →
    (∀ e ∈ es, e.suffix ≠ []) → k = i + es.length →
    QtMultiSpinBoxPrivate.textIndexLoop (text ++ extra) k count (es ++ es2) i (p : Int) =
      (text.length : Int) := by
  intro es
  induction es with
  | nil =>
    intro ts text p i hp hs _ hk
    simp only [splitTexts] at hs
    split at hs
    · rename_i hnil
      have hlen : text.length - p = 0 := by
        have := congrArg List.length hnil
        simpa using this
      rw [List.nil_append, textIndexLoop_stop _ _ _ _ _ _ (by simp at hk; omega)]
      congr 1
      omega
    · cases hs
  | cons e rest ih =>
    intro ts text p i hp hs hall hk
    have hne : e.suffix ≠ [] := hall e (by simp)
    simp only [splitTexts, if_pos hne] at hs
    cases hfi : QString.firstIndex e.suffix (text.drop p) with
    | none => simp [hfi] at hs
    | some j =>
      simp only [hfi] at hs
      have hdd : (text.drop p).drop (j + e.suffix.length) =
          text.drop (p + (j + e.suffix.length)) := by
        rw [List.drop_drop]
      rw [hdd] at hs
      cases hrest : splitTexts rest (text.drop (p + (j + e.suffix.length))) with
      | none => simp [hrest] at hs
      | some ts1 =>
        obtain ⟨hle, _⟩ := QString.firstIndex_split hfi
        have hle2 : j + e.suffix.length ≤ text.length - p := by simpa using hle
        have hidx : QString.indexOf (text ++ extra) e.suffix p = ((p + j : Nat) : Int) := by
          simp only [QString.indexOf]
          rw [if_neg (by simp; omega), List.drop_append_of_le_length hp,
            QString.firstIndex_append extra hfi]
        rw [List.cons_append,
          textIndexLoop_found _ k count e _ i p (p + j) (by simp at hk; omega) hne hidx]
        have hcast : p + j + e.suffix.length = p + (j + e.suffix.length) := by omega
        rw [hcast]
        exact ih ts1 text _ (i + 1) (by omega) hrest
          (fun e1 he1 => hall e1 (by simp [he1])) (by simp at hk; omega)

theorem splitInput_index (d : QtMultiSpinBoxPrivate) (input : QString) (ts : List QString)
    (h : splitInput d input = some ts) :
    d.prefixText <+: input ∧
    splitTexts d.elementDatas (input.drop d.prefixText.length) = some ts ∧
    ∀ i e, d.elementDatas[i]? = some e → i + 1 < d.elementDatas.length → e.suffix ≠ [] := by
  simp only [splitInput] at h
  split at h
  · rename_i hp
    exact ⟨List.isPrefixOf_iff_prefix.mp hp, h, (splitTexts_sound _ _ _ h).2.2⟩
  · cases h

theorem take_appended (d : QtMultiSpinBoxPrivate) (ss : List QString)
    (x : QtMultiSpinBoxData) (extra : QString) (c : Nat)
    (hs : splitInput d d.lineEdit.text = some ss)
    (hall : ∀ e ∈ d.elementDatas, e.suffix ≠ []) :
    QtMultiSpinBoxPrivate.take
      { d with
        elementDatas := d.elementDatas ++ [x]
        lineEdit := ⟨d.lineEdit.text ++ extra, c⟩ } d.elementDatas.length =
      some (x, { d with lineEdit := ⟨d.lineEdit.text, 0⟩ }) := by
  obtain ⟨hpre, hsp, _⟩ := splitInput_index d _ ss hs
  have hidx : (if d.prefixText ≠ [] then (d.prefixText.length : Int) else 0) =
      (d.prefixText.length : Int) := by
    by_cases hne : d.prefixText = []
    · simp [hne]
    · simp [hne]
  have hpre2 : QString.startsWith (d.lineEdit.text ++ extra) d.prefixText = true :=
    List.isPrefixOf_iff_prefix.mpr (hpre.trans (List.prefix_append _ _))
  have hti : QtMultiSpinBoxPrivate.textIndex
      { d with
        elementDatas := d.elementDatas ++ [x]
        lineEdit := ⟨d.lineEdit.text ++ extra, c⟩ } (d.lineEdit.text ++ extra)
      d.elementDatas.length = some (d.lineEdit.text.length : Int) := by
    simp only [QtMultiSpinBoxPrivate.textIndex, hpre2, hidx]
    rw [if_neg (by simp), if_neg (by simp)]
    rw [textIndexLoop_extend extra [x] _ _ d.elementDatas ss d.lineEdit.text
      d.prefixText.length 0 hpre.length_le hsp hall (by omega)]
  have h := take_of_textIndex
    { d with
      elementDatas := d.elementDatas ++ [x]
      lineEdit := ⟨d.lineEdit.text ++ extra, c⟩ } d.elementDatas.length x
    d.lineEdit.text.length (d.lineEdit.text ++ extra).length hti (by simp) (by simp)
    (le_refl _) (by simp)
  have herase : (d.elementDatas ++ [x]).eraseIdx d.elementDatas.length = d.elementDatas := by
    rw [List.eraseIdx_append_of_length_le (le_refl _)]
    simp
  rw [h]
  simp [herase]

theorem insert_take_last (d : QtMultiSpinBoxPrivate) (ss : List QString)
    (element : QtMultiSpinBoxElement) (suffix : QString)
    (hs : splitInput d d.lineEdit.text = some ss)
    (hsuffix : d.elementDatas.length ≥ 1 → d.elementDatas.length ≠ d.elementDatas.length →
      QtMultiSpinBoxPrivate.simplify suffix ≠ [])
    (hbefore : d.elementDatas.length ≥ 1 → d.elementDatas.length ≠ 0 →
      ∀ e, d.elementDatas[d.elementDatas.length - 1]? = some e → e.suffix ≠ []) :
    ∃ d1 e d2,
      QtMultiSpinBox.insertSpinElement d (d.elementDatas.length : Int) element suffix =
        some d1 ∧
      QtMultiSpinBox.takeSpinElement d1 (d.elementDatas.length : Int) = some (e, d2) ∧
      d2.lineEdit.text = d.lineEdit.text ∧ d2.elementDatas = d.elementDatas := by
  obtain ⟨hlen, htext, _, _, _⟩ := splitInput_sound d _ ss hs
  obtain ⟨_, _, hinv⟩ := splitInput_index d _ ss hs
  have hall : ∀ e ∈ d.elementDatas, e.suffix ≠ [] := by
    intro e he
    obtain ⟨j, hj⟩ := List.mem_iff_getElem?.mp he
    have hjl : j < d.elementDatas.length := by
      by_contra hc
      rw [List.getElem?_eq_none (by omega)] at hj
      cases hj
    by_cases hlast : j + 1 < d.elementDatas.length
    · exact hinv j e hj hlast
    · have : d.elementDatas.length - 1 = j := by omega
      exact hbefore (by omega) (by omega) e (by rw [this]; exact hj)
  have e3 : ss.take d.elementDatas.length = ss := by
    rw [← hlen]
    exact List.take_length ss
  have e4 : ss.drop d.elementDatas.length = [] := by
    rw [← hlen]
    exact List.drop_length ss
  have hins := insertSpinElement_spec d ss d.elementDatas.length element suffix hs
    (le_refl _) hsuffix hbefore
  rw [List.take_length, List.drop_length, e3, e4, ← htext] at hins
  simp only [concatSlots, List.append_nil] at hins
  have htake := take_appended d ss ⟨element, QtMultiSpinBoxPrivate.simplify suffix⟩
    (QString.simplified (element.textFromValue element.defaultValue) ++
      QtMultiSpinBoxPrivate.simplify suffix)
    (spanOffset d.prefixText.length ss d.elementDatas d.elementDatas.length) hs hall
  obtain ⟨d2, h1, h2, h3, _⟩ := takeSpinElement_of_take _ _ d.elementDatas.length _
    (by simp) htake
  exact ⟨_, _, d2, hins, h1, by rw [h3], by rw [h2]⟩

theorem insert_take_delimited (d : QtMultiSpinBoxPrivate) (ss : List QString) (index : Nat)
    (element : QtMultiSpinBoxElement) (suffix : QString)
    (hs : splitInput d d.lineEdit.text = some ss)
    (hindex : index ≤ d.elementDatas.length)
    (hsuffix : d.elementDatas.length ≥ 1 → index ≠ d.elementDatas.length →
      QtMultiSpinBoxPrivate.simplify suffix ≠ [])
    (hbefore : d.elementDatas.length ≥ 1 → index ≠ 0 →
      ∀ e, d.elementDatas[index - 1]? = some e → e.suffix ≠ [])
    (hdelim : NoEarlierSuffix
      (QString.simplified (element.textFromValue element.defaultValue))
      (QtMultiSpinBoxPrivate.simplify suffix)) :
    ∃ d1 e d2,
      QtMultiSpinBox.insertSpinElement d (index : Int) element suffix = some d1 ∧
      QtMultiSpinBox.takeSpinElement d1 (index : Int) = some (e, d2) ∧
      d2.lineEdit.text = d.lineEdit.text ∧ d2.elementDatas = d.elementDatas := by
  obtain ⟨hlen, htext, _, hinv, hsp⟩ := splitInput_sound d _ ss hs
  have hdel := splitTexts_delimited _ _ _ hsp
  have hins := insertSpinElement_spec d ss index element suffix hs hindex hsuffix hbefore
  have hl : (ss.take index).length = (d.elementDatas.take index).length := by simp [hlen]
  have htext1 : d.prefixText ++ concatSlots (ss.take index) (d.elementDatas.take index) ++
      (QString.simplified (element.textFromValue element.defaultValue) ++
        QtMultiSpinBoxPrivate.simplify suffix) ++
      concatSlots (ss.drop index) (d.elementDatas.drop index) =
      d.prefixText ++ concatSlots
        (ss.take index ++ [QString.simplified (element.textFromValue element.defaultValue)] ++
          ss.drop index)
        (d.elementDatas.take index ++ [⟨element, QtMultiSpinBoxPrivate.simplify suffix⟩] ++
          d.elementDatas.drop index) := by
    rw [List.append_assoc (ss.take index), List.append_assoc (d.elementDatas.take index),
      concatSlots_append _ _ _ _ hl]
    simp [concatSlots, List.append_assoc]
  rw [htext1] at hins
  have hs1 : splitInput
      { d with
        elementDatas := d.elementDatas.take index ++
          [⟨element, QtMultiSpinBoxPrivate.simplify suffix⟩] ++ d.elementDatas.drop index
        lineEdit := ⟨d.prefixText ++ concatSlots
          (ss.take index ++
            [QString.simplified (element.textFromValue element.defaultValue)] ++
            ss.drop index)
          (d.elementDatas.take index ++ [⟨element, QtMultiSpinBoxPrivate.simplify suffix⟩] ++
            d.elementDatas.drop index),
          spanOffset d.prefixText.length ss d.elementDatas index⟩ }
      (d.prefixText ++ concatSlots
        (ss.take index ++ [QString.simplified (element.textFromValue element.defaultValue)] ++
          ss.drop index)
        (d.elementDatas.take index ++ [⟨element, QtMultiSpinBoxPrivate.simplify suffix⟩] ++
          d.elementDatas.drop index)) =
      some (ss.take index ++
        [QString.simplified (element.textFromValue element.defaultValue)] ++
        ss.drop index) := by
    have := splitInput_append
      { d with
        elementDatas := d.elementDatas.take index ++
          [⟨element, QtMultiSpinBoxPrivate.simplify suffix⟩] ++ d.elementDatas.drop index
        lineEdit := ⟨d.prefixText ++ concatSlots
          (ss.take index ++
            [QString.simplified (element.textFromValue element.defaultValue)] ++
            ss.drop index)
          (d.elementDatas.take index ++ [⟨element, QtMultiSpinBoxPrivate.simplify suffix⟩] ++
            d.elementDatas.drop index),
          spanOffset d.prefixText.length ss d.elementDatas index⟩ }
      (concatSlots
        (ss.take index ++ [QString.simplified (element.textFromValue element.defaultValue)] ++
          ss.drop index)
        (d.elementDatas.take index ++ [⟨element, QtMultiSpinBoxPrivate.simplify suffix⟩] ++
          d.elementDatas.drop index))
    simp only at this
    rw [this]
    apply splitTexts_complete
    · simp [hlen]
    · exact suffixInvariant_insert _ index _ hindex hinv
        (fun h => hsuffix (by omega) (by omega))
        (fun h => hbefore (by omega) h)
    · exact delimited_insert ss _ index _ _ hlen hdel (fun _ => hdelim)
  obtain ⟨e, _, ht⟩ := take_spec _ _ index hs1 (by simp; omega)
  simp only at ht
  rw [eraseIdx_insert _ _ _ hindex, eraseIdx_insert _ _ _ (by omega), ← htext] at ht
  obtain ⟨d2, h1, h2, h3, _⟩ := takeSpinElement_of_take _ _ index e (by simp; omega) ht
  exact ⟨_, e.element, d2, hins, h1, by rw [h3], by rw [h2]⟩

/-- Counterexample to C10 as stated: the example widget has the buffer "[12:01", which
`checkAndSplit` accepts; inserting at index 0 a section with the default text "00" and
the suffix "0" satisfies the preconditions of `insertSpinElement` and gives "[00012:01",
and `takeSpinElement(0)` then removes only the first "0" (the suffix is found at the
start of the default text), leaving "[0012:01" instead of "[12:01". -/
theorem insert_take_counterexample :
    (Example.clock.checkAndSplit Example.clock.lineEdit.text []).1 = true ∧
    Example.clock.lineEdit.text = ['[', '1', '2', ':', '0', '1'] ∧
    (QtMultiSpinBox.insertSpinElement Example.clock 0 Example.plainElement ['0']).map
      (fun d1 => d1.lineEdit.text) = some ['[', '0', '0', '0', '1', '2', ':', '0', '1'] ∧
    (QtMultiSpinBox.insertSpinElement Example.clock 0 Example.plainElement ['0']).bind
      (fun d1 => (QtMultiSpinBox.takeSpinElement d1 0).map
        (fun r => (r.2.lineEdit.text, r.2.elementDatas.length))) =
      some (['[', '0', '0', '1', '2', ':', '0', '1'], 2) := by
  decide

/-- C10 (amended): for every state whose buffer `checkAndSplit` accepts and every index,
section and suffix that satisfy the preconditions of `insertSpinElement`, provided the
new slot is inserted at the end or `simplify(suffix)` does not occur in
`simplified(default text) ++ simplify(suffix)` before the offset
`|simplified(default text)|`, `insertSpinElement(index, section, suffix)` immediately
followed by `takeSpinElement(index)` restores the prior buffer text and the prior
section count (indeed the prior slots). -/
theorem insert_take_inverse (d : QtMultiSpinBoxPrivate) (result : List QStringRef)
    (index : Nat) (element : QtMultiSpinBoxElement) (suffix : QString)
    (hsplit : d.checkAndSplit d.lineEdit.text [] = (true, result))
    (hindex : index ≤ d.elementDatas.length)
    (hsuffix : d.elementDatas.length ≥ 1 → index ≠ d.elementDatas.length →
      QtMultiSpinBoxPrivate.simplify suffix ≠ [])
    (hbefore : d.elementDatas.length ≥ 1 → index ≠ 0 →
      ∀ e, d.elementDatas[index - 1]? = some e → e.suffix ≠ [])
    (hdelim : index = d.elementDatas.length ∨
      NoEarlierSuffix (QString.simplified (element.textFromValue element.defaultValue))
        (QtMultiSpinBoxPrivate.simplify suffix)) :
    ∃ d1 e d2,
      QtMultiSpinBox.insertSpinElement d (index : Int) element suffix = some d1 ∧
      QtMultiSpinBox.takeSpinElement d1 (index : Int) = some (e, d2) ∧
      d2.lineEdit.text = d.lineEdit.text ∧
      d2.elementDatas.length = d.elementDatas.length ∧
      d2.elementDatas = d.elementDatas := by
  obtain ⟨ss, hs, _, _⟩ := checkAndSplit_true d _ result hsplit
  rcases hdelim with hlast | hdelim
  · subst hlast
    obtain ⟨d1, e, d2, h1, h2, h3, h4⟩ :=
      insert_take_last d ss element suffix hs hsuffix hbefore
    exact ⟨d1, e, d2, h1, h2, h3, by rw [h4], h4⟩
  · obtain ⟨d1, e, d2, h1, h2, h3, h4⟩ :=
      insert_take_delimited d ss index element suffix hs hindex hsuffix hbefore hdelim
    exact ⟨d1, e, d2, h1, h2, h3, by rw [h4], h4⟩

/-- Witness for C10 (amended): inserting a section with the suffix "-" at index 1 of
the example widget and taking it out again restores the buffer "[12:01" and the two
slots. -/
theorem insert_take_inverse_witness :
    ∃ d1 e d2,
      QtMultiSpinBox.insertSpinElement Example.clock 1 Example.plainElement ['-'] =
        some d1 ∧
      QtMultiSpinBox.takeSpinElement d1 1 = some (e, d2) ∧
      d2.lineEdit.text = ['[', '1', '2', ':', '0', '1'] ∧
      d2.elementDatas.length = 2 :=
  let ⟨d1, e, d2, h1, h2, h3, h4, _⟩ :=
    insert_take_inverse Example.clock
      [⟨Example.clock.lineEdit.text, 1, 2⟩, ⟨Example.clock.lineEdit.text, 4, 2⟩]
      1 Example.plainElement ['-'] (by decide) (by decide) (fun _ _ => by decide)
      (fun _ _ e he => by
        have h : e = ⟨Example.plainElement, [':']⟩ := by
          simpa [Example.clock] using he.symm
        rw [h]
        decide)
      (Or.inr (by decide))
  ⟨d1, e, d2, h1, h2, h3, h4⟩

/-! ## The current section index -/

/-- C16: after `setCurrentSectionIndex(index)` the stored current section index is `-1`
when there is no section, `0` when there are sections and `index` is negative or not
below the section count, and `index` otherwise; every call appends exactly one
`currentSectionIndexChanged` notification (its payload is the argument), whether or not
the stored value changed, and nothing else changes. -/
theorem setCurrentSectionIndex_stored (d : QtMultiSpinBoxPrivate) (index : Int) :
    (d.elementDatas.length = 0 →
      (QtMultiSpinBox.setCurrentSectionIndex d index).currentSectionIndex = -1) ∧
    (d.elementDatas.length ≠ 0 → (index < 0 ∨ index ≥ (d.elementDatas.length : Int)) →
      (QtMultiSpinBox.setCurrentSectionIndex d index).currentSectionIndex = 0) ∧
    (d.elementDatas.length ≠ 0 → 0 ≤ index → index < (d.elementDatas.length : Int) →
      (QtMultiSpinBox.setCurrentSectionIndex d index).currentSectionIndex = index) ∧
    (QtMultiSpinBox.setCurrentSectionIndex d index).emitted = d.emitted ++ [index] ∧
    (QtMultiSpinBox.setCurrentSectionIndex d index).elementDatas = d.elementDatas ∧
    (QtMultiSpinBox.setCurrentSectionIndex d index).lineEdit = d.lineEdit ∧
    (QtMultiSpinBox.setCurrentSectionIndex d index).prefixText = d.prefixText := by
  simp only [QtMultiSpinBox.setCurrentSectionIndex, QtMultiSpinBox.count]
  refine ⟨?_, ?_, ?_, ?_, ?_, ?_, ?_⟩
  · intro h
    rw [if_pos (by omega)]
  · intro h hr
    rw [if_neg (by omega), if_pos hr]
  · intro h h0 h1
    rw [if_neg (by omega), if_neg (by omega)]
  all_goals split_ifs <;> rfl

/-- Witness for C16 on the example widget: index 7 is out of range and gives the stored
index 0, and one notification 7 is appended. -/
theorem setCurrentSectionIndex_stored_witness :
    (QtMultiSpinBox.setCurrentSectionIndex Example.clock 7).currentSectionIndex = 0 ∧
    (QtMultiSpinBox.setCurrentSectionIndex Example.clock 7).emitted = [7] :=
  ⟨(setCurrentSectionIndex_stored Example.clock 7).2.1 (by decide) (by decide),
    (setCurrentSectionIndex_stored Example.clock 7).2.2.2.1⟩

/-- C19, evaluated on the example widget, whose suffixes ":" and "" satisfy the
invariant: `setSuffix(0, "")` succeeds, stores the empty suffix for slot 0 and leaves the
buffer "[1201", so that a slot that is not the last has an empty suffix. -/
theorem setSuffix_empty_not_last :
    SuffixInvariant Example.clock.elementDatas ∧
    (QtMultiSpinBox.setSuffix Example.clock 0 []).map
      (fun d => (d.elementDatas.map (fun e => e.suffix), d.lineEdit.text)) =
      some ([[], []], ['[', '1', '2', '0', '1']) ∧
    (∀ d, QtMultiSpinBox.setSuffix Example.clock 0 [] = some d →
      ¬ SuffixInvariant d.elementDatas) := by
  refine ⟨by decide, by decide, ?_⟩
  intro d hd
  have h : (QtMultiSpinBox.setSuffix Example.clock 0 []).map
      (fun d => d.elementDatas.map (fun e => e.suffix)) = some [[], []] := by decide
  rw [hd] at h
  simp only [Option.map_some', Option.some.injEq] at h
  intro hinv
  cases hel : d.elementDatas with
  | nil => simp [hel] at h
  | cons e rest =>
    rw [hel] at h hinv
    simp only [List.map_cons, List.cons.injEq] at h
    obtain ⟨h1, h2⟩ := h
    have hr : rest ≠ [] := by
      intro hc
      rw [hc] at h2
      simp at h2
    exact ((suffixInvariant_cons e rest).mp hinv).1 hr h1

/-- C17, checked in `QMultiSpinBox`.  `takeSpinElement(index)` changes the current
section index only when it equals `index`: whenever the current section index is above
`index`, it is left as it was, while the section count goes down by one.  In a
`QMultiSpinBox` filled by two `insertSpinElement` calls, with section 1 made current by
`setCurrentSectionIndex(1)`, `takeSpinElement(0)` leaves the current section index 1
although only one section is left. -/
theorem takeSpinElement_stale_index :
    (∀ (d : QMultiSpinBoxPrivate) (index : Int), 0 ≤ index →
      index < QMultiSpinBox.elementCount d → index < d.currentSectionIndex →
      ∃ r, QMultiSpinBox.takeSpinElement d index = some r ∧
        r.2.currentSectionIndex = d.currentSectionIndex ∧
        QMultiSpinBox.elementCount r.2 = QMultiSpinBox.elementCount d - 1) ∧
    (∃ q1 q2,
      QMultiSpinBox.insertSpinElement QMultiSpinBoxPrivate.empty 0 Example.digitPair [':'] =
        Checked.done q1 ∧
      QMultiSpinBox.insertSpinElement q1 1 Example.digitPair [] = Checked.done q2 ∧
      (QMultiSpinBox.setCurrentSectionIndex q2 1).currentSectionIndex = 1 ∧
      QMultiSpinBox.elementCount (QMultiSpinBox.setCurrentSectionIndex q2 1) = 2 ∧
      (QMultiSpinBox.takeSpinElement (QMultiSpinBox.setCurrentSectionIndex q2 1) 0).map
        (fun r => (r.2.currentSectionIndex, QMultiSpinBox.elementCount r.2)) =
        some (1, 1)) := by
  refine ⟨?_, ⟨_, _, rfl, rfl, by decide, by decide, by decide⟩⟩
  intro d index h0 h1 h2
  simp only [QMultiSpinBox.elementCount] at h1
  have hlt : index.toNat < d.elementDatas.length := by omega
  have hne : ¬ (d.currentSectionIndex = index) := by omega
  simp only [QMultiSpinBox.takeSpinElement, QMultiSpinBox.elementCount,
    QMultiSpinBoxPrivate.take]
  rw [if_neg (by omega), List.getElem?_eq_getElem hlt]
  refine ⟨_, rfl, ?_, ?_⟩
  · simp [QMultiSpinBoxPrivate.invalidateText, hne]
  · simp only [QMultiSpinBoxPrivate.invalidateText, QMultiSpinBox.elementCount]
    split_ifs <;>
    · simp only [List.length_append, List.length_take, List.length_map, List.length_drop]
      omega

/-! ## Preconditions of `QMultiSpinBox::insertSpinElement` -/

theorem ite_failed {σ : Type} (c : Prop) [Decidable c] (s : σ) (x : Checked σ)
    (h : ¬ c → x = Checked.failed s) :
    (if c then Checked.failed s else x) = Checked.failed s := by
  by_cases hc : c
  · rw [if_pos hc]
  · rw [if_neg hc]
    exact h hc

/-- C20: `QMultiSpinBox::insertSpinElement` fails at an assertion, with the state (slot
list, prefix, text, current section index) exactly as it was before the call, whenever
`index` is outside `[0, count]`, `minimumInputLength` is not in
`[1, maximumInputLength]`, the length of the default text is outside
`[minimumInputLength, maximumInputLength]`, or the element's `acceptableChar` accepts
one of NUL, tab, line feed, carriage return, space and non-breaking space. -/
theorem insertSpinElement_rejects (d : QMultiSpinBoxPrivate) (index : Int)
    (element : QMultiSpinBoxElement) (suffix : QString)
    (h : index < 0 ∨ index > QMultiSpinBox.elementCount d ∨
      ¬ (1 ≤ element.minimumInputLength ∧
        element.minimumInputLength ≤ element.maximumInputLength) ∨
      (element.defaultText.length : Int) < element.minimumInputLength ∨
      (element.defaultText.length : Int) > element.maximumInputLength ∨
      ∃ c ∈ QMultiSpinBox.reservedChars, element.acceptableChar c = true) :
    QMultiSpinBox.insertSpinElement d index element suffix = Checked.failed d := by
  unfold QMultiSpinBox.insertSpinElement
  refine ite_failed _ _ _ (fun h1 => ?_)
  refine ite_failed _ _ _ (fun h2 => ?_)
  refine ite_failed _ _ _ (fun h3 => ?_)
  dsimp only
  refine ite_failed _ _ _ (fun h4 => ?_)
  refine ite_failed _ _ _ (fun h5 => ?_)
  refine ite_failed _ _ _ (fun h6 => ?_)
  refine ite_failed _ _ _ (fun h7 => ?_)
  refine ite_failed _ _ _ (fun h8 => ?_)
  refine ite_failed _ _ _ (fun h9 => ?_)
  refine ite_failed _ _ _ (fun h10 => ?_)
  refine ite_failed _ _ _ (fun h11 => ?_)
  exfalso
  rcases h with h | h | h | h | h | ⟨c, hc, hacc⟩
  · omega
  · omega
  · omega
  · omega
  · omega
  · simp only [QMultiSpinBox.reservedChars, List.mem_cons, List.mem_singleton,
      List.not_mem_nil, or_false] at hc
    rcases hc with hc | hc | hc | hc | hc | hc <;> subst hc
    · exact h6 hacc
    · exact h7 hacc
    · exact h8 hacc
    · exact h9 hacc
    · exact h10 hacc
    · exact h11 hacc

/-- Witness for C20: a section that accepts the space is refused by the empty widget,
which stays as it was. -/
theorem insertSpinElement_rejects_witness :
    QMultiSpinBox.insertSpinElement QMultiSpinBoxPrivate.empty 0 Example.spacedPair [':'] =
      Checked.failed QMultiSpinBoxPrivate.empty :=
  insertSpinElement_rejects QMultiSpinBoxPrivate.empty 0 Example.spacedPair [':']
    (Or.inr (Or.inr (Or.inr (Or.inr (Or.inr ⟨' ', by decide, by decide⟩)))))

/-! ## The scenario -/

/-- Counterexample to C13 as stated: in the widget of the scenario (leading string "[",
two two-digit sections with the suffixes ":" and "", buffer "[12:01"),
`removeSpinElement(0)` leaves one section and the buffer "[01", not "[00". -/
theorem removeSpinElement_scenario_counterexample :
    Example.scenario.prefixText = ['['] ∧
    Example.scenario.elementDatas.map (fun e => e.suffix) = [[':'], []] ∧
    Example.scenario.lineEdit.text = ['[', '1', '2', ':', '0', '1'] ∧
    (QtMultiSpinBox.removeSpinElement Example.scenario 0).map
      (fun d => (d.lineEdit.text, d.elementDatas.length)) = some (['[', '0', '1'], 1) ∧
    (QtMultiSpinBox.removeSpinElement Example.scenario 0).map (fun d => d.lineEdit.text) ≠
      some ['[', '0', '0'] := by
  decide

/-- C13 (amended): in a state with the leading string "[", two sections with the
suffixes ":" and "", and the buffer "[12:01", `removeSpinElement(0)` leaves the buffer
equal to "[01" (the text of the remaining section is kept, not reset to its default
text) and the section count equal to 1.  This holds whatever the two sections, the
current section index and the cursor are. -/
theorem removeSpinElement_scenario (e1 e2 : QtMultiSpinBoxElement) (csi : Int)
    (cursor : Nat) (emitted : List Int) :
    ∃ d1,
      QtMultiSpinBox.removeSpinElement
        { currentSectionIndex := csi
          prefixText := ['[']
          elementDatas := [⟨e1, [':']⟩, ⟨e2, []⟩]
          lineEdit := ⟨['[', '1', '2', ':', '0', '1'], cursor⟩
          emitted := emitted } 0 = some d1 ∧
      d1.lineEdit.text = ['[', '0', '1'] ∧
      d1.elementDatas.length = 1 := by
  have hs : splitInput
      { currentSectionIndex := csi
        prefixText := ['[']
        elementDatas := [⟨e1, [':']⟩, ⟨e2, []⟩]
        lineEdit := ⟨['[', '1', '2', ':', '0', '1'], cursor⟩
        emitted := emitted } ['[', '1', '2', ':', '0', '1'] =
      some [['1', '2'], ['0', '1']] := rfl
  obtain ⟨e, _, ht⟩ := take_spec _ _ 0 hs (by simp)
  obtain ⟨d2, h1, h2, h3, _⟩ := takeSpinElement_of_take _ _ 0 e (by simp) ht
  refine ⟨d2, ?_, ?_, ?_⟩
  · simp only [QtMultiSpinBox.removeSpinElement]
    have h1' : QtMultiSpinBox.takeSpinElement
        { currentSectionIndex := csi
          prefixText := ['[']
          elementDatas := [⟨e1, [':']⟩, ⟨e2, []⟩]
          lineEdit := ⟨['[', '1', '2', ':', '0', '1'], cursor⟩
          emitted := emitted } 0 = some (e.element, d2) := h1
    rw [h1']
    rfl
  · rw [h3]
    rfl
  · rw [h2]
    rfl

/-! ## The suffix invariant -/

theorem insert_length_le (s : QString) (i : Nat) (str : QString) :
    s.length ≤ (QString.insert s i str).length := by
  simp only [QString.insert]
  split_ifs
  · exact le_refl _
  · simp only [List.length_append, List.length_take, List.length_drop, List.length_replicate]
    omega

theorem simplifyLeading_length (text : QString) : ∀ (fuel index : Nat) (s : QString),
    s.length ≤ (QtMultiSpinBoxPrivate.simplifyLeading text fuel index s).length := by
  intro fuel
  induction fuel with
  | zero =>
    intro index s
    exact le_refl _
  | succ fuel ih =>
    intro index s
    simp only [QtMultiSpinBoxPrivate.simplifyLeading]
    split_ifs
    · exact le_trans (insert_length_le s index [' ']) (ih _ _)
    · exact le_refl _

theorem simplifyTrailing_length (text : QString) : ∀ (fuel index : Nat) (s : QString),
    s.length ≤ (QtMultiSpinBoxPrivate.simplifyTrailing text fuel index s).length := by
  intro fuel
  induction fuel with
  | zero =>
    intro index s
    exact le_refl _
  | succ fuel ih =>
    intro index s
    simp only [QtMultiSpinBoxPrivate.simplifyTrailing]
    split_ifs
    · exact le_trans (insert_length_le s _ [' ']) (ih _ _)
    · exact le_refl _

theorem simplify_eq_nil_iff (text : QString) :
    QtMultiSpinBoxPrivate.simplify text = [] ↔ text = [] := by
  constructor
  · intro h
    by_contra hne
    simp only [QtMultiSpinBoxPrivate.simplify, if_neg hne] at h
    have hpos : 0 < (QtMultiSpinBoxPrivate.simplifyLeading text text.length 0
        (QString.simplified text)).length := by
      cases text with
      | nil => exact absurd rfl hne
      | cons c rest =>
        by_cases hsp : QString.isSpace c = true
        · simp only [List.length_cons, QtMultiSpinBoxPrivate.simplifyLeading]
          rw [if_pos ⟨by omega, by simpa using hsp⟩]
          refine lt_of_lt_of_le ?_ (simplifyLeading_length _ _ _ _)
          simp only [QString.insert]
          simp
        · refine lt_of_lt_of_le ?_ (simplifyLeading_length _ _ _ _)
          simp only [QString.simplified, QString.simplifiedAux, hsp]
          simp
    split_ifs at h with hw
    · have := simplifyTrailing_length text text.length 0
        (QtMultiSpinBoxPrivate.simplifyLeading text text.length 0 (QString.simplified text))
      rw [h] at this
      simp only [List.length_nil] at this
      omega
    · rw [h] at hpos
      simp at hpos
  · intro h
    simp [QtMultiSpinBoxPrivate.simplify, h]

theorem suffixInvariant_eraseIdx : ∀ (es : List QtMultiSpinBoxData) (i : Nat),
    SuffixInvariant es → SuffixInvariant (es.eraseIdx i) := by
  intro es
  induction es with
  | nil =>
    intro i h
    simpa using h
  | cons e rest ih =>
    intro i h
    obtain ⟨h1, h2⟩ := (suffixInvariant_cons e rest).mp h
    cases i with
    | zero => simpa using h2
    | succ i =>
      simp only [List.eraseIdx_cons_succ]
      rw [suffixInvariant_cons]
      refine ⟨fun hne => h1 ?_, ih i h2⟩
      intro hc
      rw [hc] at hne
      simp at hne

theorem insertSpinElement_some (d d1 : QtMultiSpinBoxPrivate) (index : Int)
    (element : QtMultiSpinBoxElement) (suffix : QString)
    (h : QtMultiSpinBox.insertSpinElement d index element suffix = some d1) :
    ∃ i : Nat, index = (i : Int) ∧ i ≤ d.elementDatas.length ∧
      (i < d.elementDatas.length → QtMultiSpinBoxPrivate.simplify suffix ≠ []) ∧
      (i ≠ 0 → ∀ e, d.elementDatas[i - 1]? = some e → e.suffix ≠ []) ∧
      d1.elementDatas = d.elementDatas.take i ++
        [⟨element, QtMultiSpinBoxPrivate.simplify suffix⟩] ++ d.elementDatas.drop i := by
  simp only [QtMultiSpinBox.insertSpinElement, QtMultiSpinBox.count] at h
  split_ifs at h with h1 h2 h3
  refine ⟨index.toNat, by omega, by omega, ?_, ?_, ?_⟩
  · intro hlt hemp
    exact h2 ⟨by omega, by omega, hemp⟩
  · intro hne e he hemp
    apply h3
    refine ⟨by omega, by omega, ?_⟩
    have hi : (index - 1).toNat = index.toNat - 1 := by omega
    rw [hi, he]
    simpa using hemp
  · simp only [QtMultiSpinBoxPrivate.insert] at h
    split at h
    · cases h
    · split_ifs at h
      simp only [Option.some.injEq] at h
      rw [← h]

theorem takeSpinElement_some (d d1 : QtMultiSpinBoxPrivate) (index : Int)
    (element : QtMultiSpinBoxElement)
    (h : QtMultiSpinBox.takeSpinElement d index = some (element, d1)) :
    ∃ i : Nat, index = (i : Int) ∧ i < d.elementDatas.length ∧
      d1.elementDatas = d.elementDatas.eraseIdx i := by
  simp only [QtMultiSpinBox.takeSpinElement, QtMultiSpinBox.count] at h
  split_ifs at h with h1
  refine ⟨index.toNat, by omega, by omega, ?_⟩
  cases ht : d.take index.toNat with
  | none => simp [ht] at h
  | some r =>
    obtain ⟨eData, d2⟩ := r
    simp only [ht] at h
    have hd2 : d2.elementDatas = d.elementDatas.eraseIdx index.toNat := by
      simp only [QtMultiSpinBoxPrivate.take] at ht
      split at ht
      · cases ht
      · split at ht
        · cases ht
        · split_ifs at ht
          split at ht
          · cases ht
          · simp only [Option.some.injEq, Prod.mk.injEq] at ht
            rw [← ht.2]
    split_ifs at h
    · simp only [Option.some.injEq, Prod.mk.injEq] at h
      rw [← h.2]
      exact hd2
    · simp only [Option.some.injEq, Prod.mk.injEq] at h
      rw [← h.2]
      exact hd2

theorem reachable_suffixInvariant (d : QtMultiSpinBoxPrivate) (h : Reachable d) :
    SuffixInvariant d.elementDatas := by
  induction h with
  | empty => simp [QtMultiSpinBoxPrivate.empty, SuffixInvariant]
  | insert d d1 index element suffix _ hins ih =>
    obtain ⟨i, _, hi, hs, hb, hel⟩ := insertSpinElement_some d d1 index element suffix hins
    rw [hel]
    exact suffixInvariant_insert _ i _ hi ih hs hb
  | take d d1 index element _ htake ih =>
    obtain ⟨i, _, _, hel⟩ := takeSpinElement_some d d1 index element htake
    rw [hel]
    exact suffixInvariant_eraseIdx _ i ih

/-- C18: in every state reachable from the empty model by `insertSpinElement` calls
whose assertions hold and by `takeSpinElement` calls, every slot except the last has a
non-empty stored suffix.  The suffix stored by `insertSpinElement` is
`simplify(suffix)`, and `simplify` returns the empty string only for the empty string,
so a whitespace-only suffix is stored as a non-empty string. -/
theorem suffixInvariant_insert_take :
    (∀ d, Reachable d → SuffixInvariant d.elementDatas) ∧
    (∀ s, QtMultiSpinBoxPrivate.simplify s = [] ↔ s = []) ∧
    (∀ d d1 index element suffix,
      QtMultiSpinBox.insertSpinElement d index element suffix = some d1 →
      ∃ i : Nat, index = (i : Int) ∧
        ∃ x, d1.elementDatas[i]? = some x ∧
          x.suffix = QtMultiSpinBoxPrivate.simplify suffix ∧
          (suffix ≠ [] → x.suffix ≠ [])) := by
  refine ⟨reachable_suffixInvariant, simplify_eq_nil_iff, ?_⟩
  intro d d1 index element suffix h
  obtain ⟨i, hidx, hi, _, _, hel⟩ := insertSpinElement_some d d1 index element suffix h
  refine ⟨i, hidx, ⟨element, QtMultiSpinBoxPrivate.simplify suffix⟩, ?_, rfl, ?_⟩
  · rw [hel]
    have hl : (d.elementDatas.take i).length = i := by simp [hi]
    simp only [List.append_assoc]
    rw [List.getElem?_append_right (by omega), hl]
    simp
  · intro hne hc
    exact hne ((simplify_eq_nil_iff suffix).mp hc)

/-- Witness for C18: inserting a section with the suffix " " (one space) into the empty
model and a second one with the empty suffix after it gives a reachable state with the
stored suffixes " " and "", which satisfies the invariant. -/
theorem suffixInvariant_insert_take_witness :
    ∃ d1 d2,
      QtMultiSpinBox.insertSpinElement QtMultiSpinBoxPrivate.empty 0
        Example.plainElement [' '] = some d1 ∧
      QtMultiSpinBox.insertSpinElement d1 1 Example.plainElement [] = some d2 ∧
      d2.elementDatas.map (fun e => e.suffix) = [[' '], []] ∧
      SuffixInvariant d2.elementDatas :=
  ⟨_, _, rfl, rfl, by decide,
    suffixInvariant_insert_take.1 _
      (Reachable.insert _ _ 1 Example.plainElement []
        (Reachable.insert _ _ 0 Example.plainElement [' '] Reachable.empty rfl) rfl)⟩

/-! ## `textAt` and `setTextAt` -/

theorem textAt_spec (d : QtMultiSpinBoxPrivate) (input : QString) (ss : List QString)
    (j : Nat) (hs : splitInput d input = some ss) (hj : j < d.elementDatas.length) :
    d.textAt input (j : Int) = ss[j]? := by
  obtain ⟨hlen, _, hdrop, _, _⟩ := splitInput_sound d input ss hs
  have hcs := (checkAndSplit_spec d input []).1 ss hs
  simp only [List.nil_append] at hcs
  have hml := mkSpans_length input ss d.elementDatas d.prefixText.length hlen
  have hmap := mkSpans_toString input ss d.elementDatas d.prefixText.length hlen hdrop
  simp only [QtMultiSpinBoxPrivate.textAt, hcs, hml]
  rw [if_neg (by simp), if_neg (by omega)]
  simp only [Int.toNat_ofNat]
  have hjl : j < (mkSpans input d.prefixText.length ss d.elementDatas).length := by omega
  rw [List.getD_eq_getElem _ _ hjl]
  have h1 : (List.map QStringRef.toString
      (mkSpans input d.prefixText.length ss d.elementDatas))[j]? = ss[j]? := by rw [hmap]
  rw [List.getElem?_map, List.getElem?_eq_getElem hjl] at h1
  rw [← h1]
  rfl

theorem concatSlots_cons_drop (ss : List QString) (es : List QtMultiSpinBoxData) (i : Nat)
    (hi : i < es.length) (hlen : ss.length = es.length) :
    concatSlots (ss.drop i) (es.drop i) =
      ss[i] ++ es[i].suffix ++ concatSlots (ss.drop (i + 1)) (es.drop (i + 1)) := by
  rw [List.drop_eq_getElem_cons (by omega : i < ss.length), List.drop_eq_getElem_cons hi]
  rfl

theorem concatSlots_set (ss : List QString) (es : List QtMultiSpinBoxData) (i : Nat)
    (t : QString) (hi : i < es.length) (hlen : ss.length = es.length) :
    concatSlots (ss.set i t) es =
      concatSlots (ss.take i) (es.take i) ++
        (t ++ es[i].suffix ++ concatSlots (ss.drop (i + 1)) (es.drop (i + 1))) := by
  have h1 : ss.set i t = ss.take i ++ t :: ss.drop (i + 1) :=
    List.set_eq_take_cons_drop t (by omega)
  have h2 : es = es.take i ++ es[i] :: es.drop (i + 1) := by
    rw [← List.drop_eq_getElem_cons hi, List.take_append_drop]
  rw [h1]
  conv_lhs => rw [h2]
  rw [concatSlots_append _ _ _ _ (by simp [hlen])]
  rfl

theorem setTextAt_raw (d : QtMultiSpinBoxPrivate) (input : QString)
    (result : List QStringRef) (i : Nat) (t : QString) (sp : QStringRef)
    (hsplit : d.checkAndSplit input [] = (true, result)) (hsp : result[i]? = some sp) :
    d.setTextAt input (i : Int) t =
      some (input.take sp.position ++ t ++ input.drop (sp.position + sp.size)) := by
  obtain ⟨ss, hs, hres, _⟩ := checkAndSplit_true d input result hsplit
  obtain ⟨_, htext, _, _, _⟩ := splitInput_sound d input ss hs
  have hjl : i < result.length := by
    by_contra hc
    rw [List.getElem?_eq_none (by omega)] at hsp
    cases hsp
  have hget : result[i] = sp := by
    rw [List.getElem?_eq_getElem hjl] at hsp
    exact Option.some.inj hsp
  have hle : sp.position ≤ input.length := by
    rw [hres] at hsp
    obtain ⟨_, hpos, hpos0, _⟩ := mkSpans_getElem input ss d.elementDatas
      d.prefixText.length i sp hsp
    by_cases h0 : sp.size = 0
    · rw [hpos0 h0]
      exact Nat.zero_le _
    · rw [hpos h0]
      conv_rhs => rw [htext]
      exact spanOffset_le _ _ _ _
  simp only [QtMultiSpinBoxPrivate.setTextAt, hsplit]
  rw [if_neg (by simp), if_neg (by omega)]
  simp only [Int.toNat_ofNat]
  rw [List.getD_eq_getElem _ _ hjl, hget]
  simp only [QString.replace, QStringRef.length]
  rw [if_neg (by omega)]

theorem setTextAt_spec (d : QtMultiSpinBoxPrivate) (input : QString) (ss : List QString)
    (i : Nat) (t t0 : QString) (hs : splitInput d input = some ss)
    (hi : i < d.elementDatas.length) (hcur : ss[i]? = some t0) (hne : t0 ≠ []) :
    d.setTextAt input (i : Int) t =
      some (d.prefixText ++ concatSlots (ss.set i t) d.elementDatas) ∧
    ∃ sp, (d.checkAndSplit input []).2[i]? = some sp ∧
      d.prefixText ++ concatSlots (ss.set i t) d.elementDatas =
        input.take sp.position ++ t ++ input.drop (sp.position + sp.size) := by
  obtain ⟨hlen, htext, hdrop, _, _⟩ := splitInput_sound d input ss hs
  have hcs := (checkAndSplit_spec d input []).1 ss hs
  simp only [List.nil_append] at hcs
  have hml := mkSpans_length input ss d.elementDatas d.prefixText.length hlen
  have hjl : i < (mkSpans input d.prefixText.length ss d.elementDatas).length := by omega
  obtain ⟨_, hpos1, _, t1, ht1, hsize⟩ := mkSpans_getElem input ss d.elementDatas
    d.prefixText.length i _ (List.getElem?_eq_getElem hjl)
  have hil : i < ss.length := by omega
  have ht0 : ss[i] = t0 := by
    rw [List.getElem?_eq_getElem hil] at hcur
    exact Option.some.inj hcur
  rw [hcur] at ht1
  simp only [Option.some.injEq] at ht1
  subst ht1
  have hsz : (mkSpans input d.prefixText.length ss d.elementDatas)[i].size ≠ 0 := by
    rw [hsize]
    intro hc
    exact hne (List.eq_nil_of_length_eq_zero hc)
  have hpos := hpos1 hsz
  obtain ⟨h1, h2⟩ := take_prefix_concat d.prefixText ss d.elementDatas i
  rw [← htext] at h1 h2
  have hdd : input.drop (spanOffset d.prefixText.length ss d.elementDatas i + ss[i].length) =
      d.elementDatas[i].suffix ++
        concatSlots (ss.drop (i + 1)) (d.elementDatas.drop (i + 1)) := by
    rw [← List.drop_drop, h2, concatSlots_cons_drop ss _ i hi hlen, List.append_assoc,
      List.drop_left]
  have hrep : d.prefixText ++ concatSlots (ss.set i t) d.elementDatas =
      input.take (spanOffset d.prefixText.length ss d.elementDatas i) ++ t ++
        input.drop (spanOffset d.prefixText.length ss d.elementDatas i + ss[i].length) := by
    rw [h1, hdd, concatSlots_set ss _ i t hi hlen]
    simp only [List.append_assoc]
  have hraw := setTextAt_raw d input _ i t _ hcs (List.getElem?_eq_getElem hjl)
  constructor
  · rw [hraw, hrep, hpos, hsize, ht0]
  · refine ⟨_, by rw [hcs]; exact List.getElem?_eq_getElem hjl, ?_⟩
    rw [hrep, hpos, hsize, ht0]

theorem delimited_cons (t : QString) (ts : List QString) (e : QtMultiSpinBoxData)
    (es : List QtMultiSpinBoxData) :
    Delimited (t :: ts) (e :: es) ↔
      (e.suffix ≠ [] → NoEarlierSuffix t e.suffix) ∧ Delimited ts es := by
  simp only [Delimited, List.zip_cons_cons, List.mem_cons]
  constructor
  · intro h
    exact ⟨h (t, e) (Or.inl rfl), fun p hp => h p (Or.inr hp)⟩
  · rintro ⟨h1, h2⟩ p (hp | hp)
    · subst hp
      exact h1
    · exact h2 p hp

theorem delimited_set (ss : List QString) (es : List QtMultiSpinBoxData) (i : Nat)
    (t : QString) (hi : i < es.length) (hlen : ss.length = es.length)
    (hd : Delimited ss es) (ht : es[i].suffix ≠ [] → NoEarlierSuffix t es[i].suffix) :
    Delimited (ss.set i t) es := by
  have hl : (ss.take i).length = (es.take i).length := by simp [hlen]
  have h0 : Delimited (ss.take i ++ ss.drop i) (es.take i ++ es.drop i) := by
    rw [List.take_append_drop, List.take_append_drop]
    exact hd
  obtain ⟨h1, h2⟩ := (delimited_append _ _ _ _ hl).mp h0
  rw [List.drop_eq_getElem_cons (by omega : i < ss.length), List.drop_eq_getElem_cons hi,
    delimited_cons] at h2
  have h3 : ss.set i t = ss.take i ++ t :: ss.drop (i + 1) :=
    List.set_eq_take_cons_drop t (by omega)
  have h4 : es = es.take i ++ es[i] :: es.drop (i + 1) := by
    rw [← List.drop_eq_getElem_cons hi, List.take_append_drop]
  rw [h3]
  have h5 : Delimited (ss.take i ++ t :: ss.drop (i + 1))
      (es.take i ++ es[i] :: es.drop (i + 1)) := by
    rw [delimited_append _ _ _ _ hl, delimited_cons]
    exact ⟨h1, ht, h2.2⟩
  rw [← h4] at h5
  exact h5

theorem splitInput_set (d : QtMultiSpinBoxPrivate) (input : QString) (ss : List QString)
    (i : Nat) (t : QString) (hs : splitInput d input = some ss)
    (hi : i < d.elementDatas.length)
    (hdel : d.elementDatas[i].suffix ≠ [] → NoEarlierSuffix t d.elementDatas[i].suffix) :
    splitInput d (d.prefixText ++ concatSlots (ss.set i t) d.elementDatas) =
      some (ss.set i t) := by
  obtain ⟨hlen, _, _, hinv, hsp⟩ := splitInput_sound d input ss hs
  rw [splitInput_append]
  exact splitTexts_complete _ _ (by simp [hlen]) hinv
    (delimited_set ss _ i t hi hlen (splitTexts_delimited _ _ _ hsp) hdel)

/-- Counterexample to C14 as stated, in two parts.  On the buffer "[12:01" of the example
widget (suffixes ":" and ""), `setTextAt(input, 0, "1:2")` gives "[1:2:01", and on that
text `textAt` returns "1" for index 0 and "2:01" for index 1, not "1:2" and "01".  On the
buffer "[:01", where the text of section 0 is empty, `checkAndSplit` returns the span of
section 0 with position 0, `setTextAt(input, 0, "12")` writes there and gives "12[:01",
which `checkAndSplit` rejects, so `textAt` fails on it. -/
theorem textAt_setTextAt_counterexample :
    (Example.clock.checkAndSplit ['[', '1', '2', ':', '0', '1'] []).1 = true ∧
    Example.clock.textAt ['[', '1', '2', ':', '0', '1'] 1 = some ['0', '1'] ∧
    Example.clock.setTextAt ['[', '1', '2', ':', '0', '1'] 0 ['1', ':', '2'] =
      some ['[', '1', ':', '2', ':', '0', '1'] ∧
    Example.clock.textAt ['[', '1', ':', '2', ':', '0', '1'] 0 = some ['1'] ∧
    Example.clock.textAt ['[', '1', ':', '2', ':', '0', '1'] 1 = some ['2', ':', '0', '1'] ∧
    Example.clock.checkAndSplit ['[', ':', '0', '1'] [] =
      (true, [⟨['[', ':', '0', '1'], 0, 0⟩, ⟨['[', ':', '0', '1'], 2, 2⟩]) ∧
    Example.clock.textAt ['[', ':', '0', '1'] 0 = some [] ∧
    Example.clock.setTextAt ['[', ':', '0', '1'] 0 ['1', '2'] =
      some ['1', '2', '[', ':', '0', '1'] ∧
    (Example.clock.checkAndSplit ['1', '2', '[', ':', '0', '1'] []).1 = false ∧
    Example.clock.textAt ['1', '2', '[', ':', '0', '1'] 0 = none := by
  decide

/-- C14 (amended): for every input that `checkAndSplit` accepts, every index `i` in
range at which the text of the section is not empty, and every replacement text `t` such
that the suffix of slot `i`, when non-empty, does not occur in `t ++ suffix_i` before
offset `|t|`, `setTextAt(input, i, t)` and `textAt` on its result succeed,
`textAt(setTextAt(input, i, t), i) = t`, and
`textAt(setTextAt(input, i, t), j) = textAt(input, j)` for every other index `j` in
range. -/
theorem textAt_setTextAt (d : QtMultiSpinBoxPrivate) (input : QString)
    (result : List QStringRef) (i : Nat) (t t0 : QString)
    (hsplit : d.checkAndSplit input [] = (true, result))
    (hi : i < d.elementDatas.length)
    (hcur : d.textAt input (i : Int) = some t0) (hne : t0 ≠ [])
    (hdel : ∀ e, d.elementDatas[i]? = some e → e.suffix ≠ [] → NoEarlierSuffix t e.suffix) :
    ∃ input1, d.setTextAt input (i : Int) t = some input1 ∧
      d.textAt input1 (i : Int) = some t ∧
      ∀ j, j < d.elementDatas.length → j ≠ i →
        ∃ s, d.textAt input (j : Int) = some s ∧ d.textAt input1 (j : Int) = some s := by
  obtain ⟨ss, hs, _, _⟩ := checkAndSplit_true d input result hsplit
  obtain ⟨hlen, _, _, _, _⟩ := splitInput_sound d input ss hs
  rw [textAt_spec d input ss i hs hi] at hcur
  obtain ⟨hset, _⟩ := setTextAt_spec d input ss i t t0 hs hi hcur hne
  have hs1 := splitInput_set d input ss i t hs hi
    (hdel _ (List.getElem?_eq_getElem hi))
  refine ⟨_, hset, ?_, ?_⟩
  · rw [textAt_spec d _ _ i hs1 hi, List.getElem?_set_eq_of_lt t (by omega)]
  · intro j hj hji
    have hjs : j < ss.length := by omega
    refine ⟨ss[j], ?_, ?_⟩
    · rw [textAt_spec d _ _ j hs hj, List.getElem?_eq_getElem]
    · rw [textAt_spec d _ _ j hs1 hj, List.getElem?_set_ne (by omega),
        List.getElem?_eq_getElem]

/-- Witness for C14 (amended): replacing the text of slot 0 of "[12:01" by "7" gives
"[7:01", where slot 0 reads "7" and slot 1 still reads "01". -/
theorem textAt_setTextAt_witness :
    ∃ input1, Example.clock.setTextAt ['[', '1', '2', ':', '0', '1'] 0 ['7'] = some input1 ∧
      Example.clock.textAt input1 0 = some ['7'] :=
  let ⟨input1, h1, h2, _⟩ :=
    textAt_setTextAt Example.clock ['[', '1', '2', ':', '0', '1']
      [⟨['[', '1', '2', ':', '0', '1'], 1, 2⟩, ⟨['[', '1', '2', ':', '0', '1'], 4, 2⟩]
      0 ['7'] ['1', '2'] (by decide) (by decide) (by decide) (by decide)
      (fun e he _ => by
        have h : e = ⟨Example.plainElement, [':']⟩ := by
          simpa [Example.clock] using he.symm
        rw [h]
        decide)
  ⟨input1, h1, h2⟩

/-! ## `stepBy` -/

theorem changeText_spec (edit : QLineEdit) (t : QString) :
    (QtMultiSpinBoxPrivate.changeText edit t).text = t ∧
    (edit.cursorPosition ≤ t.length →
      (QtMultiSpinBoxPrivate.changeText edit t).cursorPosition = edit.cursorPosition) ∧
    (t.length < edit.cursorPosition →
      (QtMultiSpinBoxPrivate.changeText edit t).cursorPosition = t.length) := by
  simp only [QtMultiSpinBoxPrivate.changeText, QLineEdit.setText, QLineEdit.setCursorPosition]
  by_cases h : edit.cursorPosition ≤ t.length
  · rw [if_pos (by omega)]
    exact ⟨rfl, fun _ => by simp, fun h2 => by omega⟩
  · rw [if_neg (by omega)]
    exact ⟨rfl, fun h2 => absurd h2 h, fun _ => rfl⟩

/-- Counterexample to C15 as stated, in two parts.  In the widget `countdown` the buffer
is "[12:10", the cursor is at its end (offset 6) and section 1 is current; `stepBy(-1)`
replaces the span "10" by "9", the buffer becomes "[12:9", and the cursor is at offset 5,
not at the offset 6 it had before the call.  In the widget `blankFirst` the buffer is
"[:01" and the empty section 0 is current; its span is returned with position 0, so
`stepBy(1)` writes the new text "00" in front of the prefix and the buffer becomes
"00[:01". -/
theorem stepBy_cursor_counterexample :
    (Example.countdown.checkAndSplit Example.countdown.lineEdit.text []).1 = true ∧
    Example.countdown.currentSectionIndex = 1 ∧
    Example.countdown.lineEdit.text = ['[', '1', '2', ':', '1', '0'] ∧
    Example.countdown.lineEdit.cursorPosition = 6 ∧
    (QtMultiSpinBox.stepBy Example.countdown (-1)).map
      (fun d => (d.lineEdit.text, d.lineEdit.cursorPosition)) =
      some (['[', '1', '2', ':', '9'], 5) ∧
    Example.blankFirst.checkAndSplit Example.blankFirst.lineEdit.text [] =
      (true, [⟨['[', ':', '0', '1'], 0, 0⟩, ⟨['[', ':', '0', '1'], 2, 2⟩]) ∧
    Example.blankFirst.currentSectionIndex = 0 ∧
    Example.blankFirst.lineEdit.text = ['[', ':', '0', '1'] ∧
    (QtMultiSpinBox.stepBy Example.blankFirst 1).map (fun d => d.lineEdit.text) =
      some ['0', '0', '[', ':', '0', '1'] := by
  decide

/-- C15 (amended): when the current section index is `-1`, `stepBy(steps)` leaves the
state (buffer and cursor included) as it is; when it is a valid index `c` on a buffer
that `checkAndSplit` accepts and the text of section `c` is not empty, the new buffer is
the old one with exactly the span of section `c` replaced by
`textFromValue(section.stepBy(valueFromText(old span text), steps))`, every other
character (prefix, other spans, suffixes) unchanged, and the cursor position is the same
as before the call when it is not beyond the end of the new buffer (otherwise the cursor
is at the end of the new buffer).  The slots and the prefix are left as they are. -/
theorem stepBy_buffer (d : QtMultiSpinBoxPrivate) (steps : Int) :
    (d.currentSectionIndex = -1 → QtMultiSpinBox.stepBy d steps = some d) ∧
    (∀ (result : List QStringRef) (c : Nat) (sp : QStringRef),
      d.checkAndSplit d.lineEdit.text [] = (true, result) →
      d.currentSectionIndex = (c : Int) → c < d.elementDatas.length →
      result[c]? = some sp → sp.size ≠ 0 →
      ∃ e d1, d.elementDatas[c]? = some e ∧
        QtMultiSpinBox.stepBy d steps = some d1 ∧
        d1.lineEdit.text =
          d.lineEdit.text.take sp.position ++
            e.element.textFromValue
              (e.element.stepBy (e.element.valueFromText sp.toString) steps) ++
            d.lineEdit.text.drop (sp.position + sp.size) ∧
        d1.lineEdit.text = d.prefixText ++
          concatSlots
            ((result.map QStringRef.toString).set c
              (e.element.textFromValue
                (e.element.stepBy (e.element.valueFromText sp.toString) steps)))
            d.elementDatas ∧
        (d.lineEdit.cursorPosition ≤ d1.lineEdit.text.length →
          d1.lineEdit.cursorPosition = d.lineEdit.cursorPosition) ∧
        (d1.lineEdit.text.length < d.lineEdit.cursorPosition →
          d1.lineEdit.cursorPosition = d1.lineEdit.text.length) ∧
        d1.elementDatas = d.elementDatas ∧
        d1.prefixText = d.prefixText) := by
  constructor
  · intro h
    simp only [QtMultiSpinBox.stepBy, h]
    rw [if_neg (by decide)]
  · intro result c sp0 hsplit hc hlt hsp0 hsize
    obtain ⟨ss, hs, hres, hmap⟩ := checkAndSplit_true d _ result hsplit
    obtain ⟨hlen, _, hdrop, _, _⟩ := splitInput_sound d _ ss hs
    have hrl : result.length = d.elementDatas.length := by
      rw [hres]
      exact mkSpans_length _ ss _ _ hlen
    have hcr : c < result.length := by omega
    have hcs : c < ss.length := by omega
    have hget : result[c] = sp0 := by
      rw [List.getElem?_eq_getElem hcr] at hsp0
      exact Option.some.inj hsp0
    have hsp : ss[c]? = some sp0.toString := by
      rw [← hmap, List.getElem?_map, List.getElem?_eq_getElem hcr, hget]
      rfl
    have hne : sp0.toString ≠ [] := by
      have hm := hsp0
      rw [hres] at hm
      obtain ⟨_, _, _, t1, ht1, hs1⟩ := mkSpans_getElem _ ss _ _ c sp0 hm
      rw [hsp] at ht1
      simp only [Option.some.injEq] at ht1
      intro hcon
      rw [← ht1, hcon] at hs1
      exact hsize hs1
    have hta := textAt_spec d _ ss c hs hlt
    rw [hsp] at hta
    obtain ⟨new, hnew⟩ : ∃ new, new = d.elementDatas[c].element.textFromValue
        (d.elementDatas[c].element.stepBy
          (d.elementDatas[c].element.valueFromText sp0.toString) steps) := ⟨_, rfl⟩
    obtain ⟨hset, sp, hsp2, hrep⟩ := setTextAt_spec d _ ss c new _ hs hlt hsp hne
    rw [hsplit] at hsp2
    simp only [List.getElem?_eq_getElem hcr, Option.some.injEq] at hsp2
    rw [hget] at hsp2
    subst hsp2
    obtain ⟨hct, hc1, hc2⟩ := changeText_spec d.lineEdit
      (d.prefixText ++ concatSlots (ss.set c new) d.elementDatas)
    refine ⟨d.elementDatas[c],
      { d with
        lineEdit := QtMultiSpinBoxPrivate.changeText d.lineEdit
          (d.prefixText ++ concatSlots (ss.set c new) d.elementDatas) },
      List.getElem?_eq_getElem hlt, ?_, ?_, ?_, ?_, ?_, rfl, rfl⟩
    · simp only [QtMultiSpinBox.stepBy, hc]
      rw [if_pos (by omega)]
      simp only [Int.toNat_ofNat, List.getElem?_eq_getElem hlt, hta, ← hnew, hset, hc]
    · rw [← hnew]
      simp only [hct]
      exact hrep
    · rw [← hnew]
      simp only [hct, hmap]
    · simp only [hct]
      exact hc1
    · simp only [hct]
      exact hc2

/-- Witness for C15 (amended) on the widget of the scenario ("[12:01", cursor at offset
6, section 1 current): `stepBy(1)` gives "[12:02" and leaves the cursor at offset 6. -/
theorem stepBy_buffer_witness :
    ∃ d1, QtMultiSpinBox.stepBy Example.scenario 1 = some d1 ∧
      d1.lineEdit.text = ['[', '1', '2', ':', '0', '2'] ∧
      d1.lineEdit.cursorPosition = 6 := by
  obtain ⟨_, d1, _, h3, _, _, h6, _⟩ :=
    (stepBy_buffer Example.scenario 1).2
      [⟨Example.scenario.lineEdit.text, 1, 2⟩, ⟨Example.scenario.lineEdit.text, 4, 2⟩] 1
      ⟨Example.scenario.lineEdit.text, 4, 2⟩
      (by decide) (by decide) (by decide) rfl (by decide)
  have hmapped : (QtMultiSpinBox.stepBy Example.scenario 1).map (fun d => d.lineEdit.text) =
      some ['[', '1', '2', ':', '0', '2'] := by decide
  rw [h3] at hmapped
  have ht : d1.lineEdit.text = ['[', '1', '2', ':', '0', '2'] := by simpa using hmapped
  exact ⟨d1, h3, ht, h6 (by rw [ht]; decide)⟩

/-! ## Mapping the cursor to a section -/

theorem qIsBetweenEqual_iff (lo hi v : Int) :
    qIsBetweenEqual lo hi v = true ↔ lo ≤ v ∧ v ≤ hi := by
  simp only [qIsBetweenEqual, Bool.and_eq_true, Bool.or_eq_true, beq_iff_eq,
    decide_eq_true_eq]
  omega

theorem cursorLoop_true (p : Int) (rs : List QStringRef) (k : Int) :
    QtMultiSpinBoxPrivate.cursorLoop p rs k true = (k, true) := by
  cases rs <;> simp [QtMultiSpinBoxPrivate.cursorLoop]

theorem cursorLoop_spec (p : Int) : ∀ (rs : List QStringRef) (k : Int),
    (∃ (i : Nat) (sp : QStringRef), rs[i]? = some sp ∧ InSpan sp p ∧
      (∀ (j : Nat) (sp1 : QStringRef), j < i → rs[j]? = some sp1 → ¬ InSpan sp1 p) ∧
      QtMultiSpinBoxPrivate.cursorLoop p rs k false = (k + (i : Int) + 1, true)) ∨
    ((∀ (i : Nat) (sp : QStringRef), rs[i]? = some sp → ¬ InSpan sp p) ∧
      QtMultiSpinBoxPrivate.cursorLoop p rs k false = (k + (rs.length : Int), false)) := by
  intro rs
  induction rs with
  | nil =>
    intro k
    right
    exact ⟨fun i sp h => by simp at h, by simp [QtMultiSpinBoxPrivate.cursorLoop]⟩
  | cons r rest ih =>
    intro k
    simp only [QtMultiSpinBoxPrivate.cursorLoop, Bool.not_false, if_true, QStringRef.length]
    by_cases hin : InSpan r p
    · left
      have hb : qIsBetweenEqual (r.position : Int) ((r.position : Int) + (r.size : Int)) p =
          true := (qIsBetweenEqual_iff _ _ _).mpr hin
      refine ⟨0, r, by simp, hin, fun j sp1 hj => by omega, ?_⟩
      rw [hb, cursorLoop_true]
      simp
    · have hb : qIsBetweenEqual (r.position : Int) ((r.position : Int) + (r.size : Int)) p =
          false := by
        rw [Bool.eq_false_iff]
        intro hc
        exact hin ((qIsBetweenEqual_iff _ _ _).mp hc)
      rw [hb]
      rcases ih (k + 1) with ⟨i, sp, h1, h2, h3, h4⟩ | ⟨h1, h2⟩
      · left
        refine ⟨i + 1, sp, by simpa using h1, h2, ?_, ?_⟩
        · intro j sp1 hj hsp1
          cases j with
          | zero =>
            simp only [List.getElem?_cons_zero, Option.some.injEq] at hsp1
            subst hsp1
            exact hin
          | succ j => exact h3 j sp1 (by omega) (by simpa using hsp1)
        · rw [h4]
          congr 1
          push_cast
          omega
      · right
        refine ⟨?_, ?_⟩
        · intro i sp hsp
          cases i with
          | zero =>
            simp only [List.getElem?_cons_zero, Option.some.injEq] at hsp
            subst hsp
            exact hin
          | succ i => exact h1 i sp (by simpa using hsp)
        · rw [h2]
          congr 1
          simp only [List.length_cons]
          push_cast
          omega

theorem spanOffset_step : ∀ (j p : Nat) (ts : List QString) (es : List QtMultiSpinBoxData)
    (t : QString) (e : QtMultiSpinBoxData), ts[j]? = some t → es[j]? = some e →
    spanOffset p ts es (j + 1) = spanOffset p ts es j + (t.length + e.suffix.length) := by
  intro j
  induction j with
  | zero =>
    intro p ts es t e ht he
    cases ts with
    | nil => simp at ht
    | cons t0 ts =>
      cases es with
      | nil => simp at he
      | cons e0 es =>
        simp only [List.getElem?_cons_zero, Option.some.injEq] at ht he
        subst ht
        subst he
        rw [spanOffset_succ, spanOffset_zero, spanOffset_zero]
  | succ j ih =>
    intro p ts es t e ht he
    cases ts with
    | nil => simp at ht
    | cons t0 ts =>
      cases es with
      | nil => simp at he
      | cons e0 es =>
        rw [spanOffset_succ, spanOffset_succ]
        exact ih _ ts es t e (by simpa using ht) (by simpa using he)

theorem spanOffset_mono_le (p : Nat) (ts : List QString) (es : List QtMultiSpinBoxData)
    (i k : Nat) (h : i ≤ k) : spanOffset p ts es i ≤ spanOffset p ts es k := by
  induction k with
  | zero =>
    have : i = 0 := by omega
    rw [this]
  | succ k ih =>
    by_cases hik : i = k + 1
    · rw [hik]
    · exact le_trans (ih (by omega)) (spanOffset_mono p ts es k)

theorem spans_ordered (d : QtMultiSpinBoxPrivate) (input : QString) (ss : List QString)
    (hs : splitInput d input = some ss) (j i : Nat) (spj : QStringRef)
    (hji : j < i) (hil : i < d.elementDatas.length)
    (hj : (mkSpans input d.prefixText.length ss d.elementDatas)[j]? = some spj) :
    ∃ e, d.elementDatas[j]? = some e ∧ e.suffix ≠ [] ∧
      spanOffset d.prefixText.length ss d.elementDatas j + spj.size + e.suffix.length ≤
        spanOffset d.prefixText.length ss d.elementDatas i := by
  obtain ⟨hlen, _, _, _, _⟩ := splitInput_sound d input ss hs
  obtain ⟨_, _, hinv⟩ := splitInput_index d input ss hs
  obtain ⟨_, _, _, tj, htj, hsj⟩ := mkSpans_getElem input ss _ _ j spj hj
  have hjl : j < d.elementDatas.length := by omega
  refine ⟨d.elementDatas[j], List.getElem?_eq_getElem hjl,
    hinv j _ (List.getElem?_eq_getElem hjl) (by omega), ?_⟩
  have hstep := spanOffset_step j d.prefixText.length ss d.elementDatas tj _ htj
    (List.getElem?_eq_getElem hjl)
  have hmono := spanOffset_mono_le d.prefixText.length ss d.elementDatas (j + 1) i (by omega)
  rw [hsj]
  omega

theorem spans_after_prefix (d : QtMultiSpinBoxPrivate) (ss : List QString) (i : Nat) :
    d.prefixText.length ≤ spanOffset d.prefixText.length ss d.elementDatas i :=
  le_trans (by rw [spanOffset_zero]) (spanOffset_mono_le _ ss _ 0 i (Nat.zero_le _))

theorem cursorPositionChanged_spec (d : QtMultiSpinBoxPrivate) (result : List QStringRef)
    (old p : Int) (hsplit : d.checkAndSplit d.lineEdit.text [] = (true, result)) :
    ∃ d1, d._q_cursorPositionChanged old p = some d1 ∧
      d1.lineEdit = d.lineEdit ∧ d1.elementDatas = d.elementDatas ∧
      d1.prefixText = d.prefixText ∧
      ((∃ (i : Nat) (sp : QStringRef), result[i]? = some sp ∧ InSpan sp p ∧
          (∀ (j : Nat) (sp1 : QStringRef), j < i → result[j]? = some sp1 → ¬ InSpan sp1 p) ∧
          d1.currentSectionIndex = (i : Int)) ∨
        ((∀ (i : Nat) (sp : QStringRef), result[i]? = some sp → ¬ InSpan sp p) ∧
          d1.currentSectionIndex = -1)) := by
  have hfields : ∀ x : Int, ∃ d1,
      (if d.currentSectionIndex ≠ x then
        some { d with currentSectionIndex := x, emitted := d.emitted ++ [x] }
      else some d) = some d1 ∧ d1.lineEdit = d.lineEdit ∧
        d1.elementDatas = d.elementDatas ∧ d1.prefixText = d.prefixText ∧
        d1.currentSectionIndex = x := by
    intro x
    by_cases hx : d.currentSectionIndex = x
    · exact ⟨d, by simp [hx], rfl, rfl, rfl, hx⟩
    · exact ⟨{ d with currentSectionIndex := x, emitted := d.emitted ++ [x] },
        by rw [if_pos hx], rfl, rfl, rfl, rfl⟩
  simp only [QtMultiSpinBoxPrivate._q_cursorPositionChanged, hsplit]
  rw [if_neg (by simp)]
  rcases cursorLoop_spec p result 0 with ⟨i, sp, h1, h2, h3, h4⟩ | ⟨h1, h2⟩
  · obtain ⟨d1, hd1, hl, he, hp, hc⟩ := hfields (i : Int)
    refine ⟨d1, ?_, hl, he, hp, Or.inl ⟨i, sp, h1, h2, h3, hc⟩⟩
    rw [← hd1, h4]
    simp
  · obtain ⟨d1, hd1, hl, he, hp, hc⟩ := hfields (-1)
    refine ⟨d1, ?_, hl, he, hp, Or.inr ⟨h1, hc⟩⟩
    rw [← hd1, h2]
    simp

/-- C11, checked on buffers with an empty section.  For every buffer that
`checkAndSplit` accepts and every new cursor offset `p`, `_q_cursorPositionChanged` sets
the current section index to the smallest `i` whose returned span has
`position ≤ p ≤ position + length`, and to `-1` if no span does.  For a section with a
non-empty text the position is the offset of the text, so a cursor anywhere in its
inclusive range yields its index; a cursor strictly inside the prefix or strictly inside
a suffix yields `-1`.  The span of an empty section is returned with position 0, so the
section is not found where it is: on "[12:" (suffixes ":" and "") the empty section 1
is at offset 4, which is what `textIndex` returns for it, but the cursor at offset 4
yields `-1` and the cursor at offset 0, in front of the prefix, yields 1; on "12-"
(no leading string, suffixes "-" and "") the cursor at offset 3 yields `-1` and the
cursor at offset 0, where both spans are returned, yields 0. -/
theorem cursorPositionChanged_empty_section :
    (∀ (d : QtMultiSpinBoxPrivate) (result : List QStringRef) (old p : Int),
      d.checkAndSplit d.lineEdit.text [] = (true, result) →
      ∃ d1, d._q_cursorPositionChanged old p = some d1 ∧
        d1.lineEdit = d.lineEdit ∧ d1.elementDatas = d.elementDatas ∧
        ((∃ (i : Nat) (sp : QStringRef), result[i]? = some sp ∧ InSpan sp p ∧
            (∀ (j : Nat) (sp1 : QStringRef), j < i → result[j]? = some sp1 →
              ¬ InSpan sp1 p) ∧
            d1.currentSectionIndex = (i : Int)) ∨
          ((∀ (i : Nat) (sp : QStringRef), result[i]? = some sp → ¬ InSpan sp p) ∧
            d1.currentSectionIndex = -1)) ∧
        (∀ (i : Nat) (sp : QStringRef), result[i]? = some sp → sp.size ≠ 0 →
          (sp.position : Int) ≤ p → p ≤ (sp.position : Int) + (sp.size : Int) →
          d1.currentSectionIndex = (i : Int)) ∧
        (0 < p → p < (d.prefixText.length : Int) → d1.currentSectionIndex = -1) ∧
        (∀ (i : Nat) (sp : QStringRef) (e : QtMultiSpinBoxData), result[i]? = some sp →
          d.elementDatas[i]? = some e →
          ((spanOffset d.prefixText.length (result.map QStringRef.toString)
            d.elementDatas i : Nat) : Int) + (sp.size : Int) < p →
          p < ((spanOffset d.prefixText.length (result.map QStringRef.toString)
            d.elementDatas i : Nat) : Int) + (sp.size : Int) + (e.suffix.length : Int) →
          d1.currentSectionIndex = -1) ∧
        (∀ (i : Nat) (sp : QStringRef), result[i]? = some sp → sp.size = 0 →
          sp.position = 0)) ∧
    Example.blankLast.checkAndSplit Example.blankLast.lineEdit.text [] =
      (true, [⟨['[', '1', '2', ':'], 1, 2⟩, ⟨['[', '1', '2', ':'], 0, 0⟩]) ∧
    Example.blankLast.textIndex Example.blankLast.lineEdit.text 1 = some 4 ∧
    (Example.blankLast._q_cursorPositionChanged 0 4).map (fun d => d.currentSectionIndex) =
      some (-1) ∧
    (Example.blankLast._q_cursorPositionChanged 4 0).map (fun d => d.currentSectionIndex) =
      some 1 ∧
    Example.blankRange.checkAndSplit Example.blankRange.lineEdit.text [] =
      (true, [⟨['1', '2', '-'], 0, 2⟩, ⟨['1', '2', '-'], 0, 0⟩]) ∧
    Example.blankRange.textIndex Example.blankRange.lineEdit.text 1 = some 3 ∧
    (Example.blankRange._q_cursorPositionChanged 0 3).map (fun d => d.currentSectionIndex) =
      some (-1) ∧
    (Example.blankRange._q_cursorPositionChanged 3 0).map (fun d => d.currentSectionIndex) =
      some 0 := by
  refine ⟨?_, by decide, by decide, by decide, by decide, by decide, by decide, by decide,
    by decide⟩
  intro d result old p hsplit
  obtain ⟨d1, hd1, hl, he, _, hchar⟩ := cursorPositionChanged_spec d result old p hsplit
  obtain ⟨ss, hs, hres, hmap⟩ := checkAndSplit_true d _ result hsplit
  obtain ⟨hlen, _, _, _, _⟩ := splitInput_sound d _ ss hs
  have hrl : result.length = d.elementDatas.length := by
    rw [hres]
    exact mkSpans_length _ ss _ _ hlen
  have hlt : ∀ (k : Nat) (spk : QStringRef), result[k]? = some spk →
      k < d.elementDatas.length := by
    intro k spk hk
    by_contra hc
    rw [List.getElem?_eq_none (by omega)] at hk
    cases hk
  have hplace : ∀ (k : Nat) (spk : QStringRef), result[k]? = some spk →
      (spk.size ≠ 0 → spk.position = spanOffset d.prefixText.length ss d.elementDatas k) ∧
      (spk.size = 0 → spk.position = 0) := by
    intro k spk hk
    rw [hres] at hk
    obtain ⟨_, h1, h2, _⟩ := mkSpans_getElem _ ss _ _ k spk hk
    exact ⟨h1, h2⟩
  have hord : ∀ (j i : Nat) (spj : QStringRef), j < i → i < d.elementDatas.length →
      result[j]? = some spj →
      ∃ e, d.elementDatas[j]? = some e ∧ 0 < e.suffix.length ∧
        spanOffset d.prefixText.length ss d.elementDatas j + spj.size + e.suffix.length ≤
          spanOffset d.prefixText.length ss d.elementDatas i := by
    intro j i spj hji hil hj
    rw [hres] at hj
    obtain ⟨e, h1, h2, h3⟩ := spans_ordered d _ ss hs j i spj hji hil hj
    exact ⟨e, h1, List.length_pos.mpr h2, h3⟩
  have hpre := spans_after_prefix d ss
  rw [hmap]
  refine ⟨d1, hd1, hl, he, hchar, ?_, ?_, ?_, fun i sp hi h0 => (hplace i sp hi).2 h0⟩
  · intro i sp hi hne h1 h2
    have hpi := (hplace i sp hi).1 hne
    rcases hchar with ⟨i0, sp0, hi0, hin0, hmin, hc⟩ | ⟨hnone, _⟩
    · rcases Nat.lt_trichotomy i0 i with hlt0 | heq | hgt
      · exfalso
        obtain ⟨e, _, hpos, hle⟩ := hord i0 i sp0 hlt0 (hlt i sp hi) hi0
        obtain ⟨hq1, hq2⟩ := hin0
        by_cases hz : sp0.size = 0
        · have := (hplace i0 sp0 hi0).2 hz
          omega
        · have := (hplace i0 sp0 hi0).1 hz
          omega
      · rw [hc, heq]
      · exact absurd ⟨h1, h2⟩ (hmin i sp hgt hi)
    · exact absurd ⟨h1, h2⟩ (hnone i sp hi)
  · intro hp0 hp
    rcases hchar with ⟨i0, sp0, hi0, hin0, _, _⟩ | ⟨_, hc⟩
    · exfalso
      obtain ⟨hq1, hq2⟩ := hin0
      have := hpre i0
      by_cases hz : sp0.size = 0
      · have := (hplace i0 sp0 hi0).2 hz
        omega
      · have := (hplace i0 sp0 hi0).1 hz
        omega
    · exact hc
  · intro i sp e hi hei h1 h2
    rcases hchar with ⟨i0, sp0, hi0, hin0, _, _⟩ | ⟨_, hc⟩
    · exfalso
      obtain ⟨hq1, hq2⟩ := hin0
      by_cases hz : sp0.size = 0
      · have := (hplace i0 sp0 hi0).2 hz
        omega
      · have hp0 := (hplace i0 sp0 hi0).1 hz
        rcases Nat.lt_trichotomy i0 i with hlt0 | heq | hgt
        · obtain ⟨_, _, _, hle⟩ := hord i0 i sp0 hlt0 (hlt i sp hi) hi0
          omega
        · subst heq
          rw [hi] at hi0
          simp only [Option.some.injEq] at hi0
          subst hi0
          omega
        · obtain ⟨e1, he1, _, hle⟩ := hord i i0 sp hgt (hlt i0 sp0 hi0) hi
          rw [hei] at he1
          simp only [Option.some.injEq] at he1
          subst he1
          omega
    · exact hc

/-! ## The scenario, first part -/

/-- `setValue(i, v)` on a buffer that splits into the texts `ss`, when the section does
not reject the text of `v` and section `i` holds a non-empty text `t0`: the text of
section `i` is replaced by the text that the section's `validate` leaves. -/
theorem setValue_spec (d : QtMultiSpinBoxPrivate) (ss : List QString) (i : Nat)
    (v : QVariant) (e : QtMultiSpinBoxData) (t0 : QString)
    (hs : splitInput d d.lineEdit.text = some ss) (he : d.elementDatas[i]? = some e)
    (hv : (e.element.validate (e.element.textFromValue v) 0).1 ≠ QValidator.State.Invalid)
    (hcur : ss[i]? = some t0) (hne : t0 ≠ []) :
    QtMultiSpinBox.setValue d (i : Int) v = some
      { d with
        lineEdit := QtMultiSpinBoxPrivate.changeText d.lineEdit
          (d.prefixText ++ concatSlots
            (ss.set i (e.element.validate (e.element.textFromValue v) 0).2.1)
            d.elementDatas) } := by
  have hi : i < d.elementDatas.length := by
    by_contra hcon
    rw [List.getElem?_eq_none (by omega)] at he
    cases he
  obtain ⟨hset, _⟩ := setTextAt_spec d _ ss i
    (e.element.validate (e.element.textFromValue v) 0).2.1 t0 hs hi hcur hne
  simp only [QtMultiSpinBox.setValue, QtMultiSpinBox.count]
  rw [if_neg (by omega)]
  simp only [Int.toNat_ofNat, he]
  rw [if_neg hv]
  simp only [hset]

/-- `stepBy(steps)` on a buffer that splits into the texts `ss`, with section `c`
current: the non-empty text `t` of section `c` is replaced by the text of the stepped
value. -/
theorem stepBy_spec (d : QtMultiSpinBoxPrivate) (ss : List QString) (c : Nat)
    (steps : Int) (e : QtMultiSpinBoxData) (t : QString)
    (hs : splitInput d d.lineEdit.text = some ss) (hc : d.currentSectionIndex = (c : Int))
    (he : d.elementDatas[c]? = some e) (ht : ss[c]? = some t) (hne : t ≠ []) :
    QtMultiSpinBox.stepBy d steps = some
      { d with
        lineEdit := QtMultiSpinBoxPrivate.changeText d.lineEdit
          (d.prefixText ++ concatSlots
            (ss.set c (e.element.textFromValue
              (e.element.stepBy (e.element.valueFromText t) steps)))
            d.elementDatas) } := by
  have hi : c < d.elementDatas.length := by
    by_contra hcon
    rw [List.getElem?_eq_none (by omega)] at he
    cases he
  have hta := textAt_spec d _ ss c hs hi
  rw [ht] at hta
  obtain ⟨hset, _⟩ := setTextAt_spec d _ ss c
    (e.element.textFromValue (e.element.stepBy (e.element.valueFromText t) steps)) t hs hi
    ht hne
  simp only [QtMultiSpinBox.stepBy, hc]
  rw [if_pos (by omega)]
  simp only [Int.toNat_ofNat, he, hta, hset]

/-- C12: the first part of the scenario.  The two sections are any sections that behave
as the two-digit bounded-integer section of the scenario does on the values met here: the
default text is "00", the text of 12 is "12" and is not rejected nor rewritten by
`validate`, "00" is read as 0, one step up from 0 is 1, and the text of 1 is "01".
Starting from the empty model, `setPrefix("[")`, `insertSpinElement(0, e1, ":")` and
`insertSpinElement(1, e2, "")` succeed and give the buffer "[00:00"; `setValue(0, 12)`
then gives "[12:00"; after `setCurrentSectionIndex(1)` section 1 is current and
`stepBy(1)` gives "[12:01". -/
theorem scenario_first_part (e1 e2 : QtMultiSpinBoxElement)
    (h1d : e1.textFromValue e1.defaultValue = ['0', '0'])
    (h2d : e2.textFromValue e2.defaultValue = ['0', '0'])
    (h1v : e1.textFromValue (QVariant.int 12) = ['1', '2'])
    (h1a : (e1.validate ['1', '2'] 0).1 ≠ QValidator.State.Invalid)
    (h1t : (e1.validate ['1', '2'] 0).2.1 = ['1', '2'])
    (h2p : e2.valueFromText ['0', '0'] = QVariant.int 0)
    (h2s : e2.stepBy (QVariant.int 0) 1 = QVariant.int 1)
    (h2t : e2.textFromValue (QVariant.int 1) = ['0', '1']) :
    ∃ d2 d3 d4 d5,
      QtMultiSpinBox.insertSpinElement
        (QtMultiSpinBox.setPrefix QtMultiSpinBoxPrivate.empty ['[']) 0 e1 [':'] = some d2 ∧
      QtMultiSpinBox.insertSpinElement d2 1 e2 [] = some d3 ∧
      d3.lineEdit.text = ['[', '0', '0', ':', '0', '0'] ∧
      QtMultiSpinBox.count d3 = 2 ∧
      QtMultiSpinBox.setValue d3 0 (QVariant.int 12) = some d4 ∧
      d4.lineEdit.text = ['[', '1', '2', ':', '0', '0'] ∧
      (QtMultiSpinBox.setCurrentSectionIndex d4 1).currentSectionIndex = 1 ∧
      QtMultiSpinBox.stepBy (QtMultiSpinBox.setCurrentSectionIndex d4 1) 1 = some d5 ∧
      d5.lineEdit.text = ['[', '1', '2', ':', '0', '1'] := by
  have hd2 := insertSpinElement_spec
    (QtMultiSpinBox.setPrefix QtMultiSpinBoxPrivate.empty ['[']) [] 0 e1 [':'] rfl
    (by decide) (by decide) (by decide)
  rw [h1d] at hd2
  obtain ⟨d2, hd2eq⟩ : ∃ x : QtMultiSpinBoxPrivate, x =
      { currentSectionIndex := -1, prefixText := ['['], elementDatas := [⟨e1, [':']⟩],
        lineEdit := ⟨['[', '0', '0', ':'], 1⟩, emitted := [] } := ⟨_, rfl⟩
  have hd2s : QtMultiSpinBox.insertSpinElement
      (QtMultiSpinBox.setPrefix QtMultiSpinBoxPrivate.empty ['[']) 0 e1 [':'] = some d2 := by
    rw [hd2eq]
    exact hd2
  have hd3 := insertSpinElement_spec d2 [['0', '0']] 1 e2 [] (by rw [hd2eq]; rfl)
    (by rw [hd2eq]; exact Nat.le_refl 1)
    (by rw [hd2eq]; intro _ h; exact absurd rfl h)
    (by
      rw [hd2eq]
      intro _ _ e he
      cases he
      exact List.cons_ne_nil _ _)
  rw [h2d] at hd3
  obtain ⟨d3, hd3eq⟩ : ∃ x : QtMultiSpinBoxPrivate, x =
      { currentSectionIndex := -1, prefixText := ['['],
        elementDatas := [⟨e1, [':']⟩, ⟨e2, []⟩],
        lineEdit := ⟨['[', '0', '0', ':', '0', '0'], 4⟩, emitted := [] } := ⟨_, rfl⟩
  have hd3s : QtMultiSpinBox.insertSpinElement d2 1 e2 [] = some d3 := by
    rw [hd3eq]
    rw [hd2eq] at hd3 ⊢
    exact hd3
  have hd4 := setValue_spec d3 [['0', '0'], ['0', '0']] 0 (QVariant.int 12) ⟨e1, [':']⟩
    ['0', '0'] (by rw [hd3eq]; rfl) (by rw [hd3eq]; rfl) (by rw [h1v]; exact h1a) rfl
    (List.cons_ne_nil _ _)
  simp only [h1v, h1t] at hd4
  obtain ⟨d4, hd4eq⟩ : ∃ x : QtMultiSpinBoxPrivate, x =
      { currentSectionIndex := -1, prefixText := ['['],
        elementDatas := [⟨e1, [':']⟩, ⟨e2, []⟩],
        lineEdit := ⟨['[', '1', '2', ':', '0', '0'], 4⟩, emitted := [] } := ⟨_, rfl⟩
  have hd4s : QtMultiSpinBox.setValue d3 0 (QVariant.int 12) = some d4 := by
    rw [hd4eq]
    rw [hd3eq] at hd4 ⊢
    exact hd4
  have hcur : (QtMultiSpinBox.setCurrentSectionIndex d4 1).currentSectionIndex = 1 := by
    rw [hd4eq]
    rfl
  have hd5 := stepBy_spec (QtMultiSpinBox.setCurrentSectionIndex d4 1)
    [['1', '2'], ['0', '0']] 1 1 ⟨e2, []⟩ ['0', '0']
    (by rw [hd4eq]; rfl) hcur (by rw [hd4eq]; rfl) rfl (List.cons_ne_nil _ _)
  simp only [h2p, h2s, h2t] at hd5
  refine ⟨d2, d3, d4, _, hd2s, hd3s, by rw [hd3eq], by rw [hd3eq]; rfl, hd4s, by rw [hd4eq],
    hcur, hd5, ?_⟩
  rw [hd4eq]
  rfl

/-- Witness for C12: the two-digit section `Example.twoDigits` meets every condition, so
the scenario runs on two such sections and ends with the buffer "[12:01". -/
theorem scenario_first_part_witness :
    ∃ d2 d3 d4 d5,
      QtMultiSpinBox.insertSpinElement
        (QtMultiSpinBox.setPrefix QtMultiSpinBoxPrivate.empty ['['])
        0 Example.twoDigits [':'] = some d2 ∧
      QtMultiSpinBox.insertSpinElement d2 1 Example.twoDigits [] = some d3 ∧
      d3.lineEdit.text = ['[', '0', '0', ':', '0', '0'] ∧
      QtMultiSpinBox.count d3 = 2 ∧
      QtMultiSpinBox.setValue d3 0 (QVariant.int 12) = some d4 ∧
      d4.lineEdit.text = ['[', '1', '2', ':', '0', '0'] ∧
      (QtMultiSpinBox.setCurrentSectionIndex d4 1).currentSectionIndex = 1 ∧
      QtMultiSpinBox.stepBy (QtMultiSpinBox.setCurrentSectionIndex d4 1) 1 = some d5 ∧
      d5.lineEdit.text = ['[', '1', '2', ':', '0', '1'] :=
  scenario_first_part Example.twoDigits Example.twoDigits (by decide) (by decide)
    (by decide) (by decide) (by decide) (by decide) (by decide) (by decide)

/-! ## The payload of `setCurrentSectionIndex` -/

/-- C26, checked in both variants.  The notification that `setCurrentSectionIndex(index)`
emits carries the argument `index`, whatever is stored.  On the example widget of a
`QtMultiSpinBox` (two sections) the call with index 7 stores 0 and notifies 7; on a
`QMultiSpinBox` with two sections the call with index 7 stores `-1` and notifies 7. -/
theorem setCurrentSectionIndex_payload :
    (∀ (d : QtMultiSpinBoxPrivate) (index : Int),
      (QtMultiSpinBox.setCurrentSectionIndex d index).emitted = d.emitted ++ [index]) ∧
    (QtMultiSpinBox.setCurrentSectionIndex Example.clock 7).currentSectionIndex = 0 ∧
    (QtMultiSpinBox.setCurrentSectionIndex Example.clock 7).emitted = [7] ∧
    (∀ (d : QMultiSpinBoxPrivate) (index : Int),
      (QMultiSpinBox.setCurrentSectionIndex d index).emitted =
        d.emitted ++ [QMultiSpinBoxSignal.currentSectionIndexChanged index]) ∧
    QMultiSpinBox.elementCount Example.timeBox = 2 ∧
    (QMultiSpinBox.setCurrentSectionIndex Example.timeBox 7).currentSectionIndex = -1 ∧
    (QMultiSpinBox.setCurrentSectionIndex Example.timeBox 7).emitted =
      [QMultiSpinBoxSignal.currentSectionIndexChanged 7] := by
  refine ⟨?_, by decide, by decide, ?_, by decide, by decide, by decide⟩
  · intro d index
    simp only [QtMultiSpinBox.setCurrentSectionIndex]
    split_ifs <;> rfl
  · intro d index
    simp only [QMultiSpinBox.setCurrentSectionIndex]
    split_ifs <;> rfl

/-! ## `getSpinElement` -/

/-- C24, checked in both variants.  `QtMultiSpinBox::getSpinElement(index)` returns, for
every valid index, the section of the slot at `index` and leaves the state as it is.
`QMultiSpinBox::getSpinElement(index)` returns the section of the slot at `index` and
leaves the members of the model as they are, but the slot object at `index` has been
deleted when the call returns although its pointer is still in the list: on a
`QMultiSpinBox` with two live slots, `getSpinElement(0)` leaves position 0 deleted, and
a second `getSpinElement(0)` reads a deleted object. -/
theorem getSpinElement_deletes_slot :
    (∀ (d : QtMultiSpinBoxPrivate) (index : Int), 0 ≤ index → index < QtMultiSpinBox.count d →
      ∃ e, d.elementDatas[index.toNat]? = some e ∧
        QtMultiSpinBox.getSpinElement d index = some (e.element, d)) ∧
    (∀ (h : QMultiSpinBoxHeap) (index : Int), 0 ≤ index →
      index < QMultiSpinBox.elementCount h.d → index.toNat ∉ h.deleted →
      ∃ e, h.d.elementDatas[index.toNat]? = some e ∧
        QMultiSpinBox.getSpinElement h index =
          some (e.element, ⟨h.d, index.toNat :: h.deleted⟩) ∧
        QMultiSpinBox.getSpinElement ⟨h.d, index.toNat :: h.deleted⟩ index = none) ∧
    QMultiSpinBox.elementCount Example.timeBox = 2 ∧
    (QMultiSpinBox.getSpinElement ⟨Example.timeBox, []⟩ 0).map (fun r => r.2.deleted) =
      some [0] ∧
    (QMultiSpinBox.getSpinElement ⟨Example.timeBox, [0]⟩ 0).isNone = true := by
  refine ⟨?_, ?_, by decide, by decide, by decide⟩
  · intro d index h0 h1
    simp only [QtMultiSpinBox.count] at h1
    have hlt : index.toNat < d.elementDatas.length := by omega
    refine ⟨d.elementDatas[index.toNat], List.getElem?_eq_getElem hlt, ?_⟩
    simp only [QtMultiSpinBox.getSpinElement, QtMultiSpinBox.count,
      QtMultiSpinBoxPrivate.get]
    rw [if_neg (by omega), if_neg (by omega), List.getElem?_eq_getElem hlt]
  · intro h index h0 h1 hlive
    simp only [QMultiSpinBox.elementCount] at h1
    have hlt : index.toNat < h.d.elementDatas.length := by omega
    refine ⟨h.d.elementDatas[index.toNat], List.getElem?_eq_getElem hlt, ?_, ?_⟩
    · simp only [QMultiSpinBox.getSpinElement, QMultiSpinBox.elementCount,
        QMultiSpinBoxPrivate.get]
      rw [if_neg (by omega), if_neg (by omega), List.getElem?_eq_getElem hlt]
      simp only [if_neg hlive]
    · simp only [QMultiSpinBox.getSpinElement, QMultiSpinBox.elementCount,
        QMultiSpinBoxPrivate.get]
      rw [if_neg (by omega), if_neg (by omega), List.getElem?_eq_getElem hlt]
      simp only [List.mem_cons, true_or, if_true]

/-! ## Sections that accept reserved characters in `QtMultiSpinBox` -/

/-- C21, checked on the empty model.  `QtMultiSpinBox::insertSpinElement` looks at no
character that a section accepts: for every section and every suffix, also for a section
whose `validate` accepts the space, `insertSpinElement(0, section, suffix)` on the empty
model succeeds, and the slot list and the buffer are modified.  The section
`Example.plainElement` accepts the text " " and is inserted; the buffer becomes "00". -/
theorem insertSpinElement_no_reserved_check :
    (∀ (element : QtMultiSpinBoxElement) (suffix : QString),
      ∃ d1, QtMultiSpinBox.insertSpinElement QtMultiSpinBoxPrivate.empty 0 element suffix =
          some d1 ∧
        d1.elementDatas.length = 1 ∧
        d1.lineEdit.text = QString.simplified (element.textFromValue element.defaultValue) ++
          QtMultiSpinBoxPrivate.simplify suffix) ∧
    (Example.plainElement.validate [' '] 0).1 = QValidator.State.Acceptable ∧
    (QtMultiSpinBox.insertSpinElement QtMultiSpinBoxPrivate.empty 0
        Example.plainElement []).map
      (fun d => (d.elementDatas.length, d.lineEdit.text)) = some (1, ['0', '0']) := by
  refine ⟨?_, by decide, by decide⟩
  intro element suffix
  have h := insertSpinElement_spec QtMultiSpinBoxPrivate.empty [] 0 element suffix rfl
    (by decide) (fun _ h0 => absurd rfl h0) (fun _ h0 => absurd rfl h0)
  refine ⟨_, h, ?_, ?_⟩
  · simp [QtMultiSpinBoxPrivate.empty]
  · simp [QtMultiSpinBoxPrivate.empty, concatSlots]

/-! ## `validate` on rejection -/

/-- C25: for every state, text and cursor position, `validate` returns, and whenever its
verdict is `Invalid` the text it leaves in its reference parameter is the text that was
passed in.  This covers a failing `checkAndSplit` and a section that returns `Invalid`,
also after an earlier section has rewritten its fragment: in the widget `padReject` the
first section rewrites "5" to "05", the second one rejects "7", and the text "[5:7" is
left as it was. -/
theorem validate_invalid_keeps_text :
    (∀ (d : QtMultiSpinBoxPrivate) (text : QString) (pos : Int),
      ∃ st text1 pos1, d.validate text pos = some (st, text1, pos1) ∧
        (st = QValidator.State.Invalid → text1 = text)) ∧
    (sectionRuns Example.padReject.elementDatas [['5'], ['7']] 0).map
        (fun r => (r.1, r.2.1)) =
      [(QValidator.State.Acceptable, ['0', '5']), (QValidator.State.Invalid, ['7'])] ∧
    (Example.padReject.validate ['[', '5', ':', '7'] 0).map (fun r => (r.1, r.2.1)) =
      some (QValidator.State.Invalid, ['[', '5', ':', '7']) := by
  refine ⟨?_, by decide, by decide⟩
  intro d text pos
  cases hsplit : d.checkAndSplit text [] with
  | mk ok result =>
    cases ok with
    | false =>
      exact ⟨_, _, _, validate_of_split_fail d text pos (by rw [hsplit]), fun _ => rfl⟩
    | true =>
      by_cases hinv : ∃ r ∈ sectionRuns d.elementDatas (result.map QStringRef.toString) pos,
          r.1 = QValidator.State.Invalid
      · obtain ⟨pos1, h⟩ := validate_of_invalid d text pos result hsplit hinv
        exact ⟨_, _, _, h, fun _ => rfl⟩
      · have hvalid : ∀ r ∈ sectionRuns d.elementDatas (result.map QStringRef.toString) pos,
            r.1 ≠ QValidator.State.Invalid := fun r hr hc => hinv ⟨r, hr, hc⟩
        obtain ⟨pos1, h⟩ := validate_of_valid d text pos result hsplit hvalid
        refine ⟨_, _, _, h, ?_⟩
        intro hst
        split_ifs at hst

/-! ## The full string of a `QMultiSpinBox` -/

theorem foldl_fullText : ∀ (es : List QMultiSpinBoxData) (acc : QString),
    es.foldl (fun t eData => t ++ eData.fullText) acc =
      acc ++ (es.map (fun e => e.text ++ e.suffix)).flatten := by
  intro es
  induction es with
  | nil => intro acc; simp
  | cons e es ih =>
    intro acc
    rw [List.foldl_cons, ih]
    simp only [List.map_cons, List.flatten_cons, QMultiSpinBoxData.fullText,
      List.append_assoc]

theorem invalidateText_spec (d : QMultiSpinBoxPrivate) :
    d.invalidateText.control.text = fullString d ∧
    d.invalidateText.prefixText = d.prefixText ∧
    d.invalidateText.elementDatas = d.elementDatas ∧
    d.invalidateText.currentSectionIndex = d.currentSectionIndex ∧
    d.invalidateText.emitted = d.emitted := by
  refine ⟨?_, rfl, rfl, rfl, rfl⟩
  simp only [QMultiSpinBoxPrivate.invalidateText, QWidgetLineControl.setText,
    QWidgetLineControl.setMaxLength, foldl_fullText, fullString]
  apply List.take_of_length_le
  omega

theorem invalidateText_fullString (d : QMultiSpinBoxPrivate) :
    d.invalidateText.text = fullString d.invalidateText := by
  obtain ⟨h1, h2, h3, _, _⟩ := invalidateText_spec d
  simp only [QMultiSpinBoxPrivate.text, h1, fullString, h2, h3]

theorem textLengthLoop_spec : ∀ (es : List QMultiSpinBoxData) (k : Nat) (length : Int),
    QMultiSpinBoxPrivate.textLengthLoop es (k : Int) length =
      length + (((es.take k).map (fun e => e.text.length + e.suffix.length)).sum : Nat) := by
  intro es
  induction es with
  | nil =>
    intro k length
    simp [QMultiSpinBoxPrivate.textLengthLoop]
  | cons e es ih =>
    intro k length
    cases k with
    | zero => simp [QMultiSpinBoxPrivate.textLengthLoop]
    | succ k =>
      simp only [QMultiSpinBoxPrivate.textLengthLoop]
      rw [if_neg (by omega)]
      have hk : ((k + 1 : Nat) : Int) - 1 = (k : Int) := by omega
      rw [hk, ih]
      simp only [List.take_succ_cons, List.map_cons, List.sum_cons,
        QMultiSpinBoxData.fullLength]
      push_cast
      omega

theorem ite_done {σ : Type} (c : Prop) [Decidable c] (s s1 : σ) (x : Checked σ)
    (h : (if c then Checked.failed s else x) = Checked.done s1) :
    ¬ c ∧ x = Checked.done s1 := by
  by_cases hc : c
  · rw [if_pos hc] at h
    cases h
  · rw [if_neg hc] at h
    exact ⟨hc, h⟩

theorem insertSpinElement_done (d d1 : QMultiSpinBoxPrivate) (index : Int)
    (element : QMultiSpinBoxElement) (suffix : QString)
    (h : QMultiSpinBox.insertSpinElement d index element suffix = Checked.done d1) :
    d1 = { d.insert index.toNat element suffix with
      emitted := (d.insert index.toNat element suffix).emitted ++
        [QMultiSpinBoxSignal.elementCountChanged
          (QMultiSpinBox.elementCount (d.insert index.toNat element suffix))] } := by
  unfold QMultiSpinBox.insertSpinElement at h
  obtain ⟨_, h⟩ := ite_done _ _ _ _ h
  obtain ⟨_, h⟩ := ite_done _ _ _ _ h
  obtain ⟨_, h⟩ := ite_done _ _ _ _ h
  dsimp only at h
  obtain ⟨_, h⟩ := ite_done _ _ _ _ h
  obtain ⟨_, h⟩ := ite_done _ _ _ _ h
  obtain ⟨_, h⟩ := ite_done _ _ _ _ h
  obtain ⟨_, h⟩ := ite_done _ _ _ _ h
  obtain ⟨_, h⟩ := ite_done _ _ _ _ h
  obtain ⟨_, h⟩ := ite_done _ _ _ _ h
  obtain ⟨_, h⟩ := ite_done _ _ _ _ h
  obtain ⟨_, h⟩ := ite_done _ _ _ _ h
  cases h
  rfl

theorem insertSpinElement_runs (d : QMultiSpinBoxPrivate) (index : Int)
    (element : QMultiSpinBoxElement) (suffix : QString)
    (h0 : 0 ≤ index) (h1 : index ≤ QMultiSpinBox.elementCount d)
    (h2 : 1 ≤ element.minimumInputLength)
    (h3 : element.minimumInputLength ≤ (element.defaultText.length : Int))
    (h4 : (element.defaultText.length : Int) ≤ element.maximumInputLength)
    (h5 : ∀ c ∈ QMultiSpinBox.reservedChars, element.acceptableChar c = false) :
    ∃ d1, QMultiSpinBox.insertSpinElement d index element suffix = Checked.done d1 := by
  have hc : ∀ c, c ∈ QMultiSpinBox.reservedChars → ¬ (element.acceptableChar c = true) := by
    intro c hc
    rw [h5 c hc]
    decide
  unfold QMultiSpinBox.insertSpinElement
  rw [if_neg (by omega), if_neg (by omega), if_neg (by omega)]
  dsimp only
  rw [if_neg (by omega), if_neg (by omega),
    if_neg (hc _ (by decide)), if_neg (hc _ (by decide)), if_neg (hc _ (by decide)),
    if_neg (hc _ (by decide)), if_neg (hc _ (by decide)), if_neg (hc _ (by decide))]
  exact ⟨_, rfl⟩

/-- C23: the text held by the line control of a `QMultiSpinBox` is the full string
(the leading string followed by text and suffix of every slot, in order) in the empty
model, after `clear`, and after every `insertSpinElement`, `takeSpinElement`, `setPrefix`
and `setSuffixOf` that runs to its end, from whatever state the call starts; each of
these calls runs to its end when its assertions hold.  `textLength(k)` is, for every
`k` up to the slot count, the length of the leading string plus the lengths of text and
suffix of the first `k` slots.  The example `timeBox` holds the text "00:00". -/
theorem fullString_invariant :
    QMultiSpinBoxPrivate.empty.text = fullString QMultiSpinBoxPrivate.empty ∧
    (∀ d : QMultiSpinBoxPrivate, d.clear.text = fullString d.clear) ∧
    (∀ (d d1 : QMultiSpinBoxPrivate) (index : Int) (element : QMultiSpinBoxElement)
        (suffix : QString),
      QMultiSpinBox.insertSpinElement d index element suffix = Checked.done d1 →
      d1.text = fullString d1) ∧
    (∀ (d : QMultiSpinBoxPrivate) (index : Int) (element : QMultiSpinBoxElement)
        (suffix : QString),
      0 ≤ index → index ≤ QMultiSpinBox.elementCount d →
      1 ≤ element.minimumInputLength →
      element.minimumInputLength ≤ (element.defaultText.length : Int) →
      (element.defaultText.length : Int) ≤ element.maximumInputLength →
      (∀ c ∈ QMultiSpinBox.reservedChars, element.acceptableChar c = false) →
      ∃ d1, QMultiSpinBox.insertSpinElement d index element suffix = Checked.done d1) ∧
    (∀ (d d1 : QMultiSpinBoxPrivate) (index : Int) (element : QMultiSpinBoxElement),
      QMultiSpinBox.takeSpinElement d index = some (element, d1) →
      d1.text = fullString d1) ∧
    (∀ (d : QMultiSpinBoxPrivate) (index : Int),
      0 ≤ index → index < QMultiSpinBox.elementCount d →
      ∃ r, QMultiSpinBox.takeSpinElement d index = some r) ∧
    (∀ (d : QMultiSpinBoxPrivate) (p : QString),
      (QMultiSpinBox.setPrefix d p).text = fullString (QMultiSpinBox.setPrefix d p) ∧
      (QMultiSpinBox.setPrefix d p).prefixText = p) ∧
    (∀ (d d1 : QMultiSpinBoxPrivate) (index : Int) (suffix : QString),
      QMultiSpinBox.setSuffixOf d index suffix = some d1 → d1.text = fullString d1) ∧
    (∀ (d : QMultiSpinBoxPrivate) (index : Int) (suffix : QString),
      0 ≤ index → index < QMultiSpinBox.elementCount d →
      ∃ d1, QMultiSpinBox.setSuffixOf d index suffix = some d1 ∧
        (d1.elementDatas.map (fun e => e.suffix))[index.toNat]? = some suffix) ∧
    (∀ (d : QMultiSpinBoxPrivate) (k : Nat), k ≤ d.elementDatas.length →
      d.textLength (k : Int) = (fullLengthUpTo d k : Int)) ∧
    Example.timeBox.text = ['0', '0', ':', '0', '0'] ∧
    fullString Example.timeBox = ['0', '0', ':', '0', '0'] := by
  refine ⟨by decide, ?_, ?_, ?_, ?_, ?_, ?_, ?_, ?_, ?_, by decide, by decide⟩
  · intro d
    simp [QMultiSpinBoxPrivate.clear, QMultiSpinBoxPrivate.text, fullString,
      QWidgetLineControl.setText]
  · intro d d1 index element suffix h
    rw [insertSpinElement_done d d1 index element suffix h]
    exact invalidateText_fullString _
  · intro d index element suffix h0 h1 h2 h3 h4 h5
    exact insertSpinElement_runs d index element suffix h0 h1 h2 h3 h4 h5
  · intro d d1 index element h
    simp only [QMultiSpinBox.takeSpinElement] at h
    split_ifs at h with hr
    simp only [QMultiSpinBoxPrivate.take] at h
    split at h
    · cases h
    · rename_i eData d2 heq
      split at heq
      · cases heq
      · simp only [Option.some.injEq, Prod.mk.injEq] at heq
        obtain ⟨_, hd2⟩ := heq
        simp only [Option.some.injEq, Prod.mk.injEq] at h
        obtain ⟨_, hd1⟩ := h
        rw [← hd1, ← hd2]
        split_ifs <;> exact invalidateText_fullString _
  · intro d index h0 h1
    simp only [QMultiSpinBox.elementCount] at h1
    have hlt : index.toNat < d.elementDatas.length := by omega
    simp only [QMultiSpinBox.takeSpinElement, QMultiSpinBox.elementCount,
      QMultiSpinBoxPrivate.take]
    rw [if_neg (by omega), List.getElem?_eq_getElem hlt]
    exact ⟨_, rfl⟩
  · intro d p
    exact ⟨invalidateText_fullString _, rfl⟩
  · intro d d1 index suffix h
    simp only [QMultiSpinBox.setSuffixOf] at h
    split_ifs at h with hr
    split at h
    · cases h
    · simp only [Option.some.injEq] at h
      rw [← h]
      exact invalidateText_fullString _
  · intro d index suffix h0 h1
    simp only [QMultiSpinBox.elementCount] at h1
    have hlt : index.toNat < d.elementDatas.length := by omega
    simp only [QMultiSpinBox.setSuffixOf, QMultiSpinBox.elementCount]
    rw [if_neg (by omega), List.getElem?_eq_getElem hlt]
    refine ⟨_, rfl, ?_⟩
    rw [(invalidateText_spec _).2.2.1]
    simp [List.getElem?_map, List.getElem?_set, hlt]
  · intro d k _
    simp only [QMultiSpinBoxPrivate.textLength, fullLengthUpTo]
    rw [if_pos (by omega), textLengthLoop_spec]
    push_cast
    rfl

/-! ## `simplify` -/

theorem simplifiedAux_spaces : ∀ (w : QString) (started pending : Bool),
    (∀ c ∈ w, QString.isSpace c = true) → QString.simplifiedAux w started pending = [] := by
  intro w
  induction w with
  | nil => intro _ _ _; rfl
  | cons c w ih =>
    intro started pending h
    have hc : QString.isSpace c = true := h c (List.mem_cons_self _ _)
    simp only [QString.simplifiedAux, hc, if_true]
    exact ih _ _ (fun x hx => h x (List.mem_cons_of_mem _ hx))

theorem simplifiedAux_append_spaces : ∀ (a w : QString) (started pending : Bool),
    (∀ c ∈ w, QString.isSpace c = true) →
    QString.simplifiedAux (a ++ w) started pending = QString.simplifiedAux a started pending := by
  intro a
  induction a with
  | nil =>
    intro w started pending h
    rw [List.nil_append, simplifiedAux_spaces w _ _ h]
    rfl
  | cons c a ih =>
    intro w started pending h
    simp only [List.cons_append, QString.simplifiedAux, List.append_eq, ih _ _ _ h]

theorem simplifiedAux_leading : ∀ (l rest : QString),
    (∀ c ∈ l, QString.isSpace c = true) →
    QString.simplifiedAux (l ++ rest) false false = QString.simplifiedAux rest false false := by
  intro l
  induction l with
  | nil => intro rest _; rfl
  | cons c l ih =>
    intro rest h
    have hc : QString.isSpace c = true := h c (List.mem_cons_self _ _)
    simp only [List.cons_append, QString.simplifiedAux, hc, if_true]
    exact ih rest (fun x hx => h x (List.mem_cons_of_mem _ hx))

theorem simplifiedAux_collapse : ∀ (s : QString),
    (∀ c, s.getLast? = some c → QString.isSpace c = false) →
    QString.simplifiedAux s true false = collapseRunsAux s false ∧
    (s ≠ [] → QString.simplifiedAux s true true = ' ' :: collapseRunsAux s true) := by
  intro s
  induction s with
  | nil => intro _; exact ⟨rfl, fun h => absurd rfl h⟩
  | cons c t ih =>
    intro hlast
    have ht : ∀ c1, t.getLast? = some c1 → QString.isSpace c1 = false := by
      intro c1 h1
      cases t with
      | nil => simp at h1
      | cons b l => exact hlast c1 (by rw [List.getLast?_cons_cons]; exact h1)
    obtain ⟨ih1, ih2⟩ := ih ht
    cases hc : QString.isSpace c with
    | true =>
      have htne : t ≠ [] := by
        intro h
        subst h
        have := hlast c (by simp)
        rw [hc] at this
        cases this
      simp only [QString.simplifiedAux, collapseRunsAux, hc, if_true]
      exact ⟨ih2 htne, fun _ => ih2 htne⟩
    | false =>
      simp only [QString.simplifiedAux, collapseRunsAux, hc, Bool.false_eq_true, if_false,
        if_true]
      exact ⟨by rw [ih1], fun _ => by rw [ih1]⟩

theorem simplified_decomp (L M T : QString)
    (hL : ∀ c ∈ L, QString.isSpace c = true) (hT : ∀ c ∈ T, QString.isSpace c = true)
    (hhead : ∀ c, M.head? = some c → QString.isSpace c = false)
    (hlast : ∀ c, M.getLast? = some c → QString.isSpace c = false) :
    QString.simplified (L ++ M ++ T) = collapseRuns M := by
  simp only [QString.simplified, collapseRuns]
  rw [List.append_assoc, simplifiedAux_leading L _ hL, simplifiedAux_append_spaces M T _ _ hT]
  cases M with
  | nil => rfl
  | cons c t =>
    have hc : QString.isSpace c = false := hhead c rfl
    have ht : ∀ c1, t.getLast? = some c1 → QString.isSpace c1 = false := by
      intro c1 h1
      cases t with
      | nil => simp at h1
      | cons b l => exact hlast c1 (by rw [List.getLast?_cons_cons]; exact h1)
    simp only [QString.simplifiedAux, collapseRunsAux, hc, Bool.false_eq_true, if_false]
    rw [(simplifiedAux_collapse t ht).1]

theorem insert_blank_leading (i : Nat) (s0 : QString) :
    QString.insert (List.replicate i ' ' ++ s0) i [' '] = List.replicate (i + 1) ' ' ++ s0 := by
  have h1 : (List.replicate i ' ' ++ s0).take i = List.replicate i ' ' := by
    rw [List.take_append_of_le_length (by simp)]
    exact List.take_of_length_le (by simp)
  have h2 : (List.replicate i ' ' ++ s0).drop i = s0 := by
    rw [List.drop_append_of_le_length (by simp)]
    simp
  have h3 : i - (List.replicate i ' ' ++ s0).length = 0 := by
    simp only [List.length_append, List.length_replicate]
    omega
  simp only [QString.insert]
  rw [if_neg (by simp), h1, h2, h3, List.replicate_succ']
  simp

theorem insert_blank_trailing (i : Nat) (s0 : QString) :
    QString.insert (s0 ++ List.replicate i ' ') ((s0 ++ List.replicate i ' ').length - i) [' '] =
      s0 ++ List.replicate (i + 1) ' ' := by
  have hp : (s0 ++ List.replicate i ' ').length - i = s0.length := by
    simp only [List.length_append, List.length_replicate]
    omega
  have h1 : (s0 ++ List.replicate i ' ').take s0.length = s0 := by
    rw [List.take_append_of_le_length (le_refl _)]
    exact List.take_of_length_le (le_refl _)
  have h2 : (s0 ++ List.replicate i ' ').drop s0.length = List.replicate i ' ' := by
    rw [List.drop_append_of_le_length (le_refl _)]
    simp
  have h3 : s0.length - (s0 ++ List.replicate i ' ').length = 0 := by
    simp only [List.length_append, List.length_replicate]
    omega
  simp only [QString.insert]
  rw [if_neg (by simp), hp, h1, h2, h3, List.replicate_succ]
  simp

theorem simplifyLeading_spec (L R : QString)
    (hL : ∀ c ∈ L, QString.isSpace c = true)
    (hR : ∀ c, R.head? = some c → QString.isSpace c = false) :
    ∀ (fuel i : Nat) (s0 : QString), i ≤ L.length → L.length ≤ i + fuel →
      QtMultiSpinBoxPrivate.simplifyLeading (L ++ R) fuel i (List.replicate i ' ' ++ s0) =
        List.replicate L.length ' ' ++ s0 := by
  intro fuel
  induction fuel with
  | zero =>
    intro i s0 h1 h2
    have : i = L.length := by omega
    subst this
    rfl
  | succ fuel ih =>
    intro i s0 h1 h2
    simp only [QtMultiSpinBoxPrivate.simplifyLeading]
    by_cases hi : i < L.length
    · have hlt : i < (L ++ R).length := by
        simp only [List.length_append]
        omega
      have hsp : QString.isSpace ((L ++ R).getD i ' ') = true := by
        rw [List.getD_eq_getElem _ _ hlt, List.getElem_append_left hi]
        exact hL _ (List.getElem_mem _)
      rw [if_pos ⟨hlt, hsp⟩, insert_blank_leading]
      exact ih (i + 1) s0 (by omega) (by omega)
    · have hieq : i = L.length := by omega
      subst hieq
      rw [if_neg]
      rintro ⟨hlt, hsp⟩
      cases R with
      | nil => simp at hlt
      | cons c R =>
        rw [List.getD_eq_getElem _ _ hlt, List.getElem_append_right (le_refl _)] at hsp
        simp only [Nat.sub_self, List.getElem_cons_zero] at hsp
        rw [hR c rfl] at hsp
        cases hsp

theorem simplifyTrailing_spec (P T : QString)
    (hT : ∀ c ∈ T, QString.isSpace c = true)
    (hP : ∀ c, P.getLast? = some c → QString.isSpace c = false) (hPne : P ≠ []) :
    ∀ (fuel i : Nat) (s0 : QString), i ≤ T.length → T.length ≤ i + fuel →
      QtMultiSpinBoxPrivate.simplifyTrailing (P ++ T) fuel i (s0 ++ List.replicate i ' ') =
        s0 ++ List.replicate T.length ' ' := by
  have hPpos : 0 < P.length := List.length_pos.mpr hPne
  intro fuel
  induction fuel with
  | zero =>
    intro i s0 h1 h2
    have : i = T.length := by omega
    subst this
    rfl
  | succ fuel ih =>
    intro i s0 h1 h2
    simp only [QtMultiSpinBoxPrivate.simplifyTrailing]
    have hlt : i < (P ++ T).length := by
      simp only [List.length_append]
      omega
    have hj : (P ++ T).length - i - 1 < (P ++ T).length := by omega
    by_cases hi : i < T.length
    · have hge : P.length ≤ (P ++ T).length - i - 1 := by
        simp only [List.length_append]
        omega
      have hsp : QString.isSpace ((P ++ T).getD ((P ++ T).length - i - 1) ' ') = true := by
        rw [List.getD_eq_getElem _ _ hj, List.getElem_append_right hge]
        exact hT _ (List.getElem_mem _)
      rw [if_pos ⟨hlt, hsp⟩, insert_blank_trailing]
      exact ih (i + 1) s0 (by omega) (by omega)
    · have hieq : i = T.length := by omega
      subst hieq
      rw [if_neg]
      rintro ⟨_, hsp⟩
      have hidx : (P ++ T).length - T.length - 1 = P.length - 1 := by
        simp only [List.length_append]
        omega
      have hjP : P.length - 1 < P.length := by omega
      rw [List.getD_eq_getElem _ _ hj] at hsp
      have hget : (P ++ T)[(P ++ T).length - T.length - 1] = P[P.length - 1] := by
        simp only [hidx]
        exact List.getElem_append_left hjP
      rw [hget] at hsp
      have hl : P.getLast? = some P[P.length - 1] := by
        rw [List.getLast?_eq_getElem?, List.getElem?_eq_getElem hjP]
      rw [hP _ hl] at hsp
      cases hsp

theorem collapseRuns_eq_nil (M : QString)
    (hhead : ∀ c, M.head? = some c → QString.isSpace c = false) :
    collapseRuns M = [] ↔ M = [] := by
  cases M with
  | nil => exact ⟨fun _ => rfl, fun _ => rfl⟩
  | cons c t =>
    have hc : QString.isSpace c = false := hhead c rfl
    simp [collapseRuns, collapseRunsAux, hc]

theorem simplify_decomp (L M T : QString)
    (hL : ∀ c ∈ L, QString.isSpace c = true) (hT : ∀ c ∈ T, QString.isSpace c = true)
    (hhead : ∀ c, M.head? = some c → QString.isSpace c = false)
    (hlast : ∀ c, M.getLast? = some c → QString.isSpace c = false)
    (hMT : M = [] → T = []) :
    QtMultiSpinBoxPrivate.simplify (L ++ M ++ T) =
      List.replicate L.length ' ' ++ collapseRuns M ++ List.replicate T.length ' ' := by
  have hs := simplified_decomp L M T hL hT hhead hlast
  by_cases hnil : L ++ M ++ T = []
  · simp only [List.append_eq_nil] at hnil
    obtain ⟨⟨h1, h2⟩, h3⟩ := hnil
    subst h1 h2 h3
    rfl
  · simp only [QtMultiSpinBoxPrivate.simplify]
    rw [if_neg hnil, hs]
    have hlead : ∀ s0, QtMultiSpinBoxPrivate.simplifyLeading (L ++ M ++ T)
        (L ++ M ++ T).length 0 s0 = List.replicate L.length ' ' ++ s0 := by
      intro s0
      have hR : ∀ c, (M ++ T).head? = some c → QString.isSpace c = false := by
        intro c hc
        cases M with
        | nil =>
          rw [hMT rfl] at hc
          cases hc
        | cons b M => exact hhead c hc
      have h := simplifyLeading_spec L (M ++ T) hL hR (L ++ M ++ T).length 0 s0
        (Nat.zero_le _) (by simp only [List.length_append]; omega)
      simpa [List.append_assoc] using h
    rw [hlead]
    by_cases hM : M = []
    · have hT0 := hMT hM
      subst hM hT0
      simp [collapseRuns, collapseRunsAux]
    · have hne : collapseRuns M ≠ [] := fun h => hM ((collapseRuns_eq_nil M hhead).mp h)
      have hdec : (!decide (collapseRuns M = [])) = true := by simp [hne]
      rw [if_pos hdec]
      have hP : ∀ c, (L ++ M).getLast? = some c → QString.isSpace c = false := by
        intro c hc
        rw [List.getLast?_append_of_ne_nil _ hM] at hc
        exact hlast c hc
      have h := simplifyTrailing_spec (L ++ M) T hT hP (by simp [hM]) (L ++ M ++ T).length 0
        (List.replicate L.length ' ' ++ collapseRuns M) (Nat.zero_le _)
        (by simp only [List.length_append]; omega)
      simpa using h

theorem text_decomp (text : QString) :
    text = leadingSpaces text ++ interiorText text ++ trailingSpaces text ∧
    (∀ c ∈ leadingSpaces text, QString.isSpace c = true) ∧
    (∀ c ∈ trailingSpaces text, QString.isSpace c = true) ∧
    (∀ c, (interiorText text).head? = some c → QString.isSpace c = false) ∧
    (∀ c, (interiorText text).getLast? = some c → QString.isSpace c = false) ∧
    (interiorText text = [] → trailingSpaces text = []) := by
  have hrest : ∀ c, (text.dropWhile QString.isSpace).head? = some c →
      QString.isSpace c = false := by
    intro c hc
    have h := List.head?_dropWhile_not QString.isSpace text
    rw [hc] at h
    exact h
  have hsplit : text.dropWhile QString.isSpace = interiorText text ++ trailingSpaces text := by
    simp only [interiorText, trailingSpaces, List.rdropWhile, List.rtakeWhile,
      ← List.reverse_append, List.takeWhile_append_dropWhile, List.reverse_reverse]
  refine ⟨?_, ?_, ?_, ?_, ?_, ?_⟩
  · rw [List.append_assoc, ← hsplit]
    exact (List.takeWhile_append_dropWhile QString.isSpace text).symm
  · intro c hc
    exact List.mem_takeWhile_imp hc
  · intro c hc
    exact List.mem_rtakeWhile_imp hc
  · intro c hc
    apply hrest c
    rw [hsplit]
    cases hi : interiorText text with
    | nil => rw [hi] at hc; cases hc
    | cons b l =>
      rw [hi] at hc
      exact hc
  · intro c hc
    have hne : interiorText text ≠ [] := by
      intro h
      rw [h] at hc
      cases hc
    have h := List.rdropWhile_last_not QString.isSpace (text.dropWhile QString.isSpace) hne
    rw [List.getLast?_eq_getLast _ hne] at hc
    simp only [Option.some.injEq] at hc
    rw [← hc]
    simpa using h
  · intro hi
    have hall : ∀ x ∈ text.dropWhile QString.isSpace, QString.isSpace x = true :=
      List.rdropWhile_eq_nil_iff.mp hi
    have hnil : text.dropWhile QString.isSpace = [] := by
      cases hd : text.dropWhile QString.isSpace with
      | nil => rfl
      | cons b l =>
        have h1 := hrest b (by rw [hd]; rfl)
        have h2 := hall b (by rw [hd]; exact List.mem_cons_self _ _)
        rw [h1] at h2
        cases h2
    simp only [trailingSpaces, hnil, List.rtakeWhile_nil]

/-- Counterexample to C22 as stated: for the text made of a tab and the letter "a",
`simplify` returns a space followed by "a"; the leading whitespace (the tab) is not
kept verbatim, it is replaced by a space. -/
theorem simplify_verbatim_counterexample :
    QtMultiSpinBoxPrivate.simplify ['\t', 'a'] = [' ', 'a'] ∧
    leadingSpaces ['\t', 'a'] = ['\t'] ∧
    interiorText ['\t', 'a'] = ['a'] ∧
    trailingSpaces ['\t', 'a'] = [] ∧
    QtMultiSpinBoxPrivate.simplify ['\t', 'a'] ≠
      leadingSpaces ['\t', 'a'] ++ collapseRuns (interiorText ['\t', 'a']) ++
        trailingSpaces ['\t', 'a'] := by
  decide

/-- C22 (amended): for every text, `simplify(text)` is one space for each leading
whitespace character of `text` (same count, every character replaced by a space),
followed by the interior of `text` with every run of whitespace collapsed to a single
space, followed by one space for each trailing whitespace character of `text` (same
count, every character replaced by a space).  Leading whitespace, interior and trailing
whitespace make up the text; a text of whitespace only is all leading whitespace. -/
theorem simplify_blanks (text : QString) :
    QtMultiSpinBoxPrivate.simplify text =
      List.replicate (leadingSpaces text).length ' ' ++ collapseRuns (interiorText text) ++
        List.replicate (trailingSpaces text).length ' ' ∧
    text = leadingSpaces text ++ interiorText text ++ trailingSpaces text := by
  obtain ⟨h1, h2, h3, h4, h5, h6⟩ := text_decomp text
  refine ⟨?_, h1⟩
  have h := simplify_decomp (leadingSpaces text) (interiorText text) (trailingSpaces text)
    h2 h3 h4 h5 h6
  rw [← h1] at h
  exact h
